import Mathlib

set_option maxHeartbeats 1000000

/-!
Shallow embedding of the tsbuild declaration pipeline.

The embedding models, at the level of parsed statements, the components of the
repository's declaration pipeline that the claims are about:

* `preProcess` — `DeclarationProcessor.preProcess` (src/dts/declaration-processor.ts):
  the canonicalisation pass over a single declaration file.
* `postProcess` — `DeclarationProcessor.postProcess`: the cleanup pass over bundled text.
* `FileManager` operations (`fmInit`, `fmFileWriter`, `fmFinalize`) — the declaration store.
* `loadCache` / `restoreCache` — `IncrementalBuildCache.loadCache` / `restore`.
* `typeCheckModel` / `buildModel` — `TypeScriptProject.typeCheck` / `build` control flow.
* `mergeImports` — the import-merging helper of the declaration bundler,
  including its anchored regular expression, re-implemented as a character-level matcher.
* `declSources` / `renameMapOf` / `renameOf` — conflict detection and rename
  allocation in `DeclarationBundler.combineModules` and `stripImportsExports`.
* `combineExports` — export aggregation in `combineModules`.
* `visitFuel` / `buildModuleGraph` — `DeclarationBundler.buildModuleGraph`.

Statements of declaration files are embedded as the inductive `Stmt`; module
specifiers, identifiers and file paths are opaque `String`s.  Text-level details
(exact whitespace, comment trivia) are below this abstraction: a transformation
that the source implements as a position-addressed text edit is modelled as the
corresponding edit on the parsed statement.
-/

/-- Whitespace characters recognised by the model (the common subset of the
JavaScript `\s` class: space, tab, line feed, carriage return, vertical tab, form feed). -/
def isWsChar (c : Char) : Bool :=
  c = ' ' || c = '\t' || c = '\n' || c = '\r' || c = '\x0b' || c = '\x0c'

/-- Character-list prefix test (`listPre p l` holds when `p` is a prefix of `l`). -/
def listPre : List Char → List Char → Bool
  | [], _ => true
  | _ :: _, [] => false
  | a :: as, b :: bs => a = b && listPre as bs

/-- String `s` starts with `p`. -/
def strHasPre (s p : String) : Bool := listPre p.data s.data

/-- String `s` ends with `p`. -/
def strHasSuf (s p : String) : Bool := listPre p.data.reverse s.data.reverse

/-- Substring occurrence test on character lists. -/
def listSub (p : List Char) : List Char → Bool
  | [] => listPre p []
  | c :: rest => listPre p (c :: rest) || listSub p rest

/-- String `s` contains `p` as a substring (JavaScript `String.prototype.includes`). -/
def strHasSub (s p : String) : Bool := listSub p.data s.data

/-- Drop the last `n` characters of a string (JavaScript `slice(0, -n)`). -/
def strDropLast (s : String) (n : Nat) : String := ⟨s.data.take (s.data.length - n)⟩

/-- JavaScript `Set.prototype.add` on an insertion-ordered list without duplicates. -/
def setAdd (l : List String) (x : String) : List String := if x ∈ l then l else l ++ [x]

/-- JavaScript `[...new Set(l)]`: deduplication keeping the first occurrence order. -/
def jsDedup (l : List String) : List String := l.foldl setAdd []

/-- Lookup in an insertion-ordered association list (JavaScript `Map.prototype.get`). -/
def alGet {α : Type} (m : List (String × α)) (k : String) : Option α :=
  (m.find? (fun p => p.1 == k)).map (fun p => p.2)

/-- Key-membership in an association list (JavaScript `Map.prototype.has`). -/
def alHas {α : Type} (m : List (String × α)) (k : String) : Bool := (alGet m k).isSome

/-- JavaScript `Map.prototype.set`: replaces the value in place when the key exists
(keeping its insertion position), otherwise appends the new entry. -/
def alSet {α : Type} (m : List (String × α)) (k : String) (v : α) : List (String × α) :=
  if alHas m k then m.map (fun p => if p.1 = k then (k, v) else p) else m ++ [(k, v)]

/-! ## Statement syntax

`Stmt` embeds the statement forms that `DeclarationProcessor.preProcess`,
`DeclarationProcessor.postProcess` and the declaration bundler distinguish.
Namespace (module) bodies are the nested statement list `Stmts`. -/

/-- Kinds of named declarations distinguished by the processor. -/
inductive DeclKind where
  | enumD
  | functionD
  | interfaceD
  | classD
  | typeAliasD
  | moduleD
deriving DecidableEq

/-- Presence of the `export` / `default` / `declare` modifiers on a declaration. -/
structure Modifiers where
  hasExport : Bool
  hasDefault : Bool
  hasDeclare : Bool
deriving DecidableEq

/-- The keyword of a variable statement. -/
inductive VarKeyword where
  | varK
  | letK
  | constK
deriving DecidableEq

/-- One element of a named-import list, possibly carrying an inline `type` marker. -/
structure NamedImportElem where
  typeMarked : Bool
  name : String
deriving DecidableEq

/-- The clause of an import declaration. -/
inductive ImportClauseKind where
  | named (elems : List NamedImportElem)
  | star (name : String)
  | deflt (name : String)
  | bare
deriving DecidableEq

/-- One element of a named-export list: `export { propertyName as name }`;
`propertyName` is `none` when the element is written without `as`. -/
structure ExportElem where
  propertyName : Option String
  name : String
deriving DecidableEq

mutual
/-- A statement of a declaration file.  `decl` covers the six named declaration
kinds; its `body` is the module block of a namespace declaration (`.nil` for the
other kinds) and `inlineImports` lists the specifiers of `import("...")` type
nodes occurring anywhere inside the statement, in traversal order. -/
inductive Stmt where
  | importDecl (isTypeOnly : Bool) (clause : ImportClauseKind) (spec : String)
  | exportDecl (isTypeOnly : Bool) (elems : Option (List ExportElem)) (spec : Option String)
  | decl (kind : DeclKind) (name : Option String) (mods : Modifiers) (globalAug : Bool)
      (body : Stmts) (inlineImports : List String)
  | varStmt (mods : Modifiers) (kw : VarKeyword) (names : List String) (inlineImports : List String)
  | exportAssign (expr : String)
  | emptyStmt
/-- A list of statements (used for namespace bodies, so that recursion over the
nested structure is ordinary structural recursion). -/
inductive Stmts where
  | nil
  | cons (head : Stmt) (tail : Stmts)
end

deriving instance DecidableEq for Stmt, Stmts

/-- Convert a statement-list into an ordinary list. -/
def Stmts.toList : Stmts → List Stmt
  | .nil => []
  | .cons s t => s :: t.toList

/-- Map a (non-recursive) statement transformation over a statement list. -/
def Stmts.mapShallow (f : Stmt → Stmt) : Stmts → Stmts
  | .nil => .nil
  | .cons s t => .cons (f s) (t.mapShallow f)

/-- A parsed declaration source file: the reference directives recorded by the
parser (`typeReferenceDirectives` / `referencedFiles`) and the statement list. -/
structure SrcFile where
  typeRefs : List String
  fileRefs : List String
  stmts : List Stmt
deriving DecidableEq

/-! ## preProcess (DeclarationProcessor.preProcess)

Pass 1 walks the top-level statements, collecting declared and exported names
and fixing each statement in place; pass 2 resolves inline imports and names
anonymous default exports; then the name ranges are re-ordered, the collected
exports are appended, and one namespace import per distinct inline-import
specifier is prepended. -/

/-- State of the name collection in pass 1: `declaredNames`, `exportedNames`,
and the name of the default export (empty string for "none", as in the source). -/
structure CollectSt where
  declaredNames : List String
  exportedNames : List String
  defaultExport : String
deriving DecidableEq

/-- Pass-1 name collection for a single statement.  A named declaration records
its name; `export default` sets the default name (`matchesModifier` with
`ModifierFlags.ExportDefault` requires both flags), plain `export` records an
exported name.  For variable statements a bare `default` modifier is enough to
set the default name, mirroring the explicit modifier checks in the source. -/
def collectStmt (st : CollectSt) : Stmt → CollectSt
  | .decl _ (some n) mods _ _ _ =>
    let st := { st with declaredNames := setAdd st.declaredNames n }
    if mods.hasExport && mods.hasDefault then { st with defaultExport := n }
    else if mods.hasExport then { st with exportedNames := setAdd st.exportedNames n }
    else st
  | .varStmt mods _ names _ =>
    names.foldl (fun st n =>
      let st := { st with declaredNames := setAdd st.declaredNames n }
      if mods.hasDefault then { st with defaultExport := n }
      else if mods.hasExport then { st with exportedNames := setAdd st.exportedNames n }
      else st) st
  | _ => st

/-- Declaration kinds that receive a `declare` modifier when it is missing
(interfaces and type aliases never do). -/
def needsDeclare : DeclKind → Bool
  | .interfaceD => false
  | .typeAliasD => false
  | _ => true

/-- `fixModifiers`: drop `export` and `default`, add `declare` when required. -/
def fixMods (k : DeclKind) (m : Modifiers) : Modifiers :=
  { hasExport := false, hasDefault := false, hasDeclare := m.hasDeclare || needsDeclare k }

/-- `fixModifiers` on a variable statement (variable statements always need `declare`). -/
def fixModsVar (_ : Modifiers) : Modifiers :=
  { hasExport := false, hasDefault := false, hasDeclare := true }

/-- Remove the inline `type` markers of a named-import list
(the `inlineTypePattern` rewrite). -/
def clearImportElems : ImportClauseKind → ImportClauseKind
  | .named elems => .named (elems.map (fun e => { e with typeMarked := false }))
  | c => c

/-- `duplicateExports` on one element: `{ Name }` becomes `{ Name as Name }`
(elements already carrying `as` are untouched). -/
def dupElem (e : ExportElem) : ExportElem :=
  match e.propertyName with
  | none => { propertyName := some e.name, name := e.name }
  | some _ => e

/-- `duplicateExports` on one statement of a namespace body. -/
def dupStmt : Stmt → Stmt
  | .exportDecl t (some elems) spec => .exportDecl t (some (elems.map dupElem)) spec
  | s => s

/-- `duplicateExports` over a namespace body. -/
def dupBody (b : Stmts) : Stmts := b.mapShallow dupStmt

/-- The pass-1 statement rewrite.  Empty `export {}` statements are removed
(the result is `[]`); a multi-name variable statement is split into one
statement per declarator, each carrying `declare` and the original keyword. -/
def transformA : Stmt → List Stmt
  | .importDecl isTypeOnly clause spec =>
    if isTypeOnly then [.importDecl false clause spec]
    else [.importDecl false (clearImportElems clause) spec]
  | .exportDecl _ elems spec =>
    if elems = some [] && spec = none then []
    else [.exportDecl false elems spec]
  | .decl k name mods aug body il =>
    if k = .moduleD then [.decl k name (fixMods k mods) aug (dupBody body) il]
    else [.decl k name (fixMods k mods) aug body il]
  | .varStmt mods kw names il =>
    names.map (fun n => .varStmt (fixModsVar mods) kw [n] il)
  | .exportAssign e => [.exportAssign e]
  | .emptyStmt => [.emptyStmt]

/-- The name range a statement contributes to `nameRanges` (pushed in pass 1,
before anonymous default exports are named): a named declaration that is not a
global augmentation, or a (split) single-name variable statement. -/
def rangeName : Stmt → Option String
  | .decl _ (some n) _ aug _ _ => if aug then none else some n
  | .varStmt _ _ [n] _ => some n
  | _ => none

/-- Replace every non-identifier character of an inline-import specifier by an
underscore (`createNamespaceImport`). -/
def isIdentChar (c : Char) : Bool :=
  (97 ≤ c.toNat && c.toNat ≤ 122) || (65 ≤ c.toNat && c.toNat ≤ 90) ||
    (48 ≤ c.toNat && c.toNat ≤ 57) || c.toNat = 95 || c.toNat = 36

/-- Sanitise a specifier into an identifier hint. -/
def sanitizeSpec (s : String) : String := ⟨s.data.map (fun c => if isIdentChar c then c else '_')⟩

/-- Bounded unwinding of `generateUniqueName`'s `while` loop: prefix underscores
until the hint is not a declared name. -/
def genUniqueAux : Nat → List String → String → String
  | 0, _, hint => hint
  | k + 1, declared, hint =>
    if hint ∈ declared then genUniqueAux k declared ((⟨['_']⟩ : String) ++ hint) else hint

/-- The length of the longest string in a list. -/
def maxLen (l : List String) : Nat := l.foldr (fun s acc => max s.data.length acc) 0

/-- `generateUniqueName`: the loop needs at most `maxLen declared + 1` steps,
because each step lengthens the hint by one character, so this bounded unwinding
computes exactly the value of the source's unbounded loop. -/
def genUnique (declared : List String) (hint : String) : String :=
  genUniqueAux (maxLen declared + 1) declared hint

/-- State of pass 2: the declared names (extended by generated names), the
default-export name, and the inline-import map `specifier ↦ synthetic name`
in insertion order. -/
structure PassBSt where
  declared : List String
  defaultExport : String
  inline : List (String × String)
deriving DecidableEq

mutual
/-- All inline-import specifiers inside a statement, children first
(`checkInlineImport` recurses with `forEachChild` before testing the node). -/
def inlineSpecs : Stmt → List String
  | .decl _ _ _ _ body il => inlineSpecsList body ++ il
  | .varStmt _ _ _ il => il
  | _ => []
/-- All inline-import specifiers of a statement list. -/
def inlineSpecsList : Stmts → List String
  | .nil => []
  | .cons s t => inlineSpecs s ++ inlineSpecsList t
end

mutual
/-- Remove every inline import from a statement (it has been rewritten to a
reference to the synthetic namespace import). -/
def clearInline : Stmt → Stmt
  | .decl k n m aug body _ => .decl k n m aug (clearInlineList body) []
  | .varStmt m kw ns _ => .varStmt m kw ns []
  | s => s
/-- Remove every inline import from a statement list. -/
def clearInlineList : Stmts → Stmts
  | .nil => .nil
  | .cons s t => .cons (clearInline s) (clearInlineList t)
end

/-- Record one inline-import specifier: reuse the existing synthetic name, or
generate a fresh one from the sanitised specifier and add it to the declared names. -/
def passBInlineOne (st : PassBSt) (spec : String) : PassBSt :=
  if alHas st.inline spec then st
  else
    let n := genUnique st.declared (sanitizeSpec spec)
    { st with declared := setAdd st.declared n, inline := st.inline ++ [(spec, n)] }

/-- The hint used for a nameless default export. -/
def exportDefaultHint : String := ⟨"export_default".data⟩

/-- Pass 2 on one statement: resolve its inline imports, then give a nameless
function or class declaration the default-export name (generating one first
when no default export was seen). -/
def passBStmt (st : PassBSt) (s : Stmt) : PassBSt × Stmt :=
  let st := (inlineSpecs s).foldl passBInlineOne st
  let s := clearInline s
  match s with
  | .decl k none mods aug body il =>
    if k = .functionD || k = .classD then
      if st.defaultExport = (⟨[]⟩ : String) then
        let n := genUnique st.declared exportDefaultHint
        ({ st with defaultExport := n, declared := setAdd st.declared n },
          .decl k (some n) mods aug body il)
      else (st, .decl k (some st.defaultExport) mods aug body il)
    else (st, .decl k none mods aug body il)
  | s => (st, s)

/-- Pass 2 over the statement list, threading the state left-to-right. -/
def passBList (st : PassBSt) : List Stmt → PassBSt × List Stmt
  | [] => (st, [])
  | s :: rest =>
    let p := passBStmt st s
    let q := passBList p.1 rest
    (q.1, p.2 :: q.2)

/-- Boolean test: position `k` starts a run of consecutive `some n` entries. -/
def isRunStartB (names : List (Option String)) (n : String) (k : Nat) : Bool :=
  (names.get? k == some (some n)) && (k == 0 || !(names.get? (k - 1) == some (some n)))

/-- All run-start positions of name `n`. -/
def runStarts (names : List (Option String)) (n : String) : List Nat :=
  (List.range names.length).filter (fun k => isRunStartB names n k)

/-- The start position of the last (final) run of `n` — the range that
`nameRanges` re-ordering keeps in place while moving all earlier ranges of the
same name directly in front of it. -/
def lastRunStart (names : List (Option String)) (n : String) : Nat :=
  (runStarts names n).foldr max 0

/-- The re-ordering anchor of position `i`: an unnamed statement stays at its
own position; a named statement in an earlier run of `n` is moved to the start
of the final run of `n` (statements of the final run keep their positions). -/
def anchorsOf (names : List (Option String)) : List Nat :=
  names.enum.map (fun p =>
    match p.2 with
    | none => p.1
    | some n => max p.1 (lastRunStart names n))

/-- Comparison of anchored statements by anchor. -/
def anchorLe {α : Type} (a b : Nat × α) : Prop := a.1 ≤ b.1

instance {α : Type} : DecidableRel (@anchorLe α) := fun a b => Nat.decLe a.1 b.1

instance {α : Type} : IsTotal (Nat × α) anchorLe := ⟨fun a b => Nat.le_total a.1 b.1⟩

instance {α : Type} : IsTrans (Nat × α) anchorLe := ⟨fun _ _ _ h1 h2 => Nat.le_trans h1 h2⟩

/-- Stable re-ordering of statements by their anchors (`code.move` of all
earlier ranges of a name in front of its last range).  `names` are the range
names recorded in pass 1 for the same positions. -/
def reorderWith (names : List (Option String)) (stmts : List Stmt) : List Stmt :=
  (List.insertionSort anchorLe ((anchorsOf names).zip stmts)).map (fun p => p.2)

/-- The canonical pre-processed form: statements plus the reference directives
collected from the removed triple-slash comments. -/
structure PreOut where
  stmts : List Stmt
  typeReferences : List String
  fileReferences : List String
deriving DecidableEq

/-- The empty collection state. -/
def collectInit : CollectSt :=
  { declaredNames := [], exportedNames := [], defaultExport := ⟨[]⟩ }

/-- `DeclarationProcessor.preProcess`.  Pass 1 collects names and rewrites each
statement; pass 2 resolves inline imports and names anonymous defaults; the
name ranges are re-ordered; `export default` and the aggregated `export { … }`
are appended; one `import * as n from "spec"` per inline-import specifier is
prepended (`MagicString.prepend` puts the last prepend first, hence the
reversal); the reference directives are collected and removed. -/
def preProcess (f : SrcFile) : PreOut :=
  let col := f.stmts.foldl collectStmt collectInit
  let stA := (f.stmts.map transformA).flatten
  let pb0 : PassBSt := { declared := col.declaredNames, defaultExport := col.defaultExport, inline := [] }
  let pbr := passBList pb0 stA
  let reordered := reorderWith (stA.map rangeName) pbr.2
  let withDefault :=
    if pbr.1.defaultExport = (⟨[]⟩ : String) then reordered
    else reordered ++ [Stmt.exportAssign pbr.1.defaultExport]
  let withExports :=
    if col.exportedNames = [] then withDefault
    else withDefault ++
      [Stmt.exportDecl false (some (col.exportedNames.map (fun n => { propertyName := none, name := n }))) none]
  let imports := pbr.1.inline.reverse.map (fun pr => Stmt.importDecl false (.star pr.2) pr.1)
  { stmts := imports ++ withExports,
    typeReferences := jsDedup f.typeRefs,
    fileReferences := jsDedup f.fileRefs }

/-- Wrap the code produced by `preProcess` as a new parsed source file: the
output text contains no triple-slash directives, so re-parsing yields empty
reference lists. -/
def reparse (o : PreOut) : SrcFile := { typeRefs := [], fileRefs := [], stmts := o.stmts }

/-! ## postProcess (DeclarationProcessor.postProcess)

A single traversal that removes empty statements, rewrites relative
declaration-extension specifiers of import/export declarations, and collapses
redundant `{ X as X }` export elements inside namespace bodies. -/

/-- The declaration-file extension constant (`FileExtension.DTS`). -/
def fileExtDTS : String := ⟨".d.ts".data⟩

/-- The JavaScript extension constant (`FileExtension.JS`). -/
def fileExtJS : String := ⟨".js".data⟩

/-- The `.d.tsx` suffix tested by the replacement expression. -/
def dotDTSX : String := ⟨".d.tsx".data⟩

/-- A single dot (the relative-path test `text.startsWith('.')`). -/
def dotStr : String := ⟨".".data⟩

/-- The specifier rewrite of `postProcess`: a specifier that starts with `.` and
ends with `FileExtension.DTS` has its extension replaced (`slice(0,-6)` in the
`.d.tsx` case, `slice(0,-5)` otherwise); everything else is untouched. -/
def rewriteSpecifier (text : String) : String :=
  if strHasPre text dotStr && strHasSuf text fileExtDTS then
    if strHasSuf text dotDTSX then strDropLast text 6 ++ fileExtJS
    else strDropLast text 5 ++ fileExtJS
  else text

/-- Collapse one export element: `{ X as X }` becomes `{ X }`. -/
def collapseElem (e : ExportElem) : ExportElem :=
  match e.propertyName with
  | some p => if p = e.name then { propertyName := none, name := e.name } else e
  | none => e

/-- Collapse the redundant re-exports of one statement of a namespace body. -/
def collapseStmt : Stmt → Stmt
  | .exportDecl t (some elems) spec => .exportDecl t (some (elems.map collapseElem)) spec
  | s => s

mutual
/-- `postProcess` on one statement.  `inModule` is true inside a namespace body,
where the redundant-export collapse applies.  Empty statements are removed
(result `none`). -/
def postStmt (inModule : Bool) : Stmt → Option Stmt
  | .emptyStmt => none
  | .importDecl t c spec => some (.importDecl t c (rewriteSpecifier spec))
  | .exportDecl t elems spec =>
    let elems := if inModule then elems.map (fun l => l.map collapseElem) else elems
    some (.exportDecl t elems (spec.map rewriteSpecifier))
  | .decl k n m aug body il =>
    some (.decl k n m aug (postList (k = DeclKind.moduleD) body) il)
  | s => some s
/-- `postProcess` over a statement list. -/
def postList (inModule : Bool) : Stmts → Stmts
  | .nil => .nil
  | .cons s t =>
    match postStmt inModule s with
    | none => postList inModule t
    | some s' => .cons s' (postList inModule t)
end

/-- `DeclarationProcessor.postProcess` over the statements of a re-parsed
bundled file. -/
def postProcess (stmts : List Stmt) : List Stmt :=
  stmts.filterMap (postStmt false)

/-! ## Declaration cache (IncrementalBuildCache) -/

/-- The cache format version constant (`dtsCacheVersion`). -/
def dtsCacheVersion : Nat := 2

/-- The payload of the cache file.  `version` is `none` when the deserialized
record has no version field. -/
structure VersionedCache where
  version : Option Nat
  files : List (String × PreOut)
deriving DecidableEq

/-- Outcome of reading the cache file: a deserialized payload, or a failure
(absent, unreadable or corrupted file — `Files.readCompressed` threw). -/
inductive CacheRead where
  | ok (cache : VersionedCache)
  | failure
deriving DecidableEq

/-- `IncrementalBuildCache.loadCache`: the read failure is caught and yields
`none`; a payload whose version differs from the current constant also yields
`none`. -/
def loadCache : CacheRead → Option VersionedCache
  | .ok c => if c.version = some dtsCacheVersion then some c else none
  | .failure => none

/-- `IncrementalBuildCache.restore`: a no-op when the load produced nothing,
otherwise every cached entry is written into the target mapping. -/
def restoreCache (loaded : Option VersionedCache) (target : List (String × PreOut)) :
    List (String × PreOut) :=
  match loaded with
  | none => target
  | some c => c.files.foldl (fun t kv => alSet t kv.1 kv.2) target

/-- `restore` composed with the pre-load started in the constructor: the whole
path from the on-disk read to the target mapping, total by construction
("never throws"). -/
def restoreFromDisk (r : CacheRead) (target : List (String × PreOut)) :
    List (String × PreOut) :=
  restoreCache (loadCache r) target

/-! ## Declaration store (FileManager) -/

/-- The cache as seen by the file manager: the pre-loaded read outcome and the
configured build-info path. -/
structure BuildCacheModel where
  read : CacheRead
  buildInfoPath : String
deriving DecidableEq

/-- `IncrementalBuildCache.isBuildInfoFile`. -/
def isBuildInfoFile (c : BuildCacheModel) (p : String) : Bool := p == c.buildInfoPath

/-- The mutable state of a `FileManager`: the emitted-since-init flag and the
in-memory declaration map. -/
structure FMState where
  hasEmittedFiles : Bool
  declarationFiles : List (String × PreOut)
deriving DecidableEq

/-- A freshly constructed `FileManager`. -/
def fmNew : FMState := { hasEmittedFiles := false, declarationFiles := [] }

/-- `FileManager.initialize`: reset the emitted flag; restore from the cache
when one is configured, otherwise clear the map. -/
def fmInit (cache : Option BuildCacheModel) (st : FMState) : FMState :=
  let st := { st with hasEmittedFiles := false }
  match cache with
  | some c => { st with declarationFiles := restoreCache (loadCache c.read) st.declarationFiles }
  | none => { st with declarationFiles := [] }

/-- `FileManager.fileWriter`: the build-info file (only ever recognised when a
cache is configured, via `this.cache?.isBuildInfoFile`) goes to disk; any other
write is pre-processed and stored in memory; the emitted flag is set in either
case.  The second component records the disk write, if any. -/
def fmFileWriter (cache : Option BuildCacheModel) (st : FMState) (path : String) (file : SrcFile) :
    FMState × Option (String × SrcFile) :=
  if (cache.map (fun c => isBuildInfoFile c path)).getD false then
    ({ st with hasEmittedFiles := true }, some (path, file))
  else
    ({ st with
        hasEmittedFiles := true
        declarationFiles := alSet st.declarationFiles path (preProcess file) }, none)

/-- `FileManager.finalize`: the first component is the returned Boolean
(`cache === undefined || hasEmittedFiles`), the second records whether
`cache.save` was called (`cache && hasEmittedFiles`). -/
def fmFinalize (cache : Option BuildCacheModel) (st : FMState) : Bool × Bool :=
  (cache.isNone || st.hasEmittedFiles, cache.isSome && st.hasEmittedFiles)

/-- An event of the store's life: an `initialize()` call or a `fileWriter` call. -/
inductive FMEvent where
  | initEvent
  | write (path : String) (file : SrcFile)

/-- One event applied to the store state. -/
def fmStep (cache : Option BuildCacheModel) (st : FMState) : FMEvent → FMState
  | .initEvent => fmInit cache st
  | .write p f => (fmFileWriter cache st p f).1

/-- A sequence of events applied to the store state. -/
def fmRun (cache : Option BuildCacheModel) (st : FMState) (tr : List FMEvent) : FMState :=
  tr.foldl (fmStep cache) st

/-- Whether a file was written since the most recent `initialize()` of the
trace (or since the beginning, when the trace has no `initialize()`), starting
from flag value `b`. -/
def writtenSinceAux (b : Bool) (tr : List FMEvent) : Bool :=
  tr.foldl (fun _ e => match e with | .initEvent => false | .write _ _ => true) b

/-! ## Build orchestration (TypeScriptProject.typeCheck / build) -/

/-- The severity category of a compiler diagnostic. -/
inductive DiagCategory where
  | warning
  | error
  | suggestion
  | message
deriving DecidableEq

/-- A compiler diagnostic (only the category matters to the orchestrator model). -/
structure Diagnostic where
  category : DiagCategory
deriving DecidableEq

/-- The outcome of the compiler's emit: the write-callback invocations and the
returned diagnostics. -/
structure EmitResult where
  writes : List (String × SrcFile)
  diagnostics : List Diagnostic

/-- Whether a diagnostics list contains an error-severity entry. -/
def hasErrorSeverity (diags : List Diagnostic) : Bool :=
  diags.any (fun d => d.category == DiagCategory.error)

/-- `TypeScriptProject.typeCheck`: initialize the store, run the emit through
`fileWriter`, and raise a `TypeCheck` error (before `finalize`) whenever the
diagnostics list is non-empty (`if (diagnostics.length > 0) handleTypeErrors…`,
and `handleTypeErrors` always throws).  On success the returned Boolean is
`finalize()`'s result. -/
def typeCheckModel (cache : Option BuildCacheModel) (st : FMState) (emit : EmitResult) :
    Except Unit (Bool × FMState) :=
  let st := fmInit cache st
  let st := emit.writes.foldl (fun s pw => (fmFileWriter cache s pw.1 pw.2).1) st
  if emit.diagnostics.length > 0 then Except.error ()
  else Except.ok ((fmFinalize cache st).1, st)

/-- The build options that decide which phases run after a successful type check. -/
structure BuildFlags where
  noEmit : Bool
  force : Bool
  declaration : Bool
  emitDeclarationOnly : Bool
deriving DecidableEq

/-- The observable outcome of one `build()` call: a `TypeCheck` failure (no
declaration bundling, no transpile), or completion with the record of which
downstream phases ran. -/
inductive BuildOutcome where
  | typeCheckFailed
  | completed (ranDeclarations : Bool) (ranTranspile : Bool)
deriving DecidableEq

/-- `TypeScriptProject.build`: a `TypeCheck` error aborts before any phase;
otherwise declarations are processed when enabled and transpilation runs unless
`emitDeclarationOnly`, both gated on `filesWereEmitted && (!noEmit || force)`. -/
def buildModel (cache : Option BuildCacheModel) (flags : BuildFlags) (st : FMState)
    (emit : EmitResult) : BuildOutcome :=
  match typeCheckModel cache st emit with
  | .error _ => .typeCheckFailed
  | .ok pr =>
    if pr.1 && (!flags.noEmit || flags.force) then
      .completed flags.declaration (!flags.emitDeclarationOnly)
    else .completed false false

/-! ## mergeImports (declaration-bundler)

The source matches each import statement against the anchored regular
expression

`^import\s*(?:type\s*)?\{\s*([^}]+)\s*\}\s*from\s*['"]([^'"]+)['"]\s*;?\s*$`

and merges the named members per key `"type:" + specifier` (for statements
containing the substring `"import type"`) or plain specifier.  The expression
is re-implemented below as a character-level matcher with the single
backtracking point of the optional `type` group. -/

/-- Drop leading whitespace (a `\s*` item). -/
def dropWs (l : List Char) : List Char := l.dropWhile isWsChar

/-- Match a literal prefix, returning the remainder. -/
def takeLit : List Char → List Char → Option (List Char)
  | [], rest => some rest
  | _ :: _, [] => none
  | p :: ps, c :: cs => if p = c then takeLit ps cs else none

/-- Split at the first `}`: the characters before it (all satisfying `[^}]`)
and the remainder after it. -/
def splitAtRBrace : List Char → Option (List Char × List Char)
  | [] => none
  | c :: cs =>
    if c = '}' then some ([], cs)
    else
      match splitAtRBrace cs with
      | some pr => some (c :: pr.1, pr.2)
      | none => none

/-- A quote character of the `['"]` class. -/
def isQuote (c : Char) : Bool := c = '\'' || c = '"'

/-- Split at the first quote character: the characters before it (all
satisfying `[^'"]`) and the remainder after it. -/
def splitAtQuote : List Char → Option (List Char × List Char)
  | [] => none
  | c :: cs =>
    if isQuote c then some ([], cs)
    else
      match splitAtQuote cs with
      | some pr => some (c :: pr.1, pr.2)
      | none => none

/-- The `\s*;?\s*$` tail of the expression. -/
def tailOk (l : List Char) : Bool :=
  match dropWs l with
  | [] => true
  | c :: cs => c = ';' && dropWs cs = []

/-- The `import` keyword. -/
def importKw : String := ⟨"import".data⟩

/-- The `type` keyword. -/
def typeKw : String := ⟨"type".data⟩

/-- The `from` keyword. -/
def fromKw : String := ⟨"from".data⟩

/-- Parse `\{\s*([^}]+)\s*\}\s*from\s*['"]([^'"]+)['"]\s*;?\s*$` starting at the
opening brace, returning the raw brace content and the specifier.  The raw
brace content stands for the `([^}]+)` capture: its surrounding whitespace is
immaterial because every member is trimmed after splitting. -/
def parseFromBrace : List Char → Option (String × String)
  | [] => none
  | c :: rest =>
    if c = '{' then
      match splitAtRBrace rest with
      | none => none
      | some pr =>
        if pr.1 = [] then none
        else
          match takeLit fromKw.data (dropWs pr.2) with
          | none => none
          | some r4 =>
            match dropWs r4 with
            | [] => none
            | q :: r6 =>
              if isQuote q then
                match splitAtQuote r6 with
                | some sp =>
                  if sp.1 = [] then none
                  else if tailOk sp.2 then some (⟨pr.1⟩, ⟨sp.1⟩) else none
                | none => none
              else none
    else none

/-- The full anchored import pattern: returns `(raw member text, specifier)`
for statements that match. -/
def importPatternMatch (s : String) : Option (String × String) :=
  match takeLit importKw.data s.data with
  | none => none
  | some r0 =>
    let r1 := dropWs r0
    match takeLit typeKw.data r1 with
    | some r2 =>
      match parseFromBrace (dropWs r2) with
      | some res => some res
      | none => parseFromBrace r1
    | none => parseFromBrace r1

/-- JavaScript `String.prototype.split(',')` on the character level. -/
def splitComma : List Char → List (List Char)
  | [] => [[]]
  | c :: cs =>
    if c = ',' then [] :: splitComma cs
    else
      match splitComma cs with
      | h :: t => (c :: h) :: t
      | [] => [[c]]

/-- JavaScript `String.prototype.trim`. -/
def trimChars (l : List Char) : List Char :=
  ((l.dropWhile isWsChar).reverse.dropWhile isWsChar).reverse

/-- One collated import: the accumulated member-name set (insertion order) and
the kind recorded when the key was first created. -/
structure MergeEntry where
  names : List String
  isType : Bool
deriving DecidableEq

/-- The substring whose presence classifies a statement as `import type`. -/
def importTypeStr : String := ⟨"import type".data⟩

/-- The key prefix distinguishing type imports (`typePrefixPattern`). -/
def typeTag : String := ⟨"type:".data⟩

/-- `key.replace(/^type:/, '')`. -/
def dropTypeTag (k : String) : String :=
  if strHasPre k typeTag then ⟨k.data.drop 5⟩ else k

/-- The collation key of a specifier: `` `${isType ? 'type:' : ''}${moduleSpecifier}` ``. -/
def tagKey (isType : Bool) (spec : String) : String :=
  (if isType then typeTag else (⟨[]⟩ : String)) ++ spec

/-- Well-formedness of a collated entry, maintained by the collation fold: the
key is the tag of the entry's kind and a specifier that does not itself start
with the kind tag, the specifier is a non-empty quote-free capture, and the
member names are duplicate-free quote-level captures without `}`. -/
def entryOk (ke : String × MergeEntry) : Prop :=
  ∃ spec0 : String,
    strHasPre spec0 typeTag = false ∧
    spec0.data ≠ [] ∧
    (∀ c ∈ spec0.data, isQuote c = false) ∧
    ke.1 = tagKey ke.2.isType spec0 ∧
    ke.2.names.Nodup ∧
    (∀ nm ∈ ke.2.names, (('}' : Char) ∈ nm.data) → False)

/-- One step of the collation fold: a statement matching the pattern has its
members added to the entry of its key; anything else is kept as a
non-mergeable import. -/
def mergeStep (acc : List (String × MergeEntry) × List String) (stmt : String) :
    List (String × MergeEntry) × List String :=
  match importPatternMatch stmt with
  | some pr =>
    let isType := strHasSub stmt importTypeStr
    let key := tagKey isType pr.2
    let entry := (alGet acc.1 key).getD { names := [], isType := isType }
    let names' := ((splitComma pr.1.data).map (fun piece => (⟨trimChars piece⟩ : String))).foldl setAdd entry.names
    (alSet acc.1 key { entry with names := names' }, acc.2)
  | none => (acc.1, acc.2 ++ [stmt])

/-- Collate a list of import statements into merged entries (in key insertion
order) and the non-mergeable remainder (in order of appearance). -/
def mergeImportsEntries (imports : List String) : List (String × MergeEntry) × List String :=
  imports.foldl mergeStep ([], [])

/-- String comparison used by the model for JavaScript's default array sort. -/
def strLe (a b : String) : Prop := a ≤ b

instance : DecidableRel strLe := fun a b => inferInstanceAs (Decidable (a ≤ b))

instance : IsTotal String strLe := ⟨fun a b => le_total a b⟩

instance : IsTrans String strLe := ⟨fun _ _ _ h1 h2 => le_trans h1 h2⟩

/-- JavaScript `Array.prototype.sort()` on member names (modelled with the
string order of the embedding). -/
def sortStrs (l : List String) : List String := List.insertionSort strLe l

/-- The separator of rendered member lists. -/
def commaSp : String := ⟨", ".data⟩

/-- The rendered text between the keyword and the member list. -/
def strOpenBrace : String := ⟨" \x7b ".data⟩

/-- The rendered text between the member list and the specifier. -/
def strCloseFrom : String := ⟨" \x7d from \"".data⟩

/-- The rendered text closing a merged import. -/
def strEndQuote : String := ⟨"\";".data⟩

/-- JavaScript `Array.prototype.join(sep)`. -/
def joinSep (sep : String) : List String → String
  | [] => ⟨[]⟩
  | [x] => x
  | x :: y :: rest => x ++ sep ++ joinSep sep (y :: rest)

/-- Render one merged entry:
`${isType ? 'import type' : 'import'} { ${sorted members} } from "${spec}";`. -/
def renderMerged (ke : String × MergeEntry) : String :=
  (if ke.2.isType then importTypeStr else importKw) ++ strOpenBrace ++
    joinSep commaSp (sortStrs ke.2.names) ++ strCloseFrom ++
    dropTypeTag ke.1 ++ strEndQuote

/-- `mergeImports`: merged statements (one per key) followed by the
deduplicated non-mergeable imports. -/
def mergeImports (imports : List String) : List String :=
  let pr := mergeImportsEntries imports
  pr.1.map renderMerged ++ jsDedup pr.2

/-- The kind and specifier of an output import statement: the pattern's
specifier capture paired with whether the statement begins with the
`import type` keyword sequence. -/
def outKindSpec (s : String) : Option (Bool × String) :=
  (importPatternMatch s).map (fun pr => (strHasPre s importTypeStr, pr.2))

/-! ## Conflict detection, rename allocation and export aggregation
(DeclarationBundler.combineModules / stripImportsExports) -/

/-- Top-level type and value identifiers of a module (`collectIdentifiers`). -/
structure IdentifierMap where
  types : List String
  values : List String
deriving DecidableEq

/-- A module of the graph as the composer sees it: its (normalized) path, its
pre-processed statements, and its identifier map. -/
structure ModuleM where
  path : String
  stmts : List Stmt
  identifiers : IdentifierMap
deriving DecidableEq

/-- Record that module `p` declares name `n` (`declarationSources` first pass). -/
def addNamePath (m : List (String × List String)) (n p : String) : List (String × List String) :=
  alSet m n (setAdd ((alGet m n).getD []) p)

/-- `declarationSources`: for every top-level name, the modules that declare
it, in graph iteration order (types of a module first, then its values). -/
def declSources (mods : List ModuleM) : List (String × List String) :=
  mods.foldl (fun m md =>
    let m := md.identifiers.types.foldl (fun m n => addNamePath m n md.path) m
    md.identifiers.values.foldl (fun m n => addNamePath m n md.path) m) []

/-- The rename-map key `"<identifier>:<module path>"`. -/
def renameKey (n p : String) : String := n ++ (⟨":".data⟩ : String) ++ p

/-- The dollar separator of generated names. -/
def dollarStr : String := ⟨"$".data⟩

/-- Rename allocation (`combineModules` second pass): for every name with more
than one declaring module, the first module keeps the name and the `i`-th
subsequent module gets `name$i`. -/
def renameMapOf (mods : List ModuleM) : List (String × String) :=
  (declSources mods).foldl (fun rm pr =>
    if pr.2.length > 1 then
      (pr.2.drop 1).enum.foldl (fun rm ip =>
        alSet rm (renameKey pr.1 ip.2) (pr.1 ++ dollarStr ++ toString (ip.1 + 1))) rm
    else rm) []

/-- The name of identifier `n` of module `p` in the bundled output
(`moduleRenames.get(name) ?? name` in `stripImportsExports`). -/
def renameOf (rm : List (String × String)) (n p : String) : String :=
  (alGet rm (renameKey n p)).getD n

/-- The distinct top-level declared identifiers of one module (a name that is
both a type and a value is one declaration name). -/
def moduleDeclaredNames (md : ModuleM) : List String :=
  jsDedup (md.identifiers.types ++ md.identifiers.values)

/-- All top-level declared identifiers of the bundled output, after renaming,
in module order. -/
def bundledTopLevelNames (mods : List ModuleM) : List String :=
  ((mods.map (fun md =>
    (moduleDeclaredNames md).map (fun n => renameOf (renameMapOf mods) n md.path))).flatten)

/-- The rename-allocation part of the claim: for every name declared by at
least two modules, the first declaring module keeps it and the `i`-th
subsequent declaring module maps it to `name$i`. -/
def renameAllocationProp (mods : List ModuleM) : Prop :=
  ∀ n srcs, (n, srcs) ∈ declSources mods → 2 ≤ srcs.length →
    alGet (renameMapOf mods) (renameKey n (srcs.headI)) = none ∧
    ∀ i p, (srcs.drop 1).get? i = some p →
      alGet (renameMapOf mods) (renameKey n p) = some (n ++ dollarStr ++ toString (i + 1))

/-- Per-module export categorisation of `stripImportsExports`: every element of
a standalone non-empty `export { … }` clause is classified by its local name
(values win over types, unknown names default to values), then the module's
renames are applied and each list is deduplicated, types that are also values
being dropped. -/
def stripExportsOne (rm : List (String × String)) (md : ModuleM) : List String × List String :=
  let raw := md.stmts.foldl (fun (acc : List String × List String) s =>
    match s with
    | .exportDecl _ (some elems) none =>
      if elems.length > 0 then
        elems.foldl (fun acc e =>
          let localName := e.propertyName.getD e.name
          if localName ∈ md.identifiers.values then (acc.1, acc.2 ++ [localName])
          else if localName ∈ md.identifiers.types then (acc.1 ++ [localName], acc.2)
          else (acc.1, acc.2 ++ [localName])) acc
      else acc
    | _ => acc) ([], [])
  let mappedValues := raw.2.map (fun n => renameOf rm n md.path)
  let finalValues := jsDedup mappedValues
  let finalTypes := jsDedup (((raw.1.map (fun n => renameOf rm n md.path)).filter
    (fun t => !(decide (t ∈ mappedValues)))))
  (finalTypes, finalValues)

/-- The `/node_modules/` marker tested with `path.includes`. -/
def nodeModulesSub : String := ⟨"/node_modules/".data⟩

/-- Export aggregation of `combineModules`: concatenate the per-module lists,
skipping modules under `/node_modules/`; deduplicate the value exports; keep a
type export only when it is not also a value export.  Returns
`(final type exports, final value exports)`. -/
def combineExports (mods : List ModuleM) : List String × List String :=
  let rm := renameMapOf mods
  let agg := mods.foldl (fun (acc : List String × List String) md =>
    let pr := stripExportsOne rm md
    if strHasSub md.path nodeModulesSub then acc
    else (acc.1 ++ pr.1, acc.2 ++ pr.2)) ([], [])
  let finalValue := jsDedup agg.2
  let finalType := jsDedup (agg.1.filter (fun t => !(decide (t ∈ finalValue))))
  (finalType, finalValue)

/-! ## Module graph construction (DeclarationBundler.buildModuleGraph)

The graph builder normalizes each visited path, extracts import/export-from
specifiers from the pre-processed statements, filters external and
node_modules specifiers, lazily loads resolved files from disk when `resolve`
is enabled, records bundled imports and recurses.  The injected resolver
(`resolveModuleName` plus the source-to-declaration remapping) is modelled as
an opaque function; the recursion is modelled with explicit fuel, and
`buildModuleGraph` supplies enough fuel for the recursion to run to completion
(each recursive call visits a not-yet-visited key of the declaration map, and
the keys ever present are bounded by the initial map plus the disk). -/

/-- A pattern of the `external` / `noExternal` lists: a string (equality or
directory-prefix match) or a regular expression (an opaque test). -/
inductive Pat where
  | lit (s : String)
  | regex (test : String → Bool)

/-- The slash appended for the directory-prefix match of string patterns. -/
def slashStr : String := ⟨"/".data⟩

/-- `matchesPattern` on a single pattern. -/
def patMatches (spec : String) : Pat → Bool
  | .lit s => spec == s || strHasPre spec (s ++ slashStr)
  | .regex f => f spec

/-- `DeclarationBundler.matchesPattern`. -/
def matchesPattern (spec : String) (pats : List Pat) : Bool := pats.any (patMatches spec)

/-- `extractImports`: the specifier of every import declaration and of every
export declaration that has a module specifier. -/
def extractImports (stmts : List Stmt) : List String :=
  stmts.filterMap (fun s =>
    match s with
    | .importDecl _ _ spec => some spec
    | .exportDecl _ _ (some spec) => some spec
    | _ => none)

mutual
/-- `collectIdentifiers` on one statement: imports are skipped, interfaces and
type aliases are types, enums/functions/classes and the names of variable
statements are values, module declarations are values and their bodies are
collected recursively. -/
def collectIdentsStmt (acc : IdentifierMap) : Stmt → IdentifierMap
  | .importDecl _ _ _ => acc
  | .decl k name _ _ body _ =>
    match k with
    | .interfaceD =>
      match name with
      | some n => { acc with types := setAdd acc.types n }
      | none => acc
    | .typeAliasD =>
      match name with
      | some n => { acc with types := setAdd acc.types n }
      | none => acc
    | .moduleD =>
      let acc :=
        match name with
        | some n => { acc with values := setAdd acc.values n }
        | none => acc
      collectIdentsBody acc body
    | _ =>
      match name with
      | some n => { acc with values := setAdd acc.values n }
      | none => acc
  | .varStmt _ _ names _ => names.foldl (fun a n => { a with values := setAdd a.values n }) acc
  | _ => acc
/-- `collectIdentifiers` over a namespace body. -/
def collectIdentsBody (acc : IdentifierMap) : Stmts → IdentifierMap
  | .nil => acc
  | .cons s t => collectIdentsBody (collectIdentsStmt acc s) t
end

/-- `collectIdentifiers` over the statements of a parsed module. -/
def collectIdents (stmts : List Stmt) : IdentifierMap :=
  stmts.foldl collectIdentsStmt { types := [], values := [] }

/-- The environment of one bundling call: the on-disk declaration files, the
injected resolver, path normalization (`sys.resolvePath`), the `resolve`
option, and the pattern lists. -/
structure GEnv where
  disk : List (String × SrcFile)
  resolver : String → String → Option String
  normalize : String → String
  resolveOpt : Bool
  external : List Pat
  noExternal : List Pat

/-- A node of the module graph (the fields of `ModuleInfo` the claims are
about: the resolved imports and the identifier map). -/
structure ModEntry where
  imports : List String
  identifiers : IdentifierMap
deriving DecidableEq

/-- The mutable state of `buildModuleGraph`: the declaration map (grown by
lazy disk loads), the visited set, and the two result maps. -/
structure GState where
  files : List (String × PreOut)
  visited : List String
  modules : List (String × ModEntry)
  bundledSpecifiers : List (String × List String)

/-- One `visit` call of `buildModuleGraph`, with explicit recursion fuel.
The body normalizes the path, skips visited paths, returns early for paths
not in the declaration map, and otherwise folds over the extracted specifiers:
external patterns are skipped, unresolved specifiers are skipped, node_modules
paths not matching `noExternal` are skipped, missing files are loaded from
disk when `resolve` is enabled, and resolved files present in the map are
recorded (in `imports` as a set, in the bundled specifiers as a list) and
visited recursively.  Finally the module and its bundled specifiers are
stored. -/
def visitFuel (env : GEnv) : Nat → GState → String → GState
  | 0, st, _ => st
  | fuel + 1, st, path0 =>
    let path := env.normalize path0
    if path ∈ st.visited then st
    else
      let st : GState := { st with visited := path :: st.visited }
      match alGet st.files path with
      | none => st
      | some cached =>
        let idents := collectIdents cached.stmts
        let res := (extractImports cached.stmts).foldl
          (fun (acc : GState × List String × List String) spec =>
            if matchesPattern spec env.external then acc
            else
              match env.resolver spec path with
              | none => acc
              | some resolved =>
                if strHasSub resolved nodeModulesSub && !(matchesPattern spec env.noExternal) then acc
                else
                  let files' :=
                    if !(alHas acc.1.files resolved) && env.resolveOpt then
                      match alGet env.disk resolved with
                      | some raw => alSet acc.1.files resolved (preProcess raw)
                      | none => acc.1.files
                    else acc.1.files
                  let st1 : GState := { acc.1 with files := files' }
                  if alHas st1.files resolved then
                    (visitFuel env fuel st1 resolved, setAdd acc.2.1 resolved, acc.2.2 ++ [spec])
                  else (st1, acc.2.1, acc.2.2))
          (st, ([], []))
        { res.1 with
            modules := alSet res.1.modules path { imports := res.2.1, identifiers := idents }
            bundledSpecifiers := alSet res.1.bundledSpecifiers path res.2.2 }

/-- The fold step of one `visit` call, abstracted over the recursive visit
(the body of the `for` loop over the extracted specifiers). -/
def visitStep (env : GEnv) (visitRec : GState → String → GState) (path : String)
    (acc : GState × List String × List String) (spec : String) :
    GState × List String × List String :=
  if matchesPattern spec env.external then acc
  else
    match env.resolver spec path with
    | none => acc
    | some resolved =>
      if strHasSub resolved nodeModulesSub && !(matchesPattern spec env.noExternal) then acc
      else
        let files' :=
          if !(alHas acc.1.files resolved) && env.resolveOpt then
            match alGet env.disk resolved with
            | some raw => alSet acc.1.files resolved (preProcess raw)
            | none => acc.1.files
          else acc.1.files
        let st1 : GState := { acc.1 with files := files' }
        if alHas st1.files resolved then
          (visitRec st1 resolved, setAdd acc.2.1 resolved, acc.2.2 ++ [spec])
        else (st1, acc.2.1, acc.2.2)

/-- All keys the declaration map can ever contain: the initial keys plus the
disk keys. -/
def graphKeys (files0 : List (String × PreOut)) (env : GEnv) : List String :=
  files0.map (fun p => p.1) ++ env.disk.map (fun p => p.1)

/-- `buildModuleGraph`: run the visit from the entry point with fuel large
enough that the recursion runs to completion (the recursion depth is bounded
by the number of keys the declaration map can ever contain). -/
def buildModuleGraph (env : GEnv) (files0 : List (String × PreOut)) (entry : String) : GState :=
  visitFuel env ((graphKeys files0 env).length + 1)
    { files := files0, visited := [], modules := [], bundledSpecifiers := [] } entry

/-- The contract of one `visit` call `st2 = visit(st, path)` used in the graph
invariant proof: growth and well-formedness of the visited set and the
declaration map, and closure of the new modules, visited paths and bundled
specifiers relative to the state of the call. -/
def visitPost (env : GEnv) (K : List String) (st : GState) (path : String)
    (st2 : GState) : Prop :=
  (∀ p ∈ st.visited, p ∈ st2.visited) ∧
  (st.visited.length ≤ st2.visited.length) ∧
  (∀ p ∈ st.modules.map (fun q => q.1), p ∈ st2.modules.map (fun q => q.1)) ∧
  st2.visited.Nodup ∧
  (∀ p ∈ st2.visited, p ∈ K) ∧
  (∀ p ∈ st2.files.map (fun q => q.1), p ∈ K) ∧
  (∀ p ∈ st2.visited, p ∈ st.visited ∨ p = path ∨ p ∈ st2.modules.map (fun q => q.1)) ∧
  (∀ kv ∈ st2.modules, kv ∉ st.modules → ∀ r ∈ kv.2.imports,
      r ∈ st2.modules.map (fun q => q.1) ∨ r ∈ st.visited ∨ r = path) ∧
  (∀ kv ∈ st2.bundledSpecifiers, kv ∉ st.bundledSpecifiers → ∀ spec ∈ kv.2,
      ∃ r, env.resolver spec kv.1 = some r ∧
        (r ∈ st2.modules.map (fun q => q.1) ∨ r ∈ st.visited ∨ r = path)) ∧
  (path ∈ st2.visited) ∧
  (path ∈ st.visited ∨ alGet st.files path = none ∨ path ∈ st2.modules.map (fun q => q.1))

/-- The invariant of the specifier fold inside one `visit` call processing
`path` from base state `st` (already marked visited), with `fuel` remaining
for the recursive visits. -/
def visitInv (env : GEnv) (K : List String) (fuel : Nat) (st : GState) (path : String)
    (acc : GState × List String × List String) : Prop :=
  (∀ p ∈ path :: st.visited, p ∈ acc.1.visited) ∧
  K.length + 1 ≤ fuel + acc.1.visited.length ∧
  acc.1.visited.Nodup ∧
  (∀ p ∈ acc.1.visited, p ∈ K) ∧
  (∀ p ∈ acc.1.files.map (fun q => q.1), p ∈ K) ∧
  (∀ p ∈ acc.1.visited, p ∈ st.visited ∨ p = path ∨ p ∈ acc.1.modules.map (fun q => q.1)) ∧
  (∀ p ∈ st.modules.map (fun q => q.1), p ∈ acc.1.modules.map (fun q => q.1)) ∧
  (∀ kv ∈ acc.1.modules, kv ∉ st.modules → ∀ r ∈ kv.2.imports,
      r ∈ acc.1.modules.map (fun q => q.1) ∨ r ∈ st.visited ∨ r = path) ∧
  (∀ kv ∈ acc.1.bundledSpecifiers, kv ∉ st.bundledSpecifiers → ∀ sp ∈ kv.2,
      ∃ r, env.resolver sp kv.1 = some r ∧
        (r ∈ acc.1.modules.map (fun q => q.1) ∨ r ∈ st.visited ∨ r = path)) ∧
  (∀ r ∈ acc.2.1, r ∈ acc.1.visited) ∧
  (∀ sp ∈ acc.2.2, ∃ r, env.resolver sp path = some r ∧ r ∈ acc.1.visited) ∧
  st.visited.length + 1 ≤ acc.1.visited.length

/-- Reachability along the `imports` sets of the graph's modules. -/
inductive ReachableIn (st : GState) : String → String → Prop where
  | refl (p : String) : ReachableIn st p p
  | step {p q r : String} (m : ModEntry) :
      ReachableIn st p q → alGet st.modules q = some m → r ∈ m.imports → ReachableIn st p r

/-- Whether module `md` declares identifier `n` at top level. -/
def declB (md : ModuleM) (n : String) : Bool :=
  decide (n ∈ md.identifiers.types) || decide (n ∈ md.identifiers.values)

/-- The paths of the modules declaring `n`, in graph iteration order,
deduplicated (the contents of `declarationSources.get(n)`). -/
def srcsOf (mods : List ModuleM) (n : String) : List String :=
  mods.foldl (fun acc md => if declB md n then setAdd acc md.path else acc) []

/-- The rename-map entries contributed by one `declarationSources` entry:
nothing for a name with a single declaring module, `name:path -> name$i`
for the `i`-th subsequent declaring module otherwise. -/
def entryKVs (pr : String × List String) : List (String × String) :=
  if pr.2.length > 1 then
    (pr.2.drop 1).enum.map
      (fun ip => (renameKey pr.1 ip.2, pr.1 ++ dollarStr ++ toString (ip.1 + 1)))
  else []

/-- The rename map as a flat key-value list, entry by entry. -/
def rmPairs (mods : List ModuleM) : List (String × String) :=
  (declSources mods).flatMap entryKVs

/-- One step of `declarationSources`' first pass: record every type and value
identifier of `md` under the module's path (types first). -/
def stepModule (m : List (String × List String)) (md : ModuleM) :
    List (String × List String) :=
  md.identifiers.values.foldl (fun m n => addNamePath m n md.path)
    (md.identifiers.types.foldl (fun m n => addNamePath m n md.path) m)

/-- The (declared name, module path) pairs of the bundled modules, in output
order. -/
def declPairs (mods : List ModuleM) : List (String × String) :=
  mods.flatMap (fun md => (moduleDeclaredNames md).map (fun n => (n, md.path)))

/-- A nameless function or class declaration (the shape pass 2 names). -/
def namelessFC : Stmt → Bool
  | .decl k none _ _ _ _ => decide (k = DeclKind.functionD) || decide (k = DeclKind.classD)
  | _ => false

/-- No inline `type` marker in an import clause. -/
def clauseClean : ImportClauseKind → Bool
  | .named elems => elems.all (fun e => !e.typeMarked)
  | _ => true

/-- Statements whose type-only imports carry no inline `type` markers (invalid
TypeScript otherwise: `import type { type A }` is rejected by the compiler). -/
def typeOnlyClean : Stmt → Bool
  | .importDecl true clause _ => clauseClean clause
  | _ => true

/-- The statement shapes `transformA` produces: fixed modifiers, no type-only
or empty-exports forms, single-name variable statements, duplicated namespace
exports. -/
def outStmtOk : Stmt → Bool
  | .importDecl it clause _ => !it && clauseClean clause
  | .exportDecl it elems spec =>
    !it && !(decide (elems = some []) && decide (spec = none))
  | .decl k _ mods _ body _ =>
    decide (mods = fixMods k mods) &&
      (!(decide (k = DeclKind.moduleD)) || decide (dupBody body = body))
  | .varStmt mods _ names _ => decide (mods = fixModsVar mods) && decide (names.length = 1)
  | .exportAssign _ => true
  | .emptyStmt => true

/-- The canonical statement forms of `preProcess` output: `transformA`-shaped,
no inline imports, inline-cleared, and no nameless function/class. -/
def canonStmt (s : Stmt) : Bool :=
  outStmtOk s && decide (inlineSpecs s = []) && decide (clearInline s = s) && !(namelessFC s)

/-- All occurrences of each name are contiguous: any position between two
occurrences of `n` is itself an occurrence of `n`. -/
def groupedNames (N : List (Option String)) : Prop :=
  ∀ (n : String) (i j k : Nat), i ≤ j → j ≤ k →
    N.get? i = some (some n) → N.get? k = some (some n) → N.get? j = some (some n)

/-- The largest position of an occurrence of `n` (the final range's end). -/
def maxOcc (N : List (Option String)) (n : String) : Nat :=
  ((List.range N.length).filter (fun q => N.get? q == some (some n))).foldr max 0

/-! # Helper lemmas -/

theorem setAdd_mem {l : List String} {x y : String} : y ∈ setAdd l x ↔ y ∈ l ∨ y = x := by
  unfold setAdd
  by_cases h : x ∈ l
  · rw [if_pos h]
    constructor
    · exact Or.inl
    · rintro (hy | rfl)
      · exact hy
      · exact h
  · rw [if_neg h]
    simp [List.mem_append]

theorem foldl_setAdd_mem (l : List String) (acc : List String) (x : String) :
    x ∈ l.foldl setAdd acc ↔ x ∈ acc ∨ x ∈ l := by
  induction l generalizing acc with
  | nil => simp
  | cons a t ih =>
    simp only [List.foldl_cons, ih, setAdd_mem, List.mem_cons]
    tauto

theorem jsDedup_mem {l : List String} {x : String} : x ∈ jsDedup l ↔ x ∈ l := by
  unfold jsDedup
  rw [foldl_setAdd_mem]
  simp

theorem setAdd_nodup {l : List String} (h : l.Nodup) (x : String) : (setAdd l x).Nodup := by
  unfold setAdd
  split
  · exact h
  · next hx =>
    simpa [List.nodup_append] using ⟨h, hx⟩

theorem foldl_setAdd_nodup (l : List String) (acc : List String) (h : acc.Nodup) :
    (l.foldl setAdd acc).Nodup := by
  induction l generalizing acc with
  | nil => exact h
  | cons a t ih => exact ih _ (setAdd_nodup h a)

theorem jsDedup_nodup (l : List String) : (jsDedup l).Nodup :=
  foldl_setAdd_nodup l [] List.nodup_nil

theorem fmInit_flag (cache : Option BuildCacheModel) (st : FMState) :
    (fmInit cache st).hasEmittedFiles = false := by
  cases cache <;> rfl

theorem fmFileWriter_flag (cache : Option BuildCacheModel) (st : FMState) (p : String)
    (f : SrcFile) : ((fmFileWriter cache st p f).1).hasEmittedFiles = true := by
  unfold fmFileWriter
  split <;> rfl

theorem fmRun_flag (cache : Option BuildCacheModel) (st : FMState) (tr : List FMEvent) :
    (fmRun cache st tr).hasEmittedFiles = writtenSinceAux st.hasEmittedFiles tr := by
  induction tr generalizing st with
  | nil => rfl
  | cons e rest ih =>
    have hstep : fmRun cache st (e :: rest) = fmRun cache (fmStep cache st e) rest := rfl
    have hw : writtenSinceAux st.hasEmittedFiles (e :: rest) =
        writtenSinceAux (fmStep cache st e).hasEmittedFiles rest := by
      cases e with
      | initEvent =>
        have h1 : (fmStep cache st FMEvent.initEvent).hasEmittedFiles = false :=
          fmInit_flag cache st
        show writtenSinceAux false rest = _
        rw [h1]
      | write p f =>
        have h1 : (fmStep cache st (FMEvent.write p f)).hasEmittedFiles = true :=
          fmFileWriter_flag cache st p f
        show writtenSinceAux true rest = _
        rw [h1]
    rw [hstep, ih, hw]

/-! # Claim theorems -/

/-- Claim C6 (confirmed): `restore` never throws (the model of the whole
read-to-restore path is a total function), it leaves the target untouched —
in particular an empty target stays empty — whenever the cache file read
failed (absent, unreadable, corrupted) or the payload's version field is
missing or different from the current constant, and it populates the target
with the payload's files exactly when the version equals the constant. -/
theorem C6_cache_restore_version_gating (r : CacheRead) (target : List (String × PreOut)) :
    ((match r with
      | CacheRead.failure => True
      | CacheRead.ok c => c.version ≠ some dtsCacheVersion) →
      restoreFromDisk r target = target) ∧
    (∀ c, r = CacheRead.ok c → c.version = some dtsCacheVersion →
      restoreFromDisk r target = c.files.foldl (fun t kv => alSet t kv.1 kv.2) target) := by
  constructor
  · intro h
    cases r with
    | failure => rfl
    | ok c =>
      simp only [restoreFromDisk, loadCache, if_neg h]
      rfl
  · rintro c rfl hv
    simp only [restoreFromDisk, loadCache, if_pos hv]
    rfl

/-- Witness for C6 at concrete inputs: a version-1 payload restores nothing
into an empty (and a non-empty) target, and a version-2 payload populates an
empty target with its files. -/
theorem C6_witness :
    restoreFromDisk (CacheRead.ok { version := some 1, files := [(("/a"), { stmts := [], typeReferences := [], fileReferences := [] })] }) [] = [] ∧
    restoreFromDisk CacheRead.failure [] = [] ∧
    restoreFromDisk (CacheRead.ok { version := some dtsCacheVersion, files := [(("/a"), { stmts := [], typeReferences := [], fileReferences := [] })] }) [] =
      [(("/a"), { stmts := [], typeReferences := [], fileReferences := [] })] := by
  refine ⟨?_, ?_, ?_⟩
  · exact (C6_cache_restore_version_gating (CacheRead.ok { version := some 1, files := [(("/a"), { stmts := [], typeReferences := [], fileReferences := [] })] }) []).1 (by decide)
  · exact (C6_cache_restore_version_gating CacheRead.failure []).1 trivial
  · exact (C6_cache_restore_version_gating (CacheRead.ok { version := some dtsCacheVersion, files := [(("/a"), { stmts := [], typeReferences := [], fileReferences := [] })] }) []).2 _ rfl rfl

/-- Claim C3 (confirmed): after any sequence of `initialize()` / `fileWriter`
calls on a freshly constructed store, `finalize()` returns `false` exactly
when a cache is configured and no file was written since the most recent
`initialize()`; with caching disabled it always returns `true`; and
`cache.save` is invoked exactly when caching is enabled and a file was written
since the most recent `initialize()`. -/
theorem C3_finalize_incremental_gate (cache : Option BuildCacheModel) (tr : List FMEvent) :
    ((fmFinalize cache (fmRun cache fmNew tr)).1 = false ↔
      cache.isSome = true ∧ writtenSinceAux false tr = false) ∧
    (cache = none → (fmFinalize cache (fmRun cache fmNew tr)).1 = true) ∧
    ((fmFinalize cache (fmRun cache fmNew tr)).2 = true ↔
      cache.isSome = true ∧ writtenSinceAux false tr = true) := by
  have hflag : (fmRun cache fmNew tr).hasEmittedFiles = writtenSinceAux false tr :=
    fmRun_flag cache fmNew tr
  refine ⟨?_, ?_, ?_⟩
  · simp only [fmFinalize, hflag]
    cases cache <;> cases writtenSinceAux false tr <;> simp
  · rintro rfl
    simp only [fmFinalize]
    simp
  · simp only [fmFinalize, hflag]
    cases cache <;> cases writtenSinceAux false tr <;> simp

/-- Claim C10 (confirmed): with no build cache configured, every `fileWriter`
call — whatever the path, including any build-info path — performs no disk
write, sets the emitted flag, and stores the pre-processed file in the
in-memory map, because the build-info check is only reached through
`this.cache?.isBuildInfoFile`. -/
theorem C10_no_cache_always_memory (st : FMState) (path : String) (file : SrcFile) :
    (fmFileWriter none st path file).2 = none ∧
    (fmFileWriter none st path file).1 =
      { hasEmittedFiles := true,
        declarationFiles := alSet st.declarationFiles path (preProcess file) } := by
  exact ⟨rfl, rfl⟩

/-- Counterexample for claim C5 as stated: at an emit returning a single
warning-severity diagnostic, the build terminates with a `TypeCheck` failure
although the diagnostics contain no error-severity entry. -/
theorem C5_counterexample :
    buildModel none
      { noEmit := false, force := false, declaration := true, emitDeclarationOnly := false }
      fmNew { writes := [], diagnostics := [{ category := DiagCategory.warning }] } =
      BuildOutcome.typeCheckFailed ∧
    hasErrorSeverity [{ category := DiagCategory.warning }] = false := by
  exact ⟨rfl, rfl⟩

/-- Claim C5 (amended): a `TypeCheck` error is raised — terminating the build
with no transpile and no declaration bundle — if and only if the emit's
diagnostics list is non-empty, whatever the severities; only an emit with an
empty diagnostics list proceeds to `finalize` and the downstream phases. -/
theorem C5_typecheck_raises_iff_nonempty (cache : Option BuildCacheModel) (flags : BuildFlags)
    (st : FMState) (emit : EmitResult) :
    buildModel cache flags st emit = BuildOutcome.typeCheckFailed ↔ emit.diagnostics ≠ [] := by
  cases h : emit.diagnostics with
  | nil =>
    have hne : buildModel cache flags st emit ≠ BuildOutcome.typeCheckFailed := by
      simp only [buildModel, typeCheckModel, h, List.length_nil, gt_iff_lt, lt_self_iff_false,
        if_false]
      split <;> simp
    simp [hne]
  | cons d rest =>
    have heq : buildModel cache flags st emit = BuildOutcome.typeCheckFailed := by
      simp [buildModel, typeCheckModel, h]
    simp [heq]

/-- Claim C9 (confirmed): in the aggregated exports of a bundled output, the
final value-export list and the final type-export list are disjoint — an
identifier that is both a value and a type is emitted among the value exports
only, never in the `export type` list. -/
theorem C9_value_exports_dominate (mods : List ModuleM) :
    ∀ n, n ∈ (combineExports mods).2 → n ∉ (combineExports mods).1 := by
  intro n hv ht
  simp only [combineExports] at hv ht
  rw [jsDedup_mem] at ht
  have hcond := (List.mem_filter.mp ht).2
  rw [Bool.not_eq_true'] at hcond
  exact absurd hv (of_decide_eq_false hcond)

/-- Claim C4 (code bug): `postProcess` guards the extension rewrite with
`text.endsWith(FileExtension.DTS)` where `FileExtension.DTS` is `".d.ts"`,
which is false for a specifier ending in `".d.tsx"`, so the replacement's
explicit `.d.tsx → .js` branch is unreachable: a relative `.d.tsx` specifier
passes through `postProcess` unchanged (and remains in the final output),
while a relative `.d.ts` specifier is rewritten to `.js`. -/
theorem C4_dtsx_specifier_not_rewritten :
    postProcess [Stmt.importDecl false ImportClauseKind.bare ("./other.d.tsx")] =
      [Stmt.importDecl false ImportClauseKind.bare ("./other.d.tsx")] ∧
    postProcess [Stmt.importDecl false ImportClauseKind.bare ("./other.d.ts")] =
      [Stmt.importDecl false ImportClauseKind.bare ("./other.js")] ∧
    strHasSuf ("./other.d.tsx") dotDTSX = true ∧
    strHasSuf ("./other.d.tsx") fileExtDTS = false := by
  exact ⟨rfl, rfl, rfl, rfl⟩

theorem alGet_mem {α : Type} {m : List (String × α)} {k : String} {v : α}
    (h : alGet m k = some v) : (k, v) ∈ m := by
  unfold alGet at h
  cases hf : m.find? (fun p => p.1 == k) with
  | none => rw [hf] at h; cases h
  | some p =>
    rw [hf] at h
    have hk : p.1 = k := by
      have := List.find?_some hf
      exact eq_of_beq this
    have hm := List.mem_of_find?_eq_some hf
    cases p with
    | mk a b =>
      have hbv : b = v := Option.some.inj h
      subst hbv
      cases hk
      exact hm

theorem alHas_iff_keys {α : Type} {m : List (String × α)} {k : String} :
    alHas m k = true ↔ k ∈ m.map (fun p => p.1) := by
  unfold alHas alGet
  induction m with
  | nil => simp
  | cons p t ih =>
    by_cases h : p.1 = k
    · rw [List.find?_cons_of_pos _ (by simpa using h)]
      simp [h]
    · rw [List.find?_cons_of_neg _ (by simpa using h)]
      simp only [List.map_cons, List.mem_cons]
      rw [ih]
      constructor
      · exact Or.inr
      · rintro (h0 | h0)
        · exact absurd h0.symm h
        · exact h0

theorem alSet_keys {α : Type} (m : List (String × α)) (k : String) (v : α) :
    (alSet m k v).map (fun p => p.1) =
      if alHas m k then m.map (fun p => p.1) else m.map (fun p => p.1) ++ [k] := by
  unfold alSet
  split
  · next h =>
    rw [List.map_map]
    refine List.map_congr_left ?_
    intro p _
    by_cases hk : p.1 = k <;> simp [hk]
  · next h =>
    simp

theorem alSet_mem {α : Type} {m : List (String × α)} {k : String} {v : α} {ke : String × α}
    (h : ke ∈ alSet m k v) : ke = (k, v) ∨ ke ∈ m := by
  unfold alSet at h
  split at h
  · rcases List.mem_map.mp h with ⟨p, hp, heq⟩
    by_cases hk : p.1 = k
    · left
      rw [← heq, if_pos hk]
    · right
      rw [← heq, if_neg hk]
      exact hp
  · rcases List.mem_append.mp h with h | h
    · exact Or.inr h
    · left
      simpa using h

theorem find_upd {α : Type} (m : List (String × α)) (k : String) (v : α)
    (h : k ∈ m.map (fun p => p.1)) :
    (m.map (fun p => if p.1 = k then (k, v) else p)).find? (fun p => p.1 == k) = some (k, v) := by
  induction m with
  | nil => simp at h
  | cons p t ih =>
    by_cases hk : p.1 = k
    · simp only [List.map_cons, if_pos hk]
      rw [List.find?_cons_of_pos _ (by simp)]
    · have h' : k ∈ t.map (fun p => p.1) := by
        rw [List.map_cons] at h
        rcases List.mem_cons.mp h with h0 | h0
        · exact absurd h0.symm hk
        · exact h0
      simp only [List.map_cons, if_neg hk]
      rw [List.find?_cons_of_neg _ (by simpa using hk)]
      exact ih h'

theorem alGet_alSet_self {α : Type} (m : List (String × α)) (k : String) (v : α) :
    alGet (alSet m k v) k = some v := by
  unfold alSet
  split
  · next h =>
    unfold alGet
    rw [find_upd m k v (alHas_iff_keys.mp h)]
    rfl
  · next h =>
    unfold alGet
    rw [List.find?_append]
    have hnone : m.find? (fun p => p.1 == k) = none := by
      cases hf : m.find? (fun p => p.1 == k) with
      | none => rfl
      | some p =>
        exfalso
        apply h
        unfold alHas alGet
        rw [hf]
        rfl
    rw [hnone]
    simp [List.find?]

theorem alGet_alSet_ne {α : Type} (m : List (String × α)) (k k' : String) (v : α)
    (h : k' ≠ k) : alGet (alSet m k v) k' = alGet m k' := by
  unfold alSet
  split
  · next hhas =>
    clear hhas
    unfold alGet
    have : (m.map (fun p => if p.1 = k then (k, v) else p)).find? (fun p => p.1 == k') =
        m.find? (fun p => p.1 == k') := by
      induction m with
      | nil => rfl
      | cons p t ih =>
        by_cases hk : p.1 = k
        · simp only [List.map_cons, if_pos hk]
          rw [List.find?_cons_of_neg _ (by simpa using Ne.symm h),
            List.find?_cons_of_neg _ (by rw [hk]; simpa using Ne.symm h)]
          exact ih
        · simp only [List.map_cons, if_neg hk]
          by_cases hk' : p.1 = k'
          · rw [List.find?_cons_of_pos _ (by simpa using hk'),
              List.find?_cons_of_pos _ (by simpa using hk')]
          · rw [List.find?_cons_of_neg _ (by simpa using hk'),
              List.find?_cons_of_neg _ (by simpa using hk')]
            exact ih
    rw [this]
  · next hhas =>
    clear hhas
    unfold alGet
    rw [List.find?_append]
    have hkk : (k == k') = false := beq_eq_false_iff_ne.mpr (Ne.symm h)
    have h1 : List.find? (fun p => p.1 == k') [(k, v)] = none := by
      simp [List.find?, hkk]
    rw [h1]
    cases m.find? (fun p => p.1 == k') <;> rfl

theorem listPre_self_append (l r : List Char) : listPre l (l ++ r) = true := by
  induction l with
  | nil => rfl
  | cons a as ih => simp [listPre, ih]

theorem listPre_append_cancel (a b c : List Char) :
    listPre (a ++ b) (a ++ c) = listPre b c := by
  induction a with
  | nil => rfl
  | cons x xs ih => simp [listPre, ih]

theorem strEmptyAppend (s : String) : (⟨[]⟩ : String) ++ s = s := by
  cases s
  rfl

theorem tagKey_pre (b : Bool) (s : String) (h : strHasPre s typeTag = false) :
    strHasPre (tagKey b s) typeTag = b := by
  cases b with
  | true =>
    show strHasPre (typeTag ++ s) typeTag = true
    unfold strHasPre
    rw [String.data_append]
    exact listPre_self_append typeTag.data s.data
  | false =>
    show strHasPre ((⟨[]⟩ : String) ++ s) typeTag = false
    rw [strEmptyAppend]
    exact h

theorem dropTypeTag_tagged (s : String) : dropTypeTag (typeTag ++ s) = s := by
  unfold dropTypeTag
  rw [if_pos]
  · show String.mk ((typeTag ++ s).data.drop 5) = s
    rw [String.data_append]
    have h5 : typeTag.data.length = 5 := rfl
    rw [← h5, List.drop_left]
  · unfold strHasPre
    rw [String.data_append]
    exact listPre_self_append typeTag.data s.data

theorem dropTypeTag_untagged {s : String} (h : strHasPre s typeTag = false) :
    dropTypeTag s = s := by
  unfold dropTypeTag
  rw [if_neg]
  simp [h]

theorem dropTypeTag_tagKey (b : Bool) {s : String} (h : strHasPre s typeTag = false) :
    dropTypeTag (tagKey b s) = s := by
  cases b with
  | true => exact dropTypeTag_tagged s
  | false =>
    show dropTypeTag ((⟨[]⟩ : String) ++ s) = s
    rw [strEmptyAppend]
    exact dropTypeTag_untagged h

theorem tagKey_inj {b1 b2 : Bool} {s1 s2 : String}
    (h1 : strHasPre s1 typeTag = false) (h2 : strHasPre s2 typeTag = false)
    (h : tagKey b1 s1 = tagKey b2 s2) : b1 = b2 ∧ s1 = s2 := by
  have hb : b1 = b2 := by
    have := congrArg (fun k => strHasPre k typeTag) h
    simpa [tagKey_pre b1 s1 h1, tagKey_pre b2 s2 h2] using this
  subst hb
  refine ⟨rfl, ?_⟩
  have := congrArg dropTypeTag h
  rwa [dropTypeTag_tagKey b1 h1, dropTypeTag_tagKey b1 h2] at this

theorem takeLit_self_append (p r : List Char) : takeLit p (p ++ r) = some r := by
  induction p with
  | nil => rfl
  | cons a as ih => simp [takeLit, ih]

theorem splitAtRBrace_append {pre : List Char} (post : List Char)
    (h : (('}' : Char) ∈ pre) → False) :
    splitAtRBrace (pre ++ '}' :: post) = some (pre, post) := by
  induction pre with
  | nil => simp [splitAtRBrace]
  | cons c cs ih =>
    have hc : c ≠ '}' := fun hcc => h (by rw [hcc]; exact List.mem_cons_self _ _)
    have ih' := ih (fun hm => h (List.mem_cons_of_mem c hm))
    simp only [List.cons_append, splitAtRBrace, if_neg hc, List.append_eq, ih']

theorem splitAtQuote_append {pre : List Char} (post : List Char) (q : Char)
    (hq : isQuote q = true) (h : ∀ c ∈ pre, isQuote c = false) :
    splitAtQuote (pre ++ q :: post) = some (pre, post) := by
  induction pre with
  | nil => simp [splitAtQuote, hq]
  | cons c cs ih =>
    have hc : isQuote c = false := h c (List.mem_cons_self _ _)
    have ih' := ih (fun x hx => h x (List.mem_cons_of_mem c hx))
    simp only [List.cons_append, splitAtQuote, hc, Bool.false_eq_true, if_false, List.append_eq,
      ih']

theorem splitAtRBrace_spec : ∀ {l pre post : List Char},
    splitAtRBrace l = some (pre, post) → (('}' : Char) ∈ pre → False) := by
  intro l
  induction l with
  | nil => intro pre post h; cases h
  | cons c cs ih =>
    intro pre post h hm
    by_cases hc : c = '}'
    · simp only [splitAtRBrace, if_pos hc] at h
      cases h
      cases hm
    · simp only [splitAtRBrace, if_neg hc] at h
      cases hsp : splitAtRBrace cs with
      | none => rw [hsp] at h; cases h
      | some pr =>
        rw [hsp] at h
        cases h
        rcases List.mem_cons.mp hm with h0 | h0
        · exact hc h0.symm
        · exact ih hsp h0

theorem splitAtQuote_spec : ∀ {l pre post : List Char},
    splitAtQuote l = some (pre, post) → ∀ c ∈ pre, isQuote c = false := by
  intro l
  induction l with
  | nil => intro pre post h; cases h
  | cons c cs ih =>
    intro pre post h x hx
    by_cases hc : isQuote c = true
    · simp only [splitAtQuote, if_pos hc] at h
      cases h
      cases hx
    · simp only [splitAtQuote, if_neg hc] at h
      cases hsp : splitAtQuote cs with
      | none => rw [hsp] at h; cases h
      | some pr =>
        rw [hsp] at h
        cases h
        rcases List.mem_cons.mp hx with h0 | h0
        · rw [h0]
          exact Bool.not_eq_true _ ▸ (Bool.eq_false_iff.mpr hc)
        · exact ih hsp x h0

theorem parseFromBrace_spec : ∀ {l : List Char} {ns spec : String},
    parseFromBrace l = some (ns, spec) →
    ((('}' : Char) ∈ ns.data → False) ∧ ns.data ≠ [] ∧ spec.data ≠ [] ∧
      ∀ c ∈ spec.data, isQuote c = false) := by
  intro l ns spec h
  match l with
  | [] => exact absurd h (by simp [parseFromBrace])
  | c :: rest =>
    rw [parseFromBrace] at h
    split at h
    · split at h
      · cases h
      · next pr hbr =>
        split at h
        · cases h
        · next hne =>
          split at h
          · cases h
          · next r4 htl =>
            split at h
            · cases h
            · next q r6 hdw =>
              split at h
              · split at h
                · next sp hsq =>
                  split at h
                  · cases h
                  · next hspne =>
                    split at h
                    · cases h
                      exact ⟨splitAtRBrace_spec hbr, hne, hspne, splitAtQuote_spec hsq⟩
                    · cases h
                · cases h
              · cases h
    · cases h

theorem importPatternMatch_spec {s : String} {ns spec : String}
    (h : importPatternMatch s = some (ns, spec)) :
    ((('}' : Char) ∈ ns.data → False) ∧ ns.data ≠ [] ∧ spec.data ≠ [] ∧
      ∀ c ∈ spec.data, isQuote c = false) := by
  unfold importPatternMatch at h
  split at h
  · cases h
  · next r0 h0 =>
    dsimp only at h
    split at h
    · next r2 h1 =>
      split at h
      · next res h2 =>
        cases h
        exact parseFromBrace_spec h2
      · next h2 =>
        exact parseFromBrace_spec h
    · next h1 =>
      exact parseFromBrace_spec h

theorem splitComma_chars : ∀ (l : List Char) (piece : List Char),
    piece ∈ splitComma l → ∀ c ∈ piece, c ∈ l := by
  intro l
  induction l with
  | nil =>
    intro piece hp c hc
    simp only [splitComma, List.mem_singleton] at hp
    subst hp
    cases hc
  | cons a as ih =>
    intro piece hp c hc
    by_cases ha : a = ','
    · simp only [splitComma, if_pos ha] at hp
      rcases List.mem_cons.mp hp with h0 | h0
      · subst h0; cases hc
      · exact List.mem_cons_of_mem a (ih piece h0 c hc)
    · simp only [splitComma, if_neg ha] at hp
      cases hsp : splitComma as with
      | nil =>
        rw [hsp] at hp
        simp only [List.mem_singleton] at hp
        subst hp
        rcases List.mem_cons.mp hc with h0 | h0
        · rw [h0]; exact List.mem_cons_self a as
        · cases h0
      | cons hd tl =>
        rw [hsp] at hp
        rcases List.mem_cons.mp hp with h0 | h0
        · subst h0
          rcases List.mem_cons.mp hc with h1 | h1
          · rw [h1]; exact List.mem_cons_self a as
          · have : hd ∈ splitComma as := by rw [hsp]; exact List.mem_cons_self hd tl
            exact List.mem_cons_of_mem a (ih hd this c h1)
        · have : piece ∈ splitComma as := by rw [hsp]; exact List.mem_cons_of_mem hd h0
          exact List.mem_cons_of_mem a (ih piece this c hc)

theorem trimChars_sub {l : List Char} {c : Char} (h : c ∈ trimChars l) : c ∈ l := by
  unfold trimChars at h
  have h1 := (List.dropWhile_sublist (l := (l.dropWhile isWsChar).reverse) isWsChar).subset
  rw [List.mem_reverse] at h
  have h2 := h1 h
  rw [List.mem_reverse] at h2
  exact (List.dropWhile_sublist isWsChar).subset h2

theorem joinSep_chars (sep : String) : ∀ (l : List String) (c : Char),
    c ∈ (joinSep sep l).data → c ∈ sep.data ∨ ∃ s ∈ l, c ∈ s.data := by
  intro l
  induction l with
  | nil =>
    intro c hc
    cases hc
  | cons x rest ih =>
    intro c hc
    cases rest with
    | nil =>
      right
      exact ⟨x, List.mem_singleton_self x, hc⟩
    | cons y t =>
      rw [show joinSep sep (x :: y :: t) = x ++ sep ++ joinSep sep (y :: t) from rfl] at hc
      rw [String.data_append, String.data_append] at hc
      rcases List.mem_append.mp hc with hc | hc
      · rcases List.mem_append.mp hc with hc | hc
        · exact Or.inr ⟨x, List.mem_cons_self _ _, hc⟩
        · exact Or.inl hc
      · rcases ih c hc with hc | ⟨s, hs, hcs⟩
        · exact Or.inl hc
        · exact Or.inr ⟨s, List.mem_cons_of_mem x hs, hcs⟩

theorem dropWs_cons_ws {c : Char} (h : isWsChar c = true) (l : List Char) :
    dropWs (c :: l) = dropWs l := by
  simp [dropWs, List.dropWhile, h]

theorem dropWs_cons_not {c : Char} (h : isWsChar c = false) (l : List Char) :
    dropWs (c :: l) = c :: l := by
  simp [dropWs, List.dropWhile, h]

theorem dropWs_space (l : List Char) : dropWs (' ' :: l) = dropWs l := dropWs_cons_ws (by decide) l

theorem dropWs_lbrace (l : List Char) : dropWs ('{' :: l) = '{' :: l := dropWs_cons_not (by decide) l

theorem dropWs_dquote (l : List Char) : dropWs ('"' :: l) = '"' :: l := dropWs_cons_not (by decide) l

theorem dropWs_fromKw (y : List Char) : dropWs (fromKw.data ++ y) = fromKw.data ++ y := by
  show dropWs ('f' :: (['r', 'o', 'm'] ++ y)) = 'f' :: (['r', 'o', 'm'] ++ y)
  exact dropWs_cons_not (by decide) _

theorem isQuote_dquote : isQuote ('"') = true := rfl

theorem tailOk_semi : tailOk [';'] = true := rfl

theorem parse_canonical (mem spec : String)
    (hmem : ('}' : Char) ∈ mem.data → False)
    (hspec : spec.data ≠ []) (hq : ∀ c ∈ spec.data, isQuote c = false) :
    parseFromBrace (dropWs (' ' :: '{' :: ' ' ::
        (mem.data ++ (' ' :: '}' :: (' ' :: (fromKw.data ++
          (' ' :: '"' :: (spec.data ++ ['"', ';'])))))))) =
      some (⟨' ' :: (mem.data ++ [' '])⟩, spec) := by
  rw [dropWs_space, dropWs_lbrace]
  have hsplit : splitAtRBrace (' ' ::
      (mem.data ++ (' ' :: '}' :: (' ' :: (fromKw.data ++
        (' ' :: '"' :: (spec.data ++ ['"', ';']))))))) =
      some (' ' :: (mem.data ++ [' ']),
        ' ' :: (fromKw.data ++ (' ' :: '"' :: (spec.data ++ ['"', ';'])))) := by
    have hre : ' ' :: (mem.data ++ (' ' :: '}' :: (' ' :: (fromKw.data ++
        (' ' :: '"' :: (spec.data ++ ['"', ';'])))))) =
        (' ' :: (mem.data ++ [' '])) ++ '}' ::
          (' ' :: (fromKw.data ++ (' ' :: '"' :: (spec.data ++ ['"', ';'])))) := by
      simp
    rw [hre]
    apply splitAtRBrace_append
    intro hmem'
    rcases List.mem_cons.mp hmem' with h0 | h0
    · cases h0
    · rcases List.mem_append.mp h0 with h1 | h1
      · exact hmem h1
      · simp at h1
  have hq2 : splitAtQuote (spec.data ++ ['"', ';']) = some (spec.data, [';']) := by
    have h0 : spec.data ++ ['"', ';'] = spec.data ++ '"' :: [';'] := rfl
    rw [h0]
    exact splitAtQuote_append [';'] ('"') rfl hq
  simp only [parseFromBrace, if_true, hsplit]
  rw [if_neg (by simp)]
  simp only [dropWs_space, dropWs_fromKw, takeLit_self_append, dropWs_dquote, isQuote_dquote,
    if_true, hq2, eq_self_iff_true]
  rw [if_neg hspec]
  rw [if_pos (show tailOk [';'] = true from rfl)]

theorem dropWs_typeKw (y : List Char) : dropWs (typeKw.data ++ y) = typeKw.data ++ y := by
  show dropWs ('t' :: (['y', 'p', 'e'] ++ y)) = 't' :: (['y', 'p', 'e'] ++ y)
  exact dropWs_cons_not (by decide) _

theorem renderMerged_data (ke : String × MergeEntry) :
    (renderMerged ke).data =
      (if ke.2.isType then importTypeStr else importKw).data ++
        (' ' :: '{' :: ' ' :: ((joinSep commaSp (sortStrs ke.2.names)).data ++
          (' ' :: '}' :: (' ' :: (fromKw.data ++
            (' ' :: '"' :: ((dropTypeTag ke.1).data ++ ['"', ';']))))))) := by
  unfold renderMerged
  simp only [String.data_append]
  rw [show strOpenBrace.data = [' ', '{', ' '] from rfl,
    show strCloseFrom.data = [' ', '}', ' '] ++ (fromKw.data ++ [' ', '"']) from rfl,
    show strEndQuote.data = ['"', ';'] from rfl]
  simp

theorem render_kind (ke : String × MergeEntry) :
    strHasPre (renderMerged ke) importTypeStr = ke.2.isType := by
  unfold strHasPre
  rw [renderMerged_data]
  cases hb : ke.2.isType with
  | true =>
    simp only [if_true]
    exact listPre_self_append importTypeStr.data _
  | false =>
    simp only [Bool.false_eq_true, if_false]
    rw [show importTypeStr.data = importKw.data ++ (' ' :: typeKw.data) from rfl,
      listPre_append_cancel]
    rfl

theorem render_parse (ke : String × MergeEntry) (hok : entryOk ke) :
    importPatternMatch (renderMerged ke) =
      some (⟨' ' :: ((joinSep commaSp (sortStrs ke.2.names)).data ++ [' '])⟩, dropTypeTag ke.1) := by
  obtain ⟨spec0, hpre, hne, hnq, hkey, hnodup, hbr⟩ := hok
  have hdt : dropTypeTag ke.1 = spec0 := by
    rw [hkey]
    exact dropTypeTag_tagKey _ hpre
  have hmemJ : ('}' : Char) ∈ (joinSep commaSp (sortStrs ke.2.names)).data → False := by
    intro hc
    rcases joinSep_chars commaSp (sortStrs ke.2.names) '}' hc with hc | ⟨s, hs, hcs⟩
    · exact absurd hc (by decide)
    · exact hbr s ((List.perm_insertionSort strLe ke.2.names).subset hs) hcs
  have hT := parse_canonical (joinSep commaSp (sortStrs ke.2.names)) spec0 hmemJ hne hnq
  unfold importPatternMatch
  rw [renderMerged_data, hdt]
  cases hb : ke.2.isType with
  | true =>
    simp only [if_true]
    rw [show importTypeStr.data = importKw.data ++ (' ' :: typeKw.data) from rfl,
      List.append_assoc, takeLit_self_append]
    rw [dropWs_space] at hT
    simp only [List.cons_append, dropWs_space, dropWs_typeKw, takeLit_self_append, hT, hdt]
  | false =>
    simp only [Bool.false_eq_true, if_false]
    rw [takeLit_self_append]
    have e2 : takeLit typeKw.data (dropWs (' ' :: '{' :: ' ' ::
        ((joinSep commaSp (sortStrs ke.2.names)).data ++
          ' ' :: '}' :: ' ' :: (fromKw.data ++
            ' ' :: '"' :: (spec0.data ++ ['"', ';'])))) ) = none := by
      rw [dropWs_space, dropWs_lbrace]
      rfl
    simp only [e2, hT, hdt]

theorem mergeStep_none {acc : List (String × MergeEntry) × List String} {s : String}
    (h : importPatternMatch s = none) : mergeStep acc s = (acc.1, acc.2 ++ [s]) := by
  unfold mergeStep
  rw [h]

theorem mergeStep_some {acc : List (String × MergeEntry) × List String} {s : String}
    {pr : String × String} (h : importPatternMatch s = some pr) :
    mergeStep acc s =
      (alSet acc.1 (tagKey (strHasSub s importTypeStr) pr.2)
        { names := ((splitComma pr.1.data).map
              (fun piece => (⟨trimChars piece⟩ : String))).foldl setAdd
            ((alGet acc.1 (tagKey (strHasSub s importTypeStr) pr.2)).getD
              { names := [], isType := strHasSub s importTypeStr }).names
          isType := ((alGet acc.1 (tagKey (strHasSub s importTypeStr) pr.2)).getD
              { names := [], isType := strHasSub s importTypeStr }).isType },
        acc.2) := by
  unfold mergeStep
  rw [h]

theorem mergeFold_rest : ∀ (imports : List String)
    (acc : List (String × MergeEntry) × List String),
    (imports.foldl mergeStep acc).2 =
      acc.2 ++ imports.filter (fun s => (importPatternMatch s).isNone) := by
  intro imports
  induction imports with
  | nil => intro acc; simp
  | cons s tl ih =>
    intro acc
    rw [List.foldl_cons]
    cases hm : importPatternMatch s with
    | none =>
      rw [mergeStep_none hm, ih]
      simp [List.filter_cons, hm]
    | some pr =>
      rw [mergeStep_some hm, ih]
      simp [List.filter_cons, hm]

theorem mergeStep_entries_inv {acc : List (String × MergeEntry) × List String} {s : String}
    (hs : ∀ pr, importPatternMatch s = some pr → strHasPre pr.2 typeTag = false)
    (hkeys : (acc.1.map (fun p => p.1)).Nodup)
    (hok : ∀ ke ∈ acc.1, entryOk ke) :
    (((mergeStep acc s).1.map (fun p => p.1)).Nodup ∧
      ∀ ke ∈ (mergeStep acc s).1, entryOk ke) := by
  cases hm : importPatternMatch s with
  | none =>
    rw [mergeStep_none hm]
    exact ⟨hkeys, hok⟩
  | some pr =>
    obtain ⟨ns, sp⟩ := pr
    obtain ⟨hns, hnsne, hspne, hspq⟩ := importPatternMatch_spec hm
    have hpre : strHasPre sp typeTag = false := hs (ns, sp) hm
    rw [mergeStep_some hm]
    dsimp only
    have hnewname : ∀ nm : String,
        nm ∈ (splitComma ns.data).map (fun piece => (⟨trimChars piece⟩ : String)) →
        (('}' : Char) ∈ nm.data) → False := by
      intro nm hnm hbr
      rcases List.mem_map.mp hnm with ⟨piece, hp, hpe⟩
      rw [← hpe] at hbr
      exact hns (splitComma_chars ns.data piece hp _ (trimChars_sub hbr))
    constructor
    · rw [alSet_keys]
      by_cases hh : alHas acc.1 (tagKey (strHasSub s importTypeStr) sp) = true
      · rw [if_pos hh]
        exact hkeys
      · rw [if_neg hh]
        refine List.Nodup.append hkeys (List.nodup_singleton _) ?_
        intro a ha hb
        rw [List.mem_singleton] at hb
        subst hb
        exact hh (alHas_iff_keys.mpr ha)
    · intro ke hke
      rcases alSet_mem hke with heq | hold
      · subst heq
        cases halget : alGet acc.1 (tagKey (strHasSub s importTypeStr) sp) with
        | none =>
          simp only [halget, Option.getD_none]
          refine ⟨sp, hpre, hspne, hspq, rfl, ?_, ?_⟩
          · exact foldl_setAdd_nodup _ [] List.nodup_nil
          · intro nm hnm hbr
            rcases (foldl_setAdd_mem _ [] nm).mp hnm with h0 | h0
            · cases h0
            · exact hnewname nm h0 hbr
        | some oldE =>
          simp only [halget, Option.getD_some]
          obtain ⟨spec0, hp0, hn0, hq0, hkey0, hnd0, hbr0⟩ :=
            hok (tagKey (strHasSub s importTypeStr) sp, oldE) (alGet_mem halget)
          refine ⟨spec0, hp0, hn0, hq0, hkey0, ?_, ?_⟩
          · exact foldl_setAdd_nodup _ _ hnd0
          · intro nm hnm hbr
            rcases (foldl_setAdd_mem _ _ nm).mp hnm with h0 | h0
            · exact hbr0 nm h0 hbr
            · exact hnewname nm h0 hbr
      · exact hok ke hold

theorem mergeFold_entries_inv : ∀ (imports : List String)
    (acc : List (String × MergeEntry) × List String),
    (∀ s ∈ imports, ∀ pr, importPatternMatch s = some pr → strHasPre pr.2 typeTag = false) →
    (acc.1.map (fun p => p.1)).Nodup →
    (∀ ke ∈ acc.1, entryOk ke) →
    (((imports.foldl mergeStep acc).1.map (fun p => p.1)).Nodup ∧
      ∀ ke ∈ (imports.foldl mergeStep acc).1, entryOk ke) := by
  intro imports
  induction imports with
  | nil =>
    intro acc _ hk ho
    exact ⟨hk, ho⟩
  | cons s tl ih =>
    intro acc hs hk ho
    rw [List.foldl_cons]
    obtain ⟨hk1, ho1⟩ :=
      mergeStep_entries_inv (fun pr h => hs s (List.mem_cons_self _ _) pr h) hk ho
    exact ih _ (fun t ht pr h => hs t (List.mem_cons_of_mem s ht) pr h) hk1 ho1

theorem entries_pairs : ∀ (l : List (String × MergeEntry)),
    (∀ ke ∈ l, entryOk ke) →
    (l.map renderMerged).filterMap outKindSpec =
      l.map (fun ke => (ke.2.isType, dropTypeTag ke.1)) := by
  intro l
  induction l with
  | nil =>
    intro _
    rfl
  | cons ke t ih =>
    intro h
    have hout : outKindSpec (renderMerged ke) = some (ke.2.isType, dropTypeTag ke.1) := by
      simp only [outKindSpec, render_parse ke (h ke (List.mem_cons_self _ _)),
        Option.map_some', render_kind]
    simp only [List.map_cons, List.filterMap_cons, hout,
      ih (fun x hx => h x (List.mem_cons_of_mem ke hx))]

theorem entries_pairs_nodup (l : List (String × MergeEntry))
    (hkeys : (l.map (fun p => p.1)).Nodup) (hok : ∀ ke ∈ l, entryOk ke) :
    (l.map (fun ke => (ke.2.isType, dropTypeTag ke.1))).Nodup := by
  have hl : l.Nodup := hkeys.of_map
  refine List.Nodup.map_on ?_ hl
  intro x hx y hy hxy
  obtain ⟨sx, px, _, _, kx, _, _⟩ := hok x hx
  obtain ⟨sy, py, _, _, ky, _, _⟩ := hok y hy
  have hb : x.2.isType = y.2.isType := congrArg Prod.fst hxy
  have hd : dropTypeTag x.1 = dropTypeTag y.1 := congrArg Prod.snd hxy
  rw [kx, ky, dropTypeTag_tagKey _ px, dropTypeTag_tagKey _ py] at hd
  have hx1 : x.1 = y.1 := by
    rw [kx, ky, hb, hd]
  exact List.inj_on_of_nodup_map hkeys hx hy hx1

/-- C8 (amended): provided no matched import statement's specifier itself starts
with the `type:` key tag, the bundled import list contains at most one merged
named-import statement per (kind, specifier) pair; each merged statement parses
back to the deduplicated, sorted member list of its entry and the entry's
untagged specifier; and the non-mergeable imports pass through exactly the
non-matching inputs in order, deduplicated. -/
theorem C8_merged_import_uniqueness (imports : List String)
    (hs : imports.all (fun s =>
      match importPatternMatch s with
      | some pr => !(strHasPre pr.2 typeTag)
      | none => true) = true) :
    ((mergeImports imports).filterMap outKindSpec).Nodup ∧
    (∀ ke ∈ (mergeImportsEntries imports).1,
      (sortStrs ke.2.names).Nodup ∧ (sortStrs ke.2.names).Sorted strLe ∧
      importPatternMatch (renderMerged ke) =
        some (⟨' ' :: ((joinSep commaSp (sortStrs ke.2.names)).data ++ [' '])⟩,
          dropTypeTag ke.1)) ∧
    (mergeImportsEntries imports).2 =
      imports.filter (fun s => (importPatternMatch s).isNone) ∧
    (jsDedup (mergeImportsEntries imports).2).Nodup := by
  have hs' : ∀ s ∈ imports, ∀ pr, importPatternMatch s = some pr →
      strHasPre pr.2 typeTag = false := by
    intro s hsm pr h
    have hall := List.all_eq_true.mp hs s hsm
    rw [h] at hall
    simpa using hall
  obtain ⟨hkeys, hok⟩ := mergeFold_entries_inv imports ([], []) hs' List.nodup_nil
    (by intro ke h; cases h)
  have hrest : (mergeImportsEntries imports).2 =
      imports.filter (fun s => (importPatternMatch s).isNone) := by
    have hmr := mergeFold_rest imports ([], [])
    simpa [mergeImportsEntries] using hmr
  refine ⟨?_, ?_, hrest, jsDedup_nodup _⟩
  · unfold mergeImports
    dsimp only
    rw [List.filterMap_append]
    have h2 : (jsDedup (mergeImportsEntries imports).2).filterMap outKindSpec = [] := by
      rw [List.filterMap_eq_nil_iff]
      intro s hsm
      have hsr : s ∈ (mergeImportsEntries imports).2 := jsDedup_mem.mp hsm
      rw [hrest] at hsr
      have hnone : (importPatternMatch s).isNone = true := (List.mem_filter.mp hsr).2
      unfold outKindSpec
      rw [Option.isNone_iff_eq_none.mp hnone]
      rfl
    have he : (mergeImportsEntries imports).1 = (List.foldl mergeStep ([], []) imports).1 := rfl
    rw [h2, List.append_nil, he, entries_pairs _ hok]
    exact entries_pairs_nodup _ hkeys hok
  · intro ke hke
    have hko := hok ke hke
    refine ⟨?_, List.sorted_insertionSort strLe ke.2.names, render_parse ke hko⟩
    obtain ⟨_, _, _, _, _, hnd, _⟩ := hko
    exact ((List.perm_insertionSort strLe ke.2.names).nodup_iff).mpr hnd

/-- C8 counterexample: a plain import whose module specifier literally starts
with `type:` collides with the untagged key space — collating
`import { C } from "type:x"` together with `import { D } from "x"` produces two
distinct merged entries that both render as plain imports from `"x"`, so the
output has two statements for the same (kind, specifier) pair. -/
theorem C8_counterexample :
    ¬ ((mergeImports ["import \x7b C \x7d from \"type:x\"",
        "import \x7b D \x7d from \"x\""]).filterMap outKindSpec).Nodup := by
  decide

theorem C8_merged_import_uniqueness_witness :
    ((["import \x7b B \x7d from \"m\"", "import type \x7b A \x7d from \"m\"",
       "import * as ns from \"m\""] : List String).all (fun s =>
      match importPatternMatch s with
      | some pr => !(strHasPre pr.2 typeTag)
      | none => true) = true) ∧
    ((mergeImports ["import \x7b B \x7d from \"m\"", "import type \x7b A \x7d from \"m\"",
       "import * as ns from \"m\""]).filterMap outKindSpec).Nodup :=
  ⟨by decide, (C8_merged_import_uniqueness _ (by decide)).1⟩

theorem toDigitsCore_eq : ∀ (fuel n : Nat) (ds : List Char), 0 < n → n < fuel →
    Nat.toDigitsCore 10 fuel n ds = ((Nat.digits 10 n).map Nat.digitChar).reverse ++ ds := by
  intro fuel
  induction fuel with
  | zero =>
    intro n ds hn hlt
    exact absurd hlt (Nat.not_lt_zero n)
  | succ f ih =>
    intro n ds hn hlt
    rw [Nat.toDigitsCore]
    have hdig := Nat.digits_def' (by norm_num : (1:Nat) < 10) hn
    by_cases hz : n / 10 = 0
    · rw [if_pos hz]
      rw [hdig, hz]
      simp
    · rw [if_neg hz]
      have hn' : 0 < n / 10 := Nat.pos_of_ne_zero hz
      have hlt' : n / 10 < f := by
        have h1 : n / 10 < n := Nat.div_lt_self hn (by norm_num)
        omega
      rw [ih (n / 10) _ hn' hlt', hdig]
      simp

theorem map_digitChar_inj : ∀ {l1 l2 : List Nat}, (∀ d ∈ l1, d < 10) → (∀ d ∈ l2, d < 10) →
    l1.map Nat.digitChar = l2.map Nat.digitChar → l1 = l2 := by
  intro l1
  induction l1 with
  | nil =>
    intro l2 _ _ h
    cases l2 with
    | nil => rfl
    | cons b t => cases h
  | cons a t ih =>
    intro l2 h1 h2 h
    cases l2 with
    | nil => cases h
    | cons b t2 =>
      simp only [List.map_cons, List.cons.injEq] at h
      have hd : ∀ d1 < 10, ∀ d2 < 10, Nat.digitChar d1 = Nat.digitChar d2 → d1 = d2 := by decide
      have hab : a = b := hd a (h1 a (List.mem_cons_self _ _)) b (h2 b (List.mem_cons_self _ _)) h.1
      rw [hab, ih (fun d hdm => h1 d (List.mem_cons_of_mem a hdm))
        (fun d hdm => h2 d (List.mem_cons_of_mem b hdm)) h.2]

theorem nat_repr_inj : ∀ {m n : Nat}, Nat.repr m = Nat.repr n → m = n := by
  have key : ∀ {k : Nat}, 0 < k →
      (Nat.repr k).data = ((Nat.digits 10 k).map Nat.digitChar).reverse := by
    intro k hk
    show (Nat.toDigitsCore 10 (k+1) k []).asString.data = _
    rw [toDigitsCore_eq (k+1) k [] hk (Nat.lt_succ_self k)]
    simp [List.asString]
  intro m n h
  have hdata : (Nat.repr m).data = (Nat.repr n).data := by rw [h]
  rcases Nat.eq_zero_or_pos m with hm | hm <;> rcases Nat.eq_zero_or_pos n with hn | hn
  · rw [hm, hn]
  · exfalso
    subst hm
    rw [key hn] at hdata
    have h0 : (Nat.repr 0).data = ['0'] := rfl
    rw [h0] at hdata
    have hmap0 : (Nat.digits 10 n).map Nat.digitChar = ['0'] := by
      have hr := congrArg List.reverse hdata
      simpa using hr.symm
    have hdig : Nat.digits 10 n = [0] :=
      map_digitChar_inj (fun d hdm => Nat.digits_lt_base (by norm_num) hdm) (by simp)
        (by simpa using hmap0)
    have hof := Nat.ofDigits_digits 10 n
    rw [hdig] at hof
    simp [Nat.ofDigits] at hof
    omega
  · exfalso
    subst hn
    rw [key hm] at hdata
    have h0 : (Nat.repr 0).data = ['0'] := rfl
    rw [h0] at hdata
    have hmap0 : (Nat.digits 10 m).map Nat.digitChar = ['0'] := by
      have hr := congrArg List.reverse hdata
      simpa using hr
    have hdig : Nat.digits 10 m = [0] :=
      map_digitChar_inj (fun d hdm => Nat.digits_lt_base (by norm_num) hdm) (by simp)
        (by simpa using hmap0)
    have hof := Nat.ofDigits_digits 10 m
    rw [hdig] at hof
    simp [Nat.ofDigits] at hof
    omega
  · rw [key hm, key hn] at hdata
    have hmap := List.reverse_injective hdata
    have hdig := map_digitChar_inj (fun d hdm => Nat.digits_lt_base (by norm_num) hdm)
      (fun d hdm => Nat.digits_lt_base (by norm_num) hdm) hmap
    have h1 := Nat.ofDigits_digits 10 m
    rw [hdig, Nat.ofDigits_digits] at h1
    exact h1.symm

theorem strData_inj : ∀ {s t : String}, s.data = t.data → s = t := by
  intro s t h
  cases s
  cases t
  exact congrArg String.mk h

theorem append_sep_inj {c : Char} : ∀ {a1 : List Char} {a2 b1 b2 : List Char},
    c ∉ a1 → c ∉ a2 → a1 ++ c :: b1 = a2 ++ c :: b2 → a1 = a2 ∧ b1 = b2 := by
  intro a1
  induction a1 with
  | nil =>
    intro a2 b1 b2 _ h2 h
    cases a2 with
    | nil =>
      simp only [List.nil_append, List.cons.injEq] at h
      exact ⟨rfl, h.2⟩
    | cons x xs =>
      simp only [List.nil_append, List.cons_append, List.cons.injEq] at h
      exfalso
      exact h2 (by rw [← h.1]; exact List.mem_cons_self _ _)
  | cons y ys ih =>
    intro a2 b1 b2 h1 h2 h
    cases a2 with
    | nil =>
      simp only [List.cons_append, List.nil_append, List.cons.injEq] at h
      exfalso
      exact h1 (by rw [h.1]; exact List.mem_cons_self _ _)
    | cons x xs =>
      simp only [List.cons_append, List.cons.injEq] at h
      have hys := ih (fun hm => h1 (List.mem_cons_of_mem y hm))
        (fun hm => h2 (List.mem_cons_of_mem x hm)) h.2
      exact ⟨by rw [h.1, hys.1], hys.2⟩

theorem renameKey_data (n p : String) : (renameKey n p).data = n.data ++ ':' :: p.data := by
  unfold renameKey
  rw [String.data_append, String.data_append]
  simp

theorem renameKey_inj {n1 p1 n2 p2 : String}
    (h1 : (':' : Char) ∉ n1.data) (h2 : (':' : Char) ∉ n2.data)
    (h : renameKey n1 p1 = renameKey n2 p2) : n1 = n2 ∧ p1 = p2 := by
  have hd := congrArg String.data h
  rw [renameKey_data, renameKey_data] at hd
  obtain ⟨ha, hb⟩ := append_sep_inj h1 h2 hd
  exact ⟨strData_inj ha, strData_inj hb⟩

theorem renameKey_inj_snd {n p1 p2 : String}
    (h : renameKey n p1 = renameKey n p2) : p1 = p2 := by
  have hd := congrArg String.data h
  rw [renameKey_data, renameKey_data] at hd
  have hb := List.append_cancel_left hd
  exact strData_inj (List.cons.inj hb).2

theorem genName_data (n : String) (k : Nat) :
    (n ++ dollarStr ++ toString k).data = n.data ++ '$' :: (Nat.repr k).data := by
  rw [String.data_append, String.data_append]
  simp [dollarStr]
  rfl

theorem genName_inj {n1 n2 : String} {k1 k2 : Nat}
    (h1 : ('$' : Char) ∉ n1.data) (h2 : ('$' : Char) ∉ n2.data)
    (h : n1 ++ dollarStr ++ toString k1 = n2 ++ dollarStr ++ toString k2) :
    n1 = n2 ∧ k1 = k2 := by
  have hd := congrArg String.data h
  rw [genName_data, genName_data] at hd
  obtain ⟨ha, hb⟩ := append_sep_inj h1 h2 hd
  exact ⟨strData_inj ha, nat_repr_inj (strData_inj hb)⟩

theorem genName_has_dollar (n : String) (k : Nat) :
    ('$' : Char) ∈ (n ++ dollarStr ++ toString k).data := by
  rw [genName_data]
  exact List.mem_append_right _ (List.mem_cons_self _ _)

theorem alGet_eq_none_iff {α : Type} {m : List (String × α)} {k : String} :
    alGet m k = none ↔ k ∉ m.map (fun p => p.1) := by
  constructor
  · intro h hk
    have := alHas_iff_keys.mpr hk
    unfold alHas at this
    rw [h] at this
    cases this
  · intro hk
    cases hg : alGet m k with
    | none => rfl
    | some v =>
      exfalso
      apply hk
      apply alHas_iff_keys.mp
      unfold alHas
      rw [hg]
      rfl

theorem alGet_of_mem_nodup {α : Type} {m : List (String × α)}
    (hm : (m.map (fun p => p.1)).Nodup) {k : String} {v : α} (h : (k, v) ∈ m) :
    alGet m k = some v := by
  induction m with
  | nil => cases h
  | cons p t ih =>
    rw [List.map_cons] at hm
    rcases List.mem_cons.mp h with h0 | h0
    · subst h0
      unfold alGet
      rw [List.find?_cons_of_pos _ (by simp)]
      rfl
    · have hkt : k ∈ t.map (fun p => p.1) :=
        List.mem_map.mpr ⟨(k, v), h0, rfl⟩
      have hne : p.1 ≠ k := by
        intro he
        exact (List.nodup_cons.mp hm).1 (he ▸ hkt)
      unfold alGet
      rw [List.find?_cons_of_neg _ (by simpa using hne)]
      exact ih (List.nodup_cons.mp hm).2 h0

theorem alSet_of_not_has {α : Type} {m : List (String × α)} {k : String} (v : α)
    (h : alHas m k = false) : alSet m k v = m ++ [(k, v)] := by
  unfold alSet
  rw [if_neg (by simp [h])]

theorem alSet_keys_nodup {α : Type} {m : List (String × α)}
    (h : (m.map (fun p => p.1)).Nodup) (k : String) (v : α) :
    ((alSet m k v).map (fun p => p.1)).Nodup := by
  rw [alSet_keys]
  by_cases hh : alHas m k = true
  · rw [if_pos hh]
    exact h
  · rw [if_neg hh]
    refine List.Nodup.append h (List.nodup_singleton _) ?_
    intro a ha hb
    rw [List.mem_singleton] at hb
    subst hb
    exact hh (alHas_iff_keys.mpr ha)

theorem foldl_alSet_eq {α : Type} : ∀ (kvs init : List (String × α)),
    (((init ++ kvs).map (fun p => p.1)).Nodup) →
    kvs.foldl (fun m kv => alSet m kv.1 kv.2) init = init ++ kvs := by
  intro kvs
  induction kvs with
  | nil =>
    intro init _
    simp
  | cons kv t ih =>
    intro init h
    rw [List.foldl_cons]
    have hnot : alHas init kv.1 = false := by
      rw [List.map_append] at h
      have hd := (List.nodup_append.mp h).2.2
      cases hh : alHas init kv.1 with
      | false => rfl
      | true =>
        exfalso
        have hmem := alHas_iff_keys.mp hh
        exact hd hmem (by simp)
    rw [alSet_of_not_has kv.2 hnot]
    have h2 : (((init ++ [kv]) ++ t).map (fun p => p.1)).Nodup := by
      rw [List.append_assoc]
      simpa using h
    rw [ih (init ++ [kv]) h2, List.append_assoc]
    rfl

theorem foldl_flatMap {α β γ : Type} (g : γ → β → γ) (h : α → List β) :
    ∀ (l : List α) (init : γ),
    l.foldl (fun acc x => (h x).foldl g acc) init = (l.flatMap h).foldl g init := by
  intro l
  induction l with
  | nil =>
    intro init
    rfl
  | cons a t ih =>
    intro init
    rw [List.foldl_cons, List.flatMap_cons, List.foldl_append, ih]

theorem setAdd_self_mem (l : List String) (x : String) : x ∈ setAdd l x :=
  setAdd_mem.mpr (Or.inr rfl)

theorem setAdd_idem (l : List String) (x : String) : setAdd (setAdd l x) x = setAdd l x := by
  unfold setAdd
  rw [if_pos]
  by_cases h : x ∈ l
  · rw [if_pos h]
    exact h
  · rw [if_neg h]
    simp

theorem srcsFold_mem (n : String) : ∀ (mods : List ModuleM) (init : List String) (p : String),
    p ∈ mods.foldl (fun acc md => if declB md n then setAdd acc md.path else acc) init ↔
      p ∈ init ∨ ∃ md ∈ mods, declB md n = true ∧ md.path = p := by
  intro mods
  induction mods with
  | nil =>
    intro init p
    simp
  | cons md t ih =>
    intro init p
    rw [List.foldl_cons]
    by_cases hd : declB md n = true
    · rw [if_pos hd, ih, setAdd_mem]
      constructor
      · rintro ((h | h) | h)
        · exact Or.inl h
        · exact Or.inr ⟨md, List.mem_cons_self _ _, hd, h.symm⟩
        · rcases h with ⟨md', hmd', hdd, hp⟩
          exact Or.inr ⟨md', List.mem_cons_of_mem md hmd', hdd, hp⟩
      · rintro (h | ⟨md', hmd', hdd, hp⟩)
        · exact Or.inl (Or.inl h)
        · rcases List.mem_cons.mp hmd' with h0 | h0
          · subst h0
            exact Or.inl (Or.inr hp.symm)
          · exact Or.inr ⟨md', h0, hdd, hp⟩
    · rw [if_neg hd, ih]
      constructor
      · rintro (h | ⟨md', hmd', hdd, hp⟩)
        · exact Or.inl h
        · exact Or.inr ⟨md', List.mem_cons_of_mem md hmd', hdd, hp⟩
      · rintro (h | ⟨md', hmd', hdd, hp⟩)
        · exact Or.inl h
        · rcases List.mem_cons.mp hmd' with h0 | h0
          · subst h0
            exact absurd hdd hd
          · exact Or.inr ⟨md', h0, hdd, hp⟩

theorem srcsFold_nodup (n : String) : ∀ (mods : List ModuleM) (init : List String),
    init.Nodup →
    (mods.foldl (fun acc md => if declB md n then setAdd acc md.path else acc) init).Nodup := by
  intro mods
  induction mods with
  | nil =>
    intro init h
    exact h
  | cons md t ih =>
    intro init h
    rw [List.foldl_cons]
    by_cases hd : declB md n = true
    · rw [if_pos hd]
      exact ih _ (setAdd_nodup h md.path)
    · rw [if_neg hd]
      exact ih _ h

theorem srcsOf_mem (mods : List ModuleM) (n p : String) :
    p ∈ srcsOf mods n ↔ ∃ md ∈ mods, declB md n = true ∧ md.path = p := by
  unfold srcsOf
  rw [srcsFold_mem]
  simp

theorem srcsOf_nodup (mods : List ModuleM) (n : String) : (srcsOf mods n).Nodup :=
  srcsFold_nodup n mods [] List.nodup_nil

theorem addNamePath_get_self (m : List (String × List String)) (n p : String) :
    alGet (addNamePath m n p) n = some (setAdd ((alGet m n).getD []) p) :=
  alGet_alSet_self m n _

theorem addNamePath_get_ne (m : List (String × List String)) (n p n' : String) (h : n' ≠ n) :
    alGet (addNamePath m n p) n' = alGet m n' :=
  alGet_alSet_ne m n n' _ h

theorem addNames_get (p : String) : ∀ (ns : List String) (m : List (String × List String))
    (n : String),
    alGet (ns.foldl (fun m n => addNamePath m n p) m) n =
      if n ∈ ns then some (setAdd ((alGet m n).getD []) p) else alGet m n := by
  intro ns
  induction ns with
  | nil =>
    intro m n
    simp
  | cons a t ih =>
    intro m n
    rw [List.foldl_cons, ih]
    by_cases hat : n ∈ t
    · rw [if_pos hat, if_pos (List.mem_cons_of_mem a hat)]
      by_cases han : a = n
      · subst han
        rw [addNamePath_get_self]
        simp [setAdd_idem]
      · rw [addNamePath_get_ne m a p n (fun he => han he.symm)]
    · rw [if_neg hat]
      by_cases han : a = n
      · subst han
        rw [addNamePath_get_self, if_pos (List.mem_cons_self _ _)]
      · rw [addNamePath_get_ne m a p n (fun he => han he.symm),
          if_neg (by
            intro hm
            rcases List.mem_cons.mp hm with h0 | h0
            · exact han h0.symm
            · exact hat h0)]

theorem stepModule_get (m : List (String × List String)) (md : ModuleM) (n : String) :
    alGet (stepModule m md) n =
      if declB md n then some (setAdd ((alGet m n).getD []) md.path) else alGet m n := by
  unfold stepModule
  rw [addNames_get md.path, addNames_get md.path]
  by_cases hv : n ∈ md.identifiers.values <;> by_cases ht : n ∈ md.identifiers.types
  · rw [if_pos hv, if_pos ht, if_pos (show declB md n = true by simp [declB, hv, ht])]
    simp [setAdd_idem]
  · rw [if_pos hv, if_neg ht, if_pos (show declB md n = true by simp [declB, hv])]
  · rw [if_neg hv, if_pos ht, if_pos (show declB md n = true by simp [declB, ht])]
  · rw [if_neg hv, if_neg ht, if_neg (show ¬ declB md n = true by simp [declB, hv, ht])]

theorem declFold_get_some (n : String) : ∀ (mods : List ModuleM)
    (m : List (String × List String)) (s : List String),
    alGet m n = some s →
    alGet (mods.foldl stepModule m) n =
      some (mods.foldl (fun acc md => if declB md n then setAdd acc md.path else acc) s) := by
  intro mods
  induction mods with
  | nil =>
    intro m s h
    exact h
  | cons md t ih =>
    intro m s h
    rw [List.foldl_cons, List.foldl_cons]
    by_cases hd : declB md n = true
    · refine ih _ _ ?_
      rw [stepModule_get, if_pos hd, h]
      simp [if_pos hd]
    · rw [if_neg hd]
      refine ih _ _ ?_
      rw [stepModule_get, if_neg hd, h]

theorem declFold_get_none (n : String) : ∀ (mods : List ModuleM)
    (m : List (String × List String)),
    alGet m n = none →
    alGet (mods.foldl stepModule m) n =
      (if mods.any (fun md => declB md n) then
        some (mods.foldl (fun acc md => if declB md n then setAdd acc md.path else acc) [])
      else none) := by
  intro mods
  induction mods with
  | nil =>
    intro m h
    simpa using h
  | cons md t ih =>
    intro m h
    rw [List.foldl_cons, List.foldl_cons, List.any_cons]
    by_cases hd : declB md n = true
    · rw [hd]
      simp only [Bool.true_or, if_true]
      have hstep : alGet (stepModule m md) n = some (setAdd [] md.path) := by
        rw [stepModule_get, if_pos hd, h]
        rfl
      rw [declFold_get_some n t _ _ hstep]
    · have hd' : declB md n = false := by
        cases hdb : declB md n
        · rfl
        · exact absurd hdb hd
      rw [hd']
      simp only [Bool.false_or, if_neg hd]
      have hstep : alGet (stepModule m md) n = none := by
        rw [stepModule_get, if_neg hd, h]
      exact ih _ hstep

theorem declSources_get (mods : List ModuleM) (n : String) :
    alGet (declSources mods) n =
      (if mods.any (fun md => declB md n) then some (srcsOf mods n) else none) := by
  have he : declSources mods = mods.foldl stepModule [] := rfl
  rw [he]
  exact declFold_get_none n mods [] rfl

theorem addNames_keys_nodup (p : String) : ∀ (ns : List String)
    (m : List (String × List String)),
    (m.map (fun q => q.1)).Nodup →
    ((ns.foldl (fun m n => addNamePath m n p) m).map (fun q => q.1)).Nodup := by
  intro ns
  induction ns with
  | nil =>
    intro m h
    exact h
  | cons a t ih =>
    intro m h
    rw [List.foldl_cons]
    exact ih _ (alSet_keys_nodup h a _)

theorem declSources_keys_nodup (mods : List ModuleM) :
    ((declSources mods).map (fun q => q.1)).Nodup := by
  have he : declSources mods = mods.foldl stepModule [] := rfl
  rw [he]
  have hgen : ∀ (l : List ModuleM) (m : List (String × List String)),
      (m.map (fun q => q.1)).Nodup →
      ((l.foldl stepModule m).map (fun q => q.1)).Nodup := by
    intro l
    induction l with
    | nil =>
      intro m h
      exact h
    | cons md t ih =>
      intro m h
      rw [List.foldl_cons]
      refine ih _ ?_
      unfold stepModule
      exact addNames_keys_nodup md.path _ _ (addNames_keys_nodup md.path _ _ h)
  exact hgen mods [] (by simp)

theorem declSources_mem_iff {mods : List ModuleM} {n : String} {srcs : List String} :
    (n, srcs) ∈ declSources mods ↔
      (mods.any (fun md => declB md n) = true ∧ srcs = srcsOf mods n) := by
  constructor
  · intro h
    have hget := alGet_of_mem_nodup (declSources_keys_nodup mods) h
    rw [declSources_get] at hget
    by_cases ha : mods.any (fun md => declB md n) = true
    · rw [if_pos ha] at hget
      exact ⟨ha, (Option.some.inj hget).symm⟩
    · rw [if_neg ha] at hget
      cases hget
  · rintro ⟨ha, hs⟩
    subst hs
    have hget : alGet (declSources mods) n = some (srcsOf mods n) := by
      rw [declSources_get, if_pos ha]
    exact alGet_mem hget

theorem renameMapOf_eq_rmPairs (mods : List ModuleM)
    (h : ((rmPairs mods).map (fun q => q.1)).Nodup) :
    renameMapOf mods = rmPairs mods := by
  have hstep : (fun (rm : List (String × String)) (pr : String × List String) =>
      if pr.2.length > 1 then
        (pr.2.drop 1).enum.foldl (fun rm ip =>
          alSet rm (renameKey pr.1 ip.2) (pr.1 ++ dollarStr ++ toString (ip.1 + 1))) rm
      else rm) =
      fun rm pr => (entryKVs pr).foldl (fun m kv => alSet m kv.1 kv.2) rm := by
    funext rm pr
    unfold entryKVs
    by_cases hl : pr.2.length > 1
    · rw [if_pos hl, if_pos hl, List.foldl_map]
    · rw [if_neg hl, if_neg hl]
      rfl
  unfold renameMapOf
  rw [hstep, foldl_flatMap (fun m kv => alSet m kv.1 kv.2) entryKVs (declSources mods) []]
  have h2 := foldl_alSet_eq (rmPairs mods) [] (by simpa using h)
  unfold rmPairs at h2
  simpa using h2

theorem entryKVs_mem {pr : String × List String} {kv : String × String}
    (h : kv ∈ entryKVs pr) :
    pr.2.length > 1 ∧ ∃ i p, (pr.2.drop 1).get? i = some p ∧
      kv = (renameKey pr.1 p, pr.1 ++ dollarStr ++ toString (i + 1)) := by
  unfold entryKVs at h
  by_cases hl : pr.2.length > 1
  · rw [if_pos hl] at h
    rcases List.mem_map.mp h with ⟨ip, hip, he⟩
    obtain ⟨i, p⟩ := ip
    exact ⟨hl, i, p, (List.mk_mem_enum_iff_get?).mp hip, he.symm⟩
  · rw [if_neg hl] at h
    cases h

theorem entryKVs_mem_of {pr : String × List String} (hl : pr.2.length > 1) {i : Nat} {p : String}
    (h : (pr.2.drop 1).get? i = some p) :
    (renameKey pr.1 p, pr.1 ++ dollarStr ++ toString (i + 1)) ∈ entryKVs pr := by
  unfold entryKVs
  rw [if_pos hl]
  exact List.mem_map.mpr ⟨(i, p), (List.mk_mem_enum_iff_get?).mpr h, rfl⟩

theorem rmPairs_mem {mods : List ModuleM} {kv : String × String} :
    kv ∈ rmPairs mods ↔ ∃ pr ∈ declSources mods, kv ∈ entryKVs pr := by
  unfold rmPairs
  exact List.mem_flatMap

theorem entryKVs_keys_nodup {pr : String × List String} (hnd : pr.2.Nodup) :
    ((entryKVs pr).map (fun q => q.1)).Nodup := by
  unfold entryKVs
  by_cases hl : pr.2.length > 1
  · rw [if_pos hl, List.map_map]
    have hdnd : (pr.2.drop 1).Nodup := hnd.sublist (List.drop_sublist 1 pr.2)
    have hend : (pr.2.drop 1).enum.Nodup := by
      have := List.enum_map_fst (pr.2.drop 1)
      have hr : ((pr.2.drop 1).enum.map Prod.fst).Nodup := by
        rw [this]
        exact List.nodup_range _
      exact hr.of_map
    refine List.Nodup.map_on ?_ hend
    intro x hx y hy hxy
    obtain ⟨i1, p1⟩ := x
    obtain ⟨i2, p2⟩ := y
    have hp : p1 = p2 := renameKey_inj_snd hxy
    subst hp
    have hg1 := (List.mk_mem_enum_iff_get?).mp hx
    have hg2 := (List.mk_mem_enum_iff_get?).mp hy
    have hi : i1 = i2 := by
      refine List.get?_inj ?_ hdnd (hg1.trans hg2.symm)
      exact List.get?_eq_some.mp hg1 |>.choose
    rw [hi]
  · rw [if_neg hl]
    exact List.nodup_nil

theorem declSources_key_clean {mods : List ModuleM}
    (hclean : ∀ md ∈ mods, ∀ n : String, declB md n = true →
      (('$' : Char) ∉ n.data ∧ (':' : Char) ∉ n.data))
    {pr : String × List String} (h : pr ∈ declSources mods) :
    ('$' : Char) ∉ pr.1.data ∧ (':' : Char) ∉ pr.1.data := by
  obtain ⟨n, srcs⟩ := pr
  obtain ⟨hany, _⟩ := declSources_mem_iff.mp h
  rcases List.any_eq_true.mp hany with ⟨md, hmd, hdb⟩
  exact hclean md hmd n (by simpa using hdb)

theorem declSources_srcs_nodup {mods : List ModuleM} {pr : String × List String}
    (h : pr ∈ declSources mods) : pr.2.Nodup := by
  obtain ⟨n, srcs⟩ := pr
  obtain ⟨_, hs⟩ := declSources_mem_iff.mp h
  show srcs.Nodup
  rw [hs]
  exact srcsOf_nodup mods n

theorem rmPairs_keys_nodup (mods : List ModuleM)
    (hclean : ∀ md ∈ mods, ∀ n : String, declB md n = true →
      (('$' : Char) ∉ n.data ∧ (':' : Char) ∉ n.data)) :
    ((rmPairs mods).map (fun q => q.1)).Nodup := by
  unfold rmPairs
  rw [List.map_flatMap]
  rw [show (declSources mods).flatMap (fun a => (entryKVs a).map (fun q => q.1)) =
    ((declSources mods).map (fun a => (entryKVs a).map (fun q => q.1))).flatten from rfl]
  rw [List.nodup_flatten]
  constructor
  · intro s hs
    rcases List.mem_map.mp hs with ⟨pr, hpr, he⟩
    subst he
    exact entryKVs_keys_nodup (declSources_srcs_nodup hpr)
  · rw [List.pairwise_map]
    have hne : (declSources mods).Pairwise (fun a b => a.1 ≠ b.1) := by
      have hk := declSources_keys_nodup mods
      exact List.pairwise_map.mp hk
    refine List.Pairwise.imp_of_mem ?_ hne
    intro a b ha hb hab
    intro k hka hkb
    rcases List.mem_map.mp hka with ⟨kv1, hkv1, he1⟩
    rcases List.mem_map.mp hkb with ⟨kv2, hkv2, he2⟩
    obtain ⟨_, i1, p1, hg1, hkve1⟩ := entryKVs_mem hkv1
    obtain ⟨_, i2, p2, hg2, hkve2⟩ := entryKVs_mem hkv2
    have hk1 : k = renameKey a.1 p1 := by rw [← he1, hkve1]
    have hk2 : k = renameKey b.1 p2 := by rw [← he2, hkve2]
    have hc1 := (declSources_key_clean hclean ha).2
    have hc2 := (declSources_key_clean hclean hb).2
    exact hab (renameKey_inj hc1 hc2 (hk1 ▸ hk2)).1

theorem rm_get_some_iff (mods : List ModuleM)
    (hclean : ∀ md ∈ mods, ∀ n : String, declB md n = true →
      (('$' : Char) ∉ n.data ∧ (':' : Char) ∉ n.data))
    {n p : String} (hc : (':' : Char) ∉ n.data) {v : String} :
    alGet (renameMapOf mods) (renameKey n p) = some v ↔
      ∃ srcs, (n, srcs) ∈ declSources mods ∧ srcs.length > 1 ∧
        ∃ i, (srcs.drop 1).get? i = some p ∧ v = n ++ dollarStr ++ toString (i + 1) := by
  rw [renameMapOf_eq_rmPairs mods (rmPairs_keys_nodup mods hclean)]
  constructor
  · intro h
    have hmem := alGet_mem h
    rcases rmPairs_mem.mp hmem with ⟨pr, hpr, hkv⟩
    obtain ⟨hlen, i, p', hg, hkve⟩ := entryKVs_mem hkv
    have hk : renameKey n p = renameKey pr.1 p' := congrArg Prod.fst hkve
    have hcpr := (declSources_key_clean hclean hpr).2
    obtain ⟨hn, hp⟩ := renameKey_inj hc hcpr hk
    have hv : v = pr.1 ++ dollarStr ++ toString (i + 1) := congrArg Prod.snd hkve
    refine ⟨pr.2, ?_, hlen, i, ?_, ?_⟩
    · rw [hn]
      exact hpr
    · rw [hp]
      exact hg
    · rw [hv, hn]
  · rintro ⟨srcs, hsrcmem, hlen, i, hg, hv⟩
    subst hv
    refine alGet_of_mem_nodup (rmPairs_keys_nodup mods hclean) ?_
    refine rmPairs_mem.mpr ⟨(n, srcs), hsrcmem, ?_⟩
    exact entryKVs_mem_of hlen hg

theorem rm_get_none_iff (mods : List ModuleM)
    (hclean : ∀ md ∈ mods, ∀ n : String, declB md n = true →
      (('$' : Char) ∉ n.data ∧ (':' : Char) ∉ n.data))
    {n p : String} (hc : (':' : Char) ∉ n.data) :
    alGet (renameMapOf mods) (renameKey n p) = none ↔
      ∀ srcs, (n, srcs) ∈ declSources mods → srcs.length > 1 → p ∉ srcs.drop 1 := by
  cases halg : alGet (renameMapOf mods) (renameKey n p) with
  | some v =>
    rcases (rm_get_some_iff mods hclean hc).mp halg with ⟨srcs, hmem, hlen, i, hg, _⟩
    simp only [iff_iff_implies_and_implies]
    constructor
    · intro h
      cases h
    · intro h
      exfalso
      exact h srcs hmem hlen (List.get?_mem hg)
  | none =>
    simp only [true_iff]
    intro srcs hmem hlen hpmem
    rcases List.mem_iff_get?.mp hpmem with ⟨i, hg⟩
    have := (rm_get_some_iff mods hclean hc).mpr
      ⟨srcs, hmem, hlen, i, hg, rfl⟩
    rw [halg] at this
    cases this

theorem two_mem_length {α : Type} {l : List α} {a b : α}
    (h1 : a ∈ l) (h2 : b ∈ l) (hne : a ≠ b) : 1 < l.length := by
  cases l with
  | nil => cases h1
  | cons c t =>
    cases t with
    | nil =>
      rw [List.mem_singleton] at h1 h2
      exact absurd (h1.trans h2.symm) hne
    | cons d t2 => simp

theorem headI_not_mem_drop {l : List String} (hnd : l.Nodup) : l.headI ∉ l.drop 1 := by
  cases l with
  | nil => simp
  | cons h t =>
    rw [List.nodup_cons] at hnd
    simpa using hnd.1

theorem renameAlloc_of_clean (mods : List ModuleM)
    (hclean : ∀ md ∈ mods, ∀ n : String, declB md n = true →
      (('$' : Char) ∉ n.data ∧ (':' : Char) ∉ n.data)) :
    renameAllocationProp mods := by
  intro n srcs hmem hlen2
  have hc := (declSources_key_clean hclean hmem).2
  have hnd : srcs.Nodup := declSources_srcs_nodup hmem
  constructor
  · rw [rm_get_none_iff mods hclean hc]
    intro srcs' hmem' hlen' hpmem
    have hse : (n, srcs') = (n, srcs) :=
      List.inj_on_of_nodup_map (declSources_keys_nodup mods) hmem' hmem rfl
    have hss : srcs' = srcs := (Prod.mk.injEq _ _ _ _).mp hse |>.2
    rw [hss] at hpmem
    exact absurd hpmem (headI_not_mem_drop hnd)
  · intro i p hg
    rw [rm_get_some_iff mods hclean hc]
    exact ⟨srcs, hmem, by omega, i, hg, rfl⟩

theorem bundled_eq_declPairs (mods : List ModuleM) :
    bundledTopLevelNames mods =
      (declPairs mods).map (fun pr => renameOf (renameMapOf mods) pr.1 pr.2) := by
  unfold bundledTopLevelNames declPairs
  have hgen : ∀ (l : List ModuleM) (rm : List (String × String)),
      (l.map (fun md => (moduleDeclaredNames md).map (fun n => renameOf rm n md.path))).flatten =
      (l.flatMap (fun md => (moduleDeclaredNames md).map (fun n => (n, md.path)))).map
        (fun pr => renameOf rm pr.1 pr.2) := by
    intro l rm
    induction l with
    | nil => rfl
    | cons md t ih =>
      rw [List.map_cons, List.flatten_cons, List.flatMap_cons, List.map_append, ih,
        List.map_map]
      rfl
  exact hgen mods (renameMapOf mods)

theorem declPairs_nodup (mods : List ModuleM)
    (hpaths : (mods.map (fun md => md.path)).Nodup) : (declPairs mods).Nodup := by
  unfold declPairs
  rw [show mods.flatMap (fun md => (moduleDeclaredNames md).map (fun n => (n, md.path))) =
    (mods.map (fun md => (moduleDeclaredNames md).map (fun n => (n, md.path)))).flatten from rfl]
  rw [List.nodup_flatten]
  constructor
  · intro s hs
    rcases List.mem_map.mp hs with ⟨md, hmd, he⟩
    subst he
    refine List.Nodup.map_on ?_ (jsDedup_nodup _)
    intro x _ y _ hxy
    exact ((Prod.mk.injEq _ _ _ _).mp hxy).1
  · rw [List.pairwise_map]
    have hppw : mods.Pairwise (fun a b => a.path ≠ b.path) := List.pairwise_map.mp hpaths
    refine hppw.imp ?_
    intro a b hne
    intro q hqa hqb
    rcases List.mem_map.mp hqa with ⟨x, _, hex⟩
    rcases List.mem_map.mp hqb with ⟨y, _, hey⟩
    apply hne
    rw [← hex] at hey
    exact (congrArg Prod.snd hey).symm

theorem declPairs_mem {mods : List ModuleM} {pr : String × String}
    (h : pr ∈ declPairs mods) :
    ∃ md ∈ mods, md.path = pr.2 ∧ declB md pr.1 = true := by
  unfold declPairs at h
  rcases List.mem_flatMap.mp h with ⟨md, hmd, hp⟩
  rcases List.mem_map.mp hp with ⟨n, hn, he⟩
  refine ⟨md, hmd, ?_, ?_⟩
  · exact (congrArg Prod.snd he)
  · have hnn : n = pr.1 := congrArg Prod.fst he
    rw [← hnn]
    have hmem : n ∈ md.identifiers.types ++ md.identifiers.values := by
      unfold moduleDeclaredNames at hn
      exact jsDedup_mem.mp hn
    rcases List.mem_append.mp hmem with h0 | h0 <;> simp [declB, h0]

theorem mem_not_drop_eq_headI {l : List String} {p : String}
    (hm : p ∈ l) (hnd : p ∉ l.drop 1) : p = l.headI := by
  cases l with
  | nil => cases hm
  | cons h t =>
    rcases List.mem_cons.mp hm with h0 | h0
    · exact h0
    · exact absurd h0 hnd

/-- C2 (amended): provided the bundled modules have pairwise distinct paths and
no top-level identifier contains `$` or `:`, `combineModules`' rename
allocation lets the first declaring module of every multiply-declared name keep
it while the `i`-th subsequent declaring module gets `name$i`, and the renamed
top-level declared identifiers of the bundled output are pairwise distinct. -/
theorem C2_rename_uniqueness (mods : List ModuleM)
    (hpaths : (mods.map (fun md => md.path)).Nodup)
    (hclean : mods.all (fun md => (md.identifiers.types ++ md.identifiers.values).all
      (fun n => !(decide (('$' : Char) ∈ n.data)) && !(decide ((':' : Char) ∈ n.data)))) =
      true) :
    renameAllocationProp mods ∧ (bundledTopLevelNames mods).Nodup := by
  have hcl : ∀ md ∈ mods, ∀ n : String, declB md n = true →
      (('$' : Char) ∉ n.data ∧ (':' : Char) ∉ n.data) := by
    intro md hmd n hdb
    have h1 := List.all_eq_true.mp hclean md hmd
    have hdm : n ∈ md.identifiers.types ++ md.identifiers.values := by
      have hor : n ∈ md.identifiers.types ∨ n ∈ md.identifiers.values := by
        simpa [declB] using hdb
      exact List.mem_append.mpr hor
    have h2 := List.all_eq_true.mp h1 n hdm
    simpa using h2
  refine ⟨renameAlloc_of_clean mods hcl, ?_⟩
  rw [bundled_eq_declPairs]
  refine List.Nodup.map_on ?_ (declPairs_nodup mods hpaths)
  intro x hx y hy hF
  obtain ⟨n1, p1⟩ := x
  obtain ⟨n2, p2⟩ := y
  obtain ⟨md1, hmd1, hp1, hdb1⟩ := declPairs_mem hx
  obtain ⟨md2, hmd2, hp2, hdb2⟩ := declPairs_mem hy
  dsimp only at hp1 hdb1 hp2 hdb2 hF
  have hcn1 := hcl md1 hmd1 n1 hdb1
  have hcn2 := hcl md2 hmd2 n2 hdb2
  have hany1 : mods.any (fun md => declB md n1) = true :=
    List.any_eq_true.mpr ⟨md1, hmd1, by simpa using hdb1⟩
  have hany2 : mods.any (fun md => declB md n2) = true :=
    List.any_eq_true.mpr ⟨md2, hmd2, by simpa using hdb2⟩
  have hps1 : p1 ∈ srcsOf mods n1 := (srcsOf_mem mods n1 p1).mpr ⟨md1, hmd1, hdb1, hp1⟩
  have hps2 : p2 ∈ srcsOf mods n2 := (srcsOf_mem mods n2 p2).mpr ⟨md2, hmd2, hdb2, hp2⟩
  have hentry1 : (n1, srcsOf mods n1) ∈ declSources mods :=
    declSources_mem_iff.mpr ⟨hany1, rfl⟩
  have hentry2 : (n2, srcsOf mods n2) ∈ declSources mods :=
    declSources_mem_iff.mpr ⟨hany2, rfl⟩
  unfold renameOf at hF
  rw [Prod.mk.injEq]
  cases halg1 : alGet (renameMapOf mods) (renameKey n1 p1) with
  | none =>
    cases halg2 : alGet (renameMapOf mods) (renameKey n2 p2) with
    | none =>
      rw [halg1, halg2] at hF
      simp only [Option.getD_none] at hF
      subst hF
      refine ⟨rfl, ?_⟩
      have hkept1 := (rm_get_none_iff mods hcl hcn1.2).mp halg1 (srcsOf mods n1) hentry1
      have hkept2 := (rm_get_none_iff mods hcl hcn1.2).mp halg2 (srcsOf mods n1) hentry1
      by_cases hlen : 1 < (srcsOf mods n1).length
      · have e1 : p1 = (srcsOf mods n1).headI := mem_not_drop_eq_headI hps1 (hkept1 hlen)
        have e2 : p2 = (srcsOf mods n1).headI := mem_not_drop_eq_headI hps2 (hkept2 hlen)
        rw [e1, e2]
      · by_contra hne
        exact hlen (two_mem_length hps1 hps2 hne)
    | some v2 =>
      exfalso
      rw [halg1, halg2] at hF
      simp only [Option.getD_none, Option.getD_some] at hF
      rcases (rm_get_some_iff mods hcl hcn2.2).mp halg2 with ⟨s2, _, _, i2, _, hv2⟩
      apply hcn1.1
      rw [hF, hv2]
      exact genName_has_dollar n2 (i2 + 1)
  | some v1 =>
    cases halg2 : alGet (renameMapOf mods) (renameKey n2 p2) with
    | none =>
      exfalso
      rw [halg1, halg2] at hF
      simp only [Option.getD_none, Option.getD_some] at hF
      rcases (rm_get_some_iff mods hcl hcn1.2).mp halg1 with ⟨s1, _, _, i1, _, hv1⟩
      apply hcn2.1
      rw [← hF, hv1]
      exact genName_has_dollar n1 (i1 + 1)
    | some v2 =>
      rw [halg1, halg2] at hF
      simp only [Option.getD_some] at hF
      rcases (rm_get_some_iff mods hcl hcn1.2).mp halg1 with ⟨s1, he1, hl1, i1, hg1, hv1⟩
      rcases (rm_get_some_iff mods hcl hcn2.2).mp halg2 with ⟨s2, he2, hl2, i2, hg2, hv2⟩
      have hgen : n1 ++ dollarStr ++ toString (i1 + 1) =
          n2 ++ dollarStr ++ toString (i2 + 1) := by
        rw [← hv1, ← hv2, hF]
      obtain ⟨hn, hi⟩ := genName_inj hcn1.1 hcn2.1 hgen
      have hii : i1 = i2 := by omega
      refine ⟨hn, ?_⟩
      subst hn
      have hse : (n1, s1) = (n1, s2) :=
        List.inj_on_of_nodup_map (declSources_keys_nodup mods) he1 he2 rfl
      have hss : s1 = s2 := ((Prod.mk.injEq _ _ _ _).mp hse).2
      rw [hss, hii] at hg1
      rw [hg1] at hg2
      exact Option.some.inj hg2

/-- C2 counterexample: the generated name `Foo$1` is never checked for
freshness — if module `/b` also declares a literal `Foo$1`, the rename of its
conflicting `Foo` collides with it and the bundled output declares `Foo$1`
twice. -/
theorem C2_counterexample :
    ¬ (bundledTopLevelNames [⟨"/a", [], ⟨[], ["Foo"]⟩⟩,
        ⟨"/b", [], ⟨[], ["Foo", "Foo$1"]⟩⟩]).Nodup := by
  decide

theorem C2_rename_uniqueness_witness :
    (([⟨"/a", [], ⟨[], ["Foo"]⟩⟩, ⟨"/b", [], ⟨["Bar"], ["Foo"]⟩⟩] :
        List ModuleM).map (fun md => md.path)).Nodup ∧
    (bundledTopLevelNames [⟨"/a", [], ⟨[], ["Foo"]⟩⟩,
        ⟨"/b", [], ⟨["Bar"], ["Foo"]⟩⟩]).Nodup :=
  ⟨by decide, (C2_rename_uniqueness _ (by decide) (by decide)).2⟩

theorem visitFuel_succ (env : GEnv) (fuel : Nat) (st : GState) (path0 : String) :
    visitFuel env (fuel + 1) st path0 =
      (if env.normalize path0 ∈ st.visited then st
       else
         match alGet st.files (env.normalize path0) with
         | none => { st with visited := env.normalize path0 :: st.visited }
         | some cached =>
           let res := (extractImports cached.stmts).foldl
             (visitStep env (visitFuel env fuel) (env.normalize path0))
             (({ st with visited := env.normalize path0 :: st.visited } : GState), ([], []))
           { res.1 with
               modules := alSet res.1.modules (env.normalize path0)
                 { imports := res.2.1, identifiers := collectIdents cached.stmts }
               bundledSpecifiers := alSet res.1.bundledSpecifiers (env.normalize path0)
                 res.2.2 }) := by
  rfl

theorem nodup_subset_length {l K : List String} (hnd : l.Nodup) (hs : ∀ p ∈ l, p ∈ K) :
    l.length ≤ K.length := by
  have h1 : l.toFinset.card = l.length := List.toFinset_card_of_nodup hnd
  have h2 : l.toFinset ⊆ K.toFinset := by
    intro a ha
    rw [List.mem_toFinset] at ha ⊢
    exact hs a ha
  calc l.length = l.toFinset.card := h1.symm
    _ ≤ K.toFinset.card := Finset.card_le_card h2
    _ ≤ K.length := K.toFinset_card_le

theorem mem_alSet_keys_of {α : Type} {m : List (String × α)} {p : String} (k : String) (v : α)
    (h : p ∈ m.map (fun q => q.1)) : p ∈ (alSet m k v).map (fun q => q.1) := by
  rw [alSet_keys]
  by_cases hh : alHas m k = true
  · rw [if_pos hh]
    exact h
  · rw [if_neg hh]
    exact List.mem_append_left _ h

theorem self_mem_alSet_keys {α : Type} (m : List (String × α)) (k : String) (v : α) :
    k ∈ (alSet m k v).map (fun q => q.1) := by
  apply alHas_iff_keys.mp
  unfold alHas
  rw [alGet_alSet_self]
  rfl

theorem alHas_ne_none {α : Type} {m : List (String × α)} {k : String}
    (h : alHas m k = true) : alGet m k ≠ none := by
  intro he
  unfold alHas at h
  rw [he] at h
  cases h

theorem visitPost_refl (env : GEnv) (K : List String) (st : GState) (path : String)
    (hnd : st.visited.Nodup) (hvK : ∀ p ∈ st.visited, p ∈ K)
    (hfK : ∀ p ∈ st.files.map (fun q => q.1), p ∈ K)
    (hvis : path ∈ st.visited) : visitPost env K st path st := by
  refine ⟨fun p hp => hp, le_refl _, fun p hp => hp, hnd, hvK, hfK,
    fun p hp => Or.inl hp, ?_, ?_, hvis, Or.inl hvis⟩
  · intro kv hkv hnkv
    exact absurd hkv hnkv
  · intro kv hkv hnkv
    exact absurd hkv hnkv

theorem visitStep_eq_ext (env : GEnv) (visitRec : GState → String → GState)
    (path : String) (acc : GState × List String × List String) (spec : String)
    (hext : matchesPattern spec env.external = true) :
    visitStep env visitRec path acc spec = acc := by
  unfold visitStep
  rw [if_pos hext]

theorem visitStep_eq_none (env : GEnv) (visitRec : GState → String → GState)
    (path : String) (acc : GState × List String × List String) (spec : String)
    (hext : matchesPattern spec env.external = false)
    (hr : env.resolver spec path = none) :
    visitStep env visitRec path acc spec = acc := by
  unfold visitStep
  rw [hr, if_neg (by simp [hext])]

theorem visitStep_eq_resolved (env : GEnv) (visitRec : GState → String → GState)
    (path : String) (acc : GState × List String × List String) (spec resolved : String)
    (hext : matchesPattern spec env.external = false)
    (hr : env.resolver spec path = some resolved) :
    visitStep env visitRec path acc spec =
      (if strHasSub resolved nodeModulesSub && !(matchesPattern spec env.noExternal) then acc
       else
         let files' :=
           if !(alHas acc.1.files resolved) && env.resolveOpt then
             match alGet env.disk resolved with
             | some raw => alSet acc.1.files resolved (preProcess raw)
             | none => acc.1.files
           else acc.1.files
         let st1 : GState := { acc.1 with files := files' }
         if alHas st1.files resolved then
           (visitRec st1 resolved, setAdd acc.2.1 resolved, acc.2.2 ++ [spec])
         else (st1, acc.2.1, acc.2.2)) := by
  unfold visitStep
  rw [hr, if_neg (by simp [hext])]

theorem visitStep_inv (env : GEnv) (K : List String) (fuel : Nat) (st : GState) (path : String)
    (hdisk : ∀ p ∈ env.disk.map (fun q => q.1), p ∈ K)
    (hres : ∀ sp p r, env.resolver sp p = some r → env.normalize r = r)
    (ih : ∀ (st' : GState) (path' : String), env.normalize path' = path' →
      (path' ∈ st'.visited ∨ path' ∈ st'.files.map (fun q => q.1)) →
      st'.visited.Nodup → (∀ p ∈ st'.visited, p ∈ K) →
      (∀ p ∈ st'.files.map (fun q => q.1), p ∈ K) →
      K.length + 1 ≤ fuel + st'.visited.length →
      visitPost env K st' path' (visitFuel env fuel st' path'))
    (acc : GState × List String × List String) (spec : String)
    (hinv : visitInv env K fuel st path acc) :
    visitInv env K fuel st path (visitStep env (visitFuel env fuel) path acc spec) := by
  obtain ⟨I1, I2, I3, I4, I5, I6, I7, I8, I9, I10, I11, I12⟩ := hinv
  by_cases hext : matchesPattern spec env.external = true
  · rw [visitStep_eq_ext env _ path acc spec hext]
    exact ⟨I1, I2, I3, I4, I5, I6, I7, I8, I9, I10, I11, I12⟩
  · have hext' : matchesPattern spec env.external = false := by
      cases hb : matchesPattern spec env.external
      · rfl
      · exact absurd hb hext
    cases hr : env.resolver spec path with
    | none =>
      rw [visitStep_eq_none env _ path acc spec hext' hr]
      exact ⟨I1, I2, I3, I4, I5, I6, I7, I8, I9, I10, I11, I12⟩
    | some resolved =>
      rw [visitStep_eq_resolved env _ path acc spec resolved hext' hr]
      dsimp only
      by_cases hnm : (strHasSub resolved nodeModulesSub &&
          !(matchesPattern spec env.noExternal)) = true
      · rw [if_pos hnm]
        exact ⟨I1, I2, I3, I4, I5, I6, I7, I8, I9, I10, I11, I12⟩
      · rw [if_neg hnm]
        have hf5 : ∀ p ∈ (if !(alHas acc.1.files resolved) && env.resolveOpt then
            match alGet env.disk resolved with
            | some raw => alSet acc.1.files resolved (preProcess raw)
            | none => acc.1.files
          else acc.1.files).map (fun q => q.1), p ∈ K := by
          by_cases hload : (!(alHas acc.1.files resolved) && env.resolveOpt) = true
          · rw [if_pos hload]
            cases hdget : alGet env.disk resolved with
            | none => exact I5
            | some raw =>
              intro p hp
              rw [alSet_keys] at hp
              by_cases hh : alHas acc.1.files resolved = true
              · rw [if_pos hh] at hp
                exact I5 p hp
              · rw [if_neg hh] at hp
                rcases List.mem_append.mp hp with h0 | h0
                · exact I5 p h0
                · rw [List.mem_singleton] at h0
                  subst h0
                  exact hdisk p (List.mem_map.mpr ⟨(p, raw), alGet_mem hdget, rfl⟩)
          · rw [if_neg hload]
            exact I5
        by_cases hhas : alHas (if !(alHas acc.1.files resolved) && env.resolveOpt then
            match alGet env.disk resolved with
            | some raw => alSet acc.1.files resolved (preProcess raw)
            | none => acc.1.files
          else acc.1.files) resolved = true
        · rw [if_pos hhas]
          have hfix2 : env.normalize resolved = resolved := hres spec path resolved hr
          have hpost := ih { acc.1 with files := (if !(alHas acc.1.files resolved) &&
              env.resolveOpt then
              match alGet env.disk resolved with
              | some raw => alSet acc.1.files resolved (preProcess raw)
              | none => acc.1.files
            else acc.1.files) } resolved hfix2
            (Or.inr (alHas_iff_keys.mp hhas)) I3 I4 hf5 I2
          obtain ⟨P1, P2, P3, P4, P5, P6, P7, P8, P9, P10, P11⟩ := hpost
          have hrtrans : resolved ∈ (visitFuel env fuel { acc.1 with
              files := (if !(alHas acc.1.files resolved) && env.resolveOpt then
                match alGet env.disk resolved with
                | some raw => alSet acc.1.files resolved (preProcess raw)
                | none => acc.1.files
              else acc.1.files) } resolved).modules.map (fun q => q.1) ∨
              resolved ∈ st.visited ∨ resolved = path := by
            rcases P11 with h0 | h0 | h0
            · rcases I6 resolved h0 with h1 | h1 | h1
              · exact Or.inr (Or.inl h1)
              · exact Or.inr (Or.inr h1)
              · exact Or.inl (P3 resolved h1)
            · exact absurd h0 (alHas_ne_none hhas)
            · exact Or.inl h0
          refine ⟨?_, ?_, P4, P5, P6, ?_, ?_, ?_, ?_, ?_, ?_, ?_⟩
          · intro p hp
            exact P1 p (I1 p hp)
          · exact le_trans I2 (Nat.add_le_add_left P2 fuel)
          · intro p hp
            rcases P7 p hp with h0 | h0 | h0
            · rcases I6 p h0 with h1 | h1 | h1
              · exact Or.inl h1
              · exact Or.inr (Or.inl h1)
              · exact Or.inr (Or.inr (P3 p h1))
            · subst h0
              rcases hrtrans with h1 | h1 | h1
              · exact Or.inr (Or.inr h1)
              · exact Or.inl h1
              · exact Or.inr (Or.inl h1)
            · exact Or.inr (Or.inr h0)
          · intro p hp
            exact P3 p (I7 p hp)
          · intro kv hkv hnkv r hrm
            by_cases hin : kv ∈ acc.1.modules
            · rcases I8 kv hin hnkv r hrm with h0 | h0 | h0
              · exact Or.inl (P3 r h0)
              · exact Or.inr (Or.inl h0)
              · exact Or.inr (Or.inr h0)
            · rcases P8 kv hkv hin r hrm with h0 | h0 | h0
              · exact Or.inl h0
              · rcases I6 r h0 with h1 | h1 | h1
                · exact Or.inr (Or.inl h1)
                · exact Or.inr (Or.inr h1)
                · exact Or.inl (P3 r h1)
              · subst h0
                exact hrtrans
          · intro kv hkv hnkv sp hsp
            by_cases hin : kv ∈ acc.1.bundledSpecifiers
            · rcases I9 kv hin hnkv sp hsp with ⟨r, hr1, h0 | h0 | h0⟩
              · exact ⟨r, hr1, Or.inl (P3 r h0)⟩
              · exact ⟨r, hr1, Or.inr (Or.inl h0)⟩
              · exact ⟨r, hr1, Or.inr (Or.inr h0)⟩
            · rcases P9 kv hkv hin sp hsp with ⟨r, hr1, h0 | h0 | h0⟩
              · exact ⟨r, hr1, Or.inl h0⟩
              · rcases I6 r h0 with h1 | h1 | h1
                · exact ⟨r, hr1, Or.inr (Or.inl h1)⟩
                · exact ⟨r, hr1, Or.inr (Or.inr h1)⟩
                · exact ⟨r, hr1, Or.inl (P3 r h1)⟩
              · subst h0
                exact ⟨r, hr1, hrtrans⟩
          · intro r hrm
            rcases setAdd_mem.mp hrm with h0 | h0
            · exact P1 r (I10 r h0)
            · subst h0
              exact P10
          · intro sp hsp
            rcases List.mem_append.mp hsp with h0 | h0
            · rcases I11 sp h0 with ⟨r, hr1, hv⟩
              exact ⟨r, hr1, P1 r hv⟩
            · rw [List.mem_singleton] at h0
              subst h0
              exact ⟨resolved, hr, P10⟩
          · exact le_trans I12 P2
        · rw [if_neg hhas]
          exact ⟨I1, I2, I3, I4, hf5, I6, I7, I8, I9, I10, I11, I12⟩

theorem visitWrap_post (env : GEnv) (K : List String) (fuel : Nat) (st : GState) (path : String)
    (idents : IdentifierMap) (res : GState × List String × List String)
    (hinv : visitInv env K fuel st path res) :
    visitPost env K st path
      { res.1 with
          modules := alSet res.1.modules path { imports := res.2.1, identifiers := idents }
          bundledSpecifiers := alSet res.1.bundledSpecifiers path res.2.2 } := by
  obtain ⟨I1, I2, I3, I4, I5, I6, I7, I8, I9, I10, I11, I12⟩ := hinv
  refine ⟨?_, ?_, ?_, I3, I4, I5, ?_, ?_, ?_, ?_, ?_⟩
  · intro p hp
    exact I1 p (List.mem_cons_of_mem path hp)
  · exact Nat.le_of_succ_le I12
  · intro p hp
    exact mem_alSet_keys_of path _ (I7 p hp)
  · intro p hp
    rcases I6 p hp with h0 | h0 | h0
    · exact Or.inl h0
    · exact Or.inr (Or.inl h0)
    · exact Or.inr (Or.inr (mem_alSet_keys_of path _ h0))
  · intro kv hkv hnkv r hrm
    rcases alSet_mem hkv with heq | hold
    · subst heq
      dsimp only at hrm
      rcases I6 r (I10 r hrm) with h0 | h0 | h0
      · exact Or.inr (Or.inl h0)
      · exact Or.inr (Or.inr h0)
      · exact Or.inl (mem_alSet_keys_of path _ h0)
    · rcases I8 kv hold hnkv r hrm with h0 | h0 | h0
      · exact Or.inl (mem_alSet_keys_of path _ h0)
      · exact Or.inr (Or.inl h0)
      · exact Or.inr (Or.inr h0)
  · intro kv hkv hnkv sp hsp
    rcases alSet_mem hkv with heq | hold
    · subst heq
      dsimp only at hsp
      rcases I11 sp hsp with ⟨r, hr1, hv⟩
      refine ⟨r, hr1, ?_⟩
      rcases I6 r hv with h0 | h0 | h0
      · exact Or.inr (Or.inl h0)
      · exact Or.inr (Or.inr h0)
      · exact Or.inl (mem_alSet_keys_of path _ h0)
    · rcases I9 kv hold hnkv sp hsp with ⟨r, hr1, h0 | h0 | h0⟩
      · exact ⟨r, hr1, Or.inl (mem_alSet_keys_of path _ h0)⟩
      · exact ⟨r, hr1, Or.inr (Or.inl h0)⟩
      · exact ⟨r, hr1, Or.inr (Or.inr h0)⟩
  · exact I1 path (List.mem_cons_self _ _)
  · exact Or.inr (Or.inr (self_mem_alSet_keys _ path _))

theorem visit_contract (env : GEnv) (K : List String)
    (hdisk : ∀ p ∈ env.disk.map (fun q => q.1), p ∈ K)
    (hres : ∀ sp p r, env.resolver sp p = some r → env.normalize r = r) :
    ∀ (fuel : Nat) (st : GState) (path : String),
    env.normalize path = path →
    (path ∈ st.visited ∨ path ∈ st.files.map (fun q => q.1)) →
    st.visited.Nodup →
    (∀ p ∈ st.visited, p ∈ K) →
    (∀ p ∈ st.files.map (fun q => q.1), p ∈ K) →
    K.length + 1 ≤ fuel + st.visited.length →
    visitPost env K st path (visitFuel env fuel st path) := by
  intro fuel
  induction fuel with
  | zero =>
    intro st path hfix hpm hnd hvK hfK hbound
    by_cases hvis : path ∈ st.visited
    · exact visitPost_refl env K st path hnd hvK hfK hvis
    · exfalso
      have hpK : path ∈ K := hfK path (hpm.resolve_left hvis)
      have hndc : (path :: st.visited).Nodup := List.nodup_cons.mpr ⟨hvis, hnd⟩
      have hsubK : ∀ p ∈ path :: st.visited, p ∈ K := by
        intro p hp
        rcases List.mem_cons.mp hp with h0 | h0
        · subst h0
          exact hpK
        · exact hvK p h0
      have hle := nodup_subset_length hndc hsubK
      rw [List.length_cons] at hle
      omega
  | succ fuel ih =>
    intro st path hfix hpm hnd hvK hfK hbound
    rw [visitFuel_succ, hfix]
    by_cases hvis : path ∈ st.visited
    · rw [if_pos hvis]
      exact visitPost_refl env K st path hnd hvK hfK hvis
    · rw [if_neg hvis]
      have hinK : path ∈ K := hfK path (hpm.resolve_left hvis)
      have hfold : ∀ (l : List String) (acc : GState × List String × List String),
          visitInv env K fuel st path acc →
          visitInv env K fuel st path
            (l.foldl (visitStep env (visitFuel env fuel) path) acc) := by
        intro l
        induction l with
        | nil =>
          intro acc h
          exact h
        | cons sp t iht =>
          intro acc h
          rw [List.foldl_cons]
          exact iht _ (visitStep_inv env K fuel st path hdisk hres ih acc sp h)
      have hinv0 : visitInv env K fuel st path
          (({ st with visited := path :: st.visited } : GState), ([], [])) := by
        refine ⟨fun p hp => hp, ?_, List.nodup_cons.mpr ⟨hvis, hnd⟩, ?_, hfK, ?_,
          fun p hp => hp, ?_, ?_, ?_, ?_, ?_⟩
        · rw [List.length_cons]
          omega
        · intro p hp
          rcases List.mem_cons.mp hp with h0 | h0
          · subst h0
            exact hinK
          · exact hvK p h0
        · intro p hp
          rcases List.mem_cons.mp hp with h0 | h0
          · exact Or.inr (Or.inl h0)
          · exact Or.inl h0
        · intro kv hkv hnkv
          exact absurd hkv hnkv
        · intro kv hkv hnkv
          exact absurd hkv hnkv
        · intro r hrm
          cases hrm
        · intro sp hsp
          cases hsp
        · rw [List.length_cons]
      cases hget : alGet st.files path with
      | none =>
        exfalso
        exact (alGet_eq_none_iff.mp hget) (hpm.resolve_left hvis)
      | some cached =>
        exact visitWrap_post env K fuel st path (collectIdents cached.stmts) _
          (hfold (extractImports cached.stmts) _ hinv0)

/-- C7: when the entry point is one of the declaration files and the resolver
returns normalized paths (fixpoints of `sys.resolvePath`, as resolved absolute
paths are), the built module graph is closed: every module path reachable from
the entry along the `imports` sets is a key of the modules map, and every
specifier recorded in `bundledSpecifiers[p]` resolves (from `p`) to a path
present in the modules map. -/
theorem C7_graph_closure (env : GEnv) (files0 : List (String × PreOut)) (entry : String)
    (hfix : env.normalize entry = entry)
    (hmem : entry ∈ files0.map (fun q => q.1))
    (hres : ∀ sp p r, env.resolver sp p = some r → env.normalize r = r) :
    (∀ q, ReachableIn (buildModuleGraph env files0 entry) entry q →
      q ∈ (buildModuleGraph env files0 entry).modules.map (fun p => p.1)) ∧
    (∀ kv ∈ (buildModuleGraph env files0 entry).bundledSpecifiers, ∀ sp ∈ kv.2,
      ∃ r, env.resolver sp kv.1 = some r ∧
        r ∈ (buildModuleGraph env files0 entry).modules.map (fun p => p.1)) := by
  have hpost := visit_contract env (graphKeys files0 env)
    (fun p hp => List.mem_append_right _ hp) hres
    ((graphKeys files0 env).length + 1)
    { files := files0, visited := [], modules := [], bundledSpecifiers := [] }
    entry hfix (Or.inr hmem) List.nodup_nil (by intro p hp; cases hp)
    (fun p hp => List.mem_append_left _ hp) (by omega)
  obtain ⟨P1, P2, P3, P4, P5, P6, P7, P8, P9, P10, P11⟩ := hpost
  have hentry : entry ∈ (buildModuleGraph env files0 entry).modules.map (fun p => p.1) := by
    rcases P11 with h0 | h0 | h0
    · cases h0
    · exfalso
      exact (alGet_eq_none_iff.mp h0) hmem
    · exact h0
  have hclose : ∀ kv ∈ (buildModuleGraph env files0 entry).modules, ∀ r ∈ kv.2.imports,
      r ∈ (buildModuleGraph env files0 entry).modules.map (fun p => p.1) := by
    intro kv hkv r hrm
    rcases P8 kv hkv (by intro h; cases h) r hrm with h0 | h0 | h0
    · exact h0
    · cases h0
    · subst h0
      exact hentry
  constructor
  · intro q hq
    induction hq with
    | refl => exact hentry
    | step m hreach hget hrm ih2 => exact hclose _ (alGet_mem hget) _ hrm
  · intro kv hkv sp hsp
    rcases P9 kv hkv (by intro h; cases h) sp hsp with ⟨r, hr1, h0 | h0 | h0⟩
    · exact ⟨r, hr1, h0⟩
    · cases h0
    · subst h0
      exact ⟨r, hr1, hentry⟩

theorem C7_graph_closure_witness :
    (∀ q, ReachableIn (buildModuleGraph ⟨[], fun _ _ => none, fun p => p, false, [], []⟩
        [("E", ⟨[], [], []⟩)] "E") "E" q →
      q ∈ (buildModuleGraph ⟨[], fun _ _ => none, fun p => p, false, [], []⟩
        [("E", ⟨[], [], []⟩)] "E").modules.map (fun p => p.1)) ∧
    (∀ kv ∈ (buildModuleGraph ⟨[], fun _ _ => none, fun p => p, false, [], []⟩
        [("E", ⟨[], [], []⟩)] "E").bundledSpecifiers, ∀ sp ∈ kv.2,
      ∃ r, (none : Option String) = some r ∧
        r ∈ (buildModuleGraph ⟨[], fun _ _ => none, fun p => p, false, [], []⟩
          [("E", ⟨[], [], []⟩)] "E").modules.map (fun p => p.1)) :=
  C7_graph_closure ⟨[], fun _ _ => none, fun p => p, false, [], []⟩
    [("E", ⟨[], [], []⟩)] "E" rfl (by decide) (by intro sp p r h; cases h)

theorem clearInline_idem : (∀ s : Stmt, clearInline (clearInline s) = clearInline s) ∧
    (∀ b : Stmts, clearInlineList (clearInlineList b) = clearInlineList b) := by
  constructor <;>
    first
    | exact fun s => Stmt.rec (motive_2 := fun b => clearInlineList (clearInlineList b) = clearInlineList b)
        (fun _ _ _ => rfl) (fun _ _ _ => rfl)
        (fun k n m aug body il ih => by simp [clearInline, ih])
        (fun m kw ns il => rfl) (fun _ => rfl) rfl rfl
        (fun s t ihs iht => by simp [clearInlineList, ihs, iht]) s
    | exact fun b => Stmts.rec (motive_1 := fun s => clearInline (clearInline s) = clearInline s)
        (fun _ _ _ => rfl) (fun _ _ _ => rfl)
        (fun k n m aug body il ih => by simp [clearInline, ih])
        (fun m kw ns il => rfl) (fun _ => rfl) rfl rfl
        (fun s t ihs iht => by simp [clearInlineList, ihs, iht]) b

theorem inlineSpecs_clearInline : (∀ s : Stmt, inlineSpecs (clearInline s) = []) ∧
    (∀ b : Stmts, inlineSpecsList (clearInlineList b) = []) := by
  constructor <;>
    first
    | exact fun s => Stmt.rec (motive_2 := fun b => inlineSpecsList (clearInlineList b) = [])
        (fun _ _ _ => rfl) (fun _ _ _ => rfl)
        (fun k n m aug body il ih => by simp [clearInline, inlineSpecs, ih])
        (fun m kw ns il => rfl) (fun _ => rfl) rfl rfl
        (fun s t ihs iht => by simp [clearInlineList, inlineSpecsList, ihs, iht]) s
    | exact fun b => Stmts.rec (motive_1 := fun s => inlineSpecs (clearInline s) = [])
        (fun _ _ _ => rfl) (fun _ _ _ => rfl)
        (fun k n m aug body il ih => by simp [clearInline, inlineSpecs, ih])
        (fun m kw ns il => rfl) (fun _ => rfl) rfl rfl
        (fun s t ihs iht => by simp [clearInlineList, inlineSpecsList, ihs, iht]) b

theorem dupElem_idem (e : ExportElem) : dupElem (dupElem e) = dupElem e := by
  unfold dupElem
  cases e with
  | mk pn n => cases pn <;> rfl

theorem dupStmt_idem (s : Stmt) : dupStmt (dupStmt s) = dupStmt s := by
  cases s with
  | exportDecl t elems spec =>
    cases elems with
    | none => rfl
    | some l =>
      simp only [dupStmt, List.map_map]
      congr 1
      congr 1
      exact List.map_congr_left (fun e _ => dupElem_idem e)
  | importDecl t c spec => rfl
  | decl k n m aug body il => rfl
  | varStmt m kw ns il => rfl
  | exportAssign e => rfl
  | emptyStmt => rfl

theorem mapShallow_comp (f g : Stmt → Stmt) : ∀ (b : Stmts),
    (b.mapShallow f).mapShallow g = b.mapShallow (fun s => g (f s)) := by
  intro b
  exact Stmts.rec (motive_1 := fun _ => True)
    (fun _ _ _ => trivial) (fun _ _ _ => trivial) (fun _ _ _ _ _ _ _ => trivial)
    (fun _ _ _ _ => trivial) (fun _ => trivial) trivial
    rfl
    (fun s t _ iht => by simp [Stmts.mapShallow, iht]) b

theorem mapShallow_congr {f g : Stmt → Stmt} (h : ∀ s, f s = g s) : ∀ (b : Stmts),
    b.mapShallow f = b.mapShallow g := by
  intro b
  exact Stmts.rec (motive_1 := fun _ => True)
    (fun _ _ _ => trivial) (fun _ _ _ => trivial) (fun _ _ _ _ _ _ _ => trivial)
    (fun _ _ _ _ => trivial) (fun _ => trivial) trivial
    rfl
    (fun s t _ iht => by simp [Stmts.mapShallow, iht, h s]) b

theorem dupBody_idem (b : Stmts) : dupBody (dupBody b) = dupBody b := by
  unfold dupBody
  rw [mapShallow_comp]
  exact mapShallow_congr (fun s => dupStmt_idem s) b

theorem fixMods_idem (k : DeclKind) (m : Modifiers) : fixMods k (fixMods k m) = fixMods k m := by
  unfold fixMods
  cases hn : needsDeclare k <;> simp

theorem maxLen_bound {l : List String} {s : String} (h : s ∈ l) : s.data.length ≤ maxLen l := by
  unfold maxLen
  induction l with
  | nil => cases h
  | cons a t ih =>
    rcases List.mem_cons.mp h with h0 | h0
    · subst h0
      exact Nat.le_max_left _ _
    · exact Nat.le_trans (ih h0) (Nat.le_max_right _ _)

theorem genUniqueAux_not_mem : ∀ (k : Nat) (declared : List String) (hint : String),
    maxLen declared < hint.data.length + k →
    genUniqueAux k declared hint ∉ declared := by
  intro k
  induction k with
  | zero =>
    intro declared hint hlt hmem
    unfold genUniqueAux at hmem
    have := maxLen_bound hmem
    omega
  | succ k ih =>
    intro declared hint hlt
    unfold genUniqueAux
    by_cases hm : hint ∈ declared
    · rw [if_pos hm]
      refine ih declared _ ?_
      have hlen : ((⟨['_']⟩ : String) ++ hint).data.length = hint.data.length + 1 := by
        rw [String.data_append]
        simp
      omega
    · rw [if_neg hm]
      exact hm

theorem genUnique_not_mem (declared : List String) (hint : String) :
    genUnique declared hint ∉ declared := by
  unfold genUnique
  exact genUniqueAux_not_mem (maxLen declared + 1) declared hint (by omega)

theorem clearImportElems_clean {clause : ImportClauseKind} (h : clauseClean clause = true) :
    clearImportElems clause = clause := by
  cases clause with
  | named elems =>
    have h2 : elems.all (fun e => !e.typeMarked) = true := h
    show ImportClauseKind.named (elems.map (fun e => { e with typeMarked := false })) =
      ImportClauseKind.named elems
    congr 1
    have hall := List.all_eq_true.mp h2
    have hmap : elems.map (fun e => { e with typeMarked := false }) = elems.map id := by
      refine List.map_congr_left ?_
      intro e he
      have hm := hall e he
      cases e with
      | mk tm nm =>
        simp only [Bool.not_eq_true'] at hm
        simp [hm]
    rw [hmap, List.map_id]
  | star n => rfl
  | deflt n => rfl
  | bare => rfl

theorem transformA_canon {s : Stmt} (h : outStmtOk s = true) : transformA s = [s] := by
  cases s with
  | importDecl it clause spec =>
    have h2 : (!it && clauseClean clause) = true := h
    rw [Bool.and_eq_true] at h2
    have hit : it = false := by simpa using h2.1
    subst hit
    show [Stmt.importDecl false (clearImportElems clause) spec] = _
    rw [clearImportElems_clean h2.2]
  | exportDecl it elems spec =>
    have h2 : (!it && !(decide (elems = some []) && decide (spec = none))) = true := h
    rw [Bool.and_eq_true] at h2
    have hit : it = false := by simpa using h2.1
    subst hit
    have hcond : (decide (elems = some []) && decide (spec = none)) = false := by
      cases hb : (decide (elems = some []) && decide (spec = none)) with
      | false => rfl
      | true =>
        exfalso
        rw [hb] at h2
        simpa using h2.2
    show (if elems = some [] && spec = none then [] else [Stmt.exportDecl false elems spec]) = _
    simp [hcond]
  | decl k n mods aug body il =>
    have h2 : (decide (mods = fixMods k mods) &&
        (!(decide (k = DeclKind.moduleD)) || decide (dupBody body = body))) = true := h
    rw [Bool.and_eq_true] at h2
    have hm : mods = fixMods k mods := of_decide_eq_true h2.1
    by_cases hk : k = DeclKind.moduleD
    · have hb : dupBody body = body := by
        rcases Bool.or_eq_true _ _ |>.mp h2.2 with h0 | h0
        · exfalso
          rw [Bool.not_eq_true', decide_eq_false_iff_not] at h0
          exact h0 hk
        · exact of_decide_eq_true h0
      show (if k = DeclKind.moduleD then [Stmt.decl k n (fixMods k mods) aug (dupBody body) il]
        else [Stmt.decl k n (fixMods k mods) aug body il]) = _
      rw [if_pos hk, hb, ← hm]
    · show (if k = DeclKind.moduleD then [Stmt.decl k n (fixMods k mods) aug (dupBody body) il]
        else [Stmt.decl k n (fixMods k mods) aug body il]) = _
      rw [if_neg hk, ← hm]
  | varStmt mods kw names il =>
    have h2 : (decide (mods = fixModsVar mods) && decide (names.length = 1)) = true := h
    rw [Bool.and_eq_true] at h2
    have hm : mods = fixModsVar mods := of_decide_eq_true h2.1
    have hl : names.length = 1 := of_decide_eq_true h2.2
    match names, hl with
    | [n], _ =>
      show [Stmt.varStmt (fixModsVar mods) kw [n] il] = _
      rw [← hm]
  | exportAssign e => rfl
  | emptyStmt => rfl

theorem collectStmt_canon {s : Stmt} (h : outStmtOk s = true) (st : CollectSt) :
    (collectStmt st s).defaultExport = st.defaultExport ∧
    (collectStmt st s).exportedNames = st.exportedNames := by
  cases s with
  | decl k n mods aug body il =>
    cases mods with
    | mk hE hD hDc =>
      have h2 : (decide ((Modifiers.mk hE hD hDc) = fixMods k (Modifiers.mk hE hD hDc)) &&
          (!(decide (k = DeclKind.moduleD)) || decide (dupBody body = body))) = true := h
      rw [Bool.and_eq_true] at h2
      have hm := of_decide_eq_true h2.1
      have hE' : hE = false := congrArg Modifiers.hasExport hm
      have hD' : hD = false := congrArg Modifiers.hasDefault hm
      subst hE' hD'
      cases n with
      | none => exact ⟨rfl, rfl⟩
      | some nm => exact ⟨rfl, rfl⟩
  | varStmt mods kw names il =>
    cases mods with
    | mk hE hD hDc =>
      have h2 : (decide ((Modifiers.mk hE hD hDc) = fixModsVar (Modifiers.mk hE hD hDc)) &&
          decide (names.length = 1)) = true := h
      rw [Bool.and_eq_true] at h2
      have hm := of_decide_eq_true h2.1
      have hE' : hE = false := congrArg Modifiers.hasExport hm
      have hD' : hD = false := congrArg Modifiers.hasDefault hm
      subst hE' hD'
      show (collectStmt st (Stmt.varStmt ⟨false, false, hDc⟩ kw names il)).defaultExport =
        st.defaultExport ∧ _
      clear h h2 hm
      induction names generalizing st with
      | nil => exact ⟨rfl, rfl⟩
      | cons a t ih => exact ih _
  | importDecl it clause spec => exact ⟨rfl, rfl⟩
  | exportDecl it elems spec => exact ⟨rfl, rfl⟩
  | exportAssign e => exact ⟨rfl, rfl⟩
  | emptyStmt => exact ⟨rfl, rfl⟩

theorem clear_dup_stmt (s : Stmt) : clearInline (dupStmt s) = dupStmt (clearInline s) := by
  cases s with
  | exportDecl t elems spec =>
    cases elems with
    | none => rfl
    | some l => rfl
  | importDecl t c spec => rfl
  | decl k n m aug body il => rfl
  | varStmt m kw ns il => rfl
  | exportAssign e => rfl
  | emptyStmt => rfl

theorem clear_dup_body (b : Stmts) : clearInlineList (dupBody b) = dupBody (clearInlineList b) := by
  unfold dupBody
  exact Stmts.rec (motive_1 := fun _ => True)
    (fun _ _ _ => trivial) (fun _ _ _ => trivial) (fun _ _ _ _ _ _ _ => trivial)
    (fun _ _ _ _ => trivial) (fun _ => trivial) trivial
    rfl
    (fun s t _ iht => by
      simp only [Stmts.mapShallow, clearInlineList, iht, Stmts.cons.injEq]
      exact ⟨clear_dup_stmt s, trivial⟩) b

theorem outStmtOk_clearInline {s : Stmt} (h : outStmtOk s = true) :
    outStmtOk (clearInline s) = true := by
  cases s with
  | decl k n mods aug body il =>
    have h2 : (decide (mods = fixMods k mods) &&
        (!(decide (k = DeclKind.moduleD)) || decide (dupBody body = body))) = true := h
    rw [Bool.and_eq_true] at h2
    show (decide (mods = fixMods k mods) &&
      (!(decide (k = DeclKind.moduleD)) || decide (dupBody (clearInlineList body) =
        clearInlineList body))) = true
    rw [Bool.and_eq_true]
    refine ⟨h2.1, ?_⟩
    rcases Bool.or_eq_true _ _ |>.mp h2.2 with h0 | h0
    · exact Bool.or_eq_true _ _ |>.mpr (Or.inl h0)
    · refine Bool.or_eq_true _ _ |>.mpr (Or.inr ?_)
      have hb : dupBody body = body := of_decide_eq_true h0
      rw [decide_eq_true_eq, ← clear_dup_body, hb]
  | importDecl t c spec => exact h
  | exportDecl t elems spec => exact h
  | varStmt m kw ns il => exact h
  | exportAssign e => exact h
  | emptyStmt => exact h

theorem passBStmt_canon {s : Stmt} (h : canonStmt s = true) (st : PassBSt) :
    passBStmt st s = (st, s) := by
  unfold canonStmt at h
  rw [Bool.and_eq_true, Bool.and_eq_true, Bool.and_eq_true] at h
  obtain ⟨⟨⟨ha, hb⟩, hc⟩, hd⟩ := h
  have hin : inlineSpecs s = [] := of_decide_eq_true hb
  have hcl : clearInline s = s := of_decide_eq_true hc
  have hnf : namelessFC s = false := by simpa using hd
  unfold passBStmt
  rw [hin]
  dsimp only
  rw [hcl]
  cases s with
  | decl k n mods aug body il =>
    cases n with
    | none =>
      have hk : (decide (k = DeclKind.functionD) || decide (k = DeclKind.classD)) = false := by
        simpa [namelessFC] using hnf
      show (if k = DeclKind.functionD || k = DeclKind.classD then _ else _) = _
      rw [if_neg (by simp [hk])]
      rfl
    | some nm => rfl
  | importDecl t c spec => rfl
  | exportDecl t elems spec => rfl
  | varStmt m kw ns il => rfl
  | exportAssign e => rfl
  | emptyStmt => rfl

theorem passBList_canon : ∀ (l : List Stmt), (∀ s ∈ l, canonStmt s = true) →
    ∀ (st : PassBSt), passBList st l = (st, l) := by
  intro l
  induction l with
  | nil =>
    intro _ st
    rfl
  | cons s t ih =>
    intro h st
    unfold passBList
    rw [passBStmt_canon (h s (List.mem_cons_self _ _)) st]
    dsimp only
    rw [ih (fun x hx => h x (List.mem_cons_of_mem s hx)) st]

theorem clauseClean_clear (clause : ImportClauseKind) :
    clauseClean (clearImportElems clause) = true := by
  cases clause with
  | named elems =>
    show (elems.map (fun e : NamedImportElem => { e with typeMarked := false })).all
      (fun e : NamedImportElem => !e.typeMarked) = true
    rw [List.all_eq_true]
    intro e he
    rcases List.mem_map.mp he with ⟨e0, _, he0⟩
    rw [← he0]
    rfl
  | star n => rfl
  | deflt n => rfl
  | bare => rfl

theorem transformA_outOk {s0 : Stmt} (hW3 : typeOnlyClean s0 = true) :
    ∀ s ∈ transformA s0, outStmtOk s = true := by
  cases s0 with
  | importDecl it clause spec =>
    intro s hs
    cases it with
    | true =>
      rw [show transformA (Stmt.importDecl true clause spec) =
        [Stmt.importDecl false clause spec] from rfl, List.mem_singleton] at hs
      subst hs
      have hcc : clauseClean clause = true := hW3
      show (!false && clauseClean clause) = true
      rw [hcc]
      rfl
    | false =>
      rw [show transformA (Stmt.importDecl false clause spec) =
        [Stmt.importDecl false (clearImportElems clause) spec] from rfl,
        List.mem_singleton] at hs
      subst hs
      show (!false && clauseClean (clearImportElems clause)) = true
      rw [clauseClean_clear]
      rfl
  | exportDecl it elems spec =>
    intro s hs
    rw [show transformA (Stmt.exportDecl it elems spec) =
      (if elems = some [] && spec = none then [] else [Stmt.exportDecl false elems spec])
      from rfl] at hs
    by_cases hc : (decide (elems = some []) && decide (spec = none)) = true
    · rw [if_pos hc] at hs
      cases hs
    · rw [if_neg hc] at hs
      rw [List.mem_singleton] at hs
      subst hs
      show (!false && !(decide (elems = some []) && decide (spec = none))) = true
      simp only [Bool.not_eq_true] at hc
      rw [hc]
      rfl
  | decl k n mods aug body il =>
    intro s hs
    rw [show transformA (Stmt.decl k n mods aug body il) =
      (if k = DeclKind.moduleD then [Stmt.decl k n (fixMods k mods) aug (dupBody body) il]
       else [Stmt.decl k n (fixMods k mods) aug body il]) from rfl] at hs
    by_cases hk : k = DeclKind.moduleD
    · rw [if_pos hk] at hs
      rw [List.mem_singleton] at hs
      subst hs
      show (decide (fixMods k mods = fixMods k (fixMods k mods)) &&
        (!(decide (k = DeclKind.moduleD)) || decide (dupBody (dupBody body) = dupBody body))) =
        true
      rw [decide_eq_true (fixMods_idem k mods).symm, decide_eq_true (dupBody_idem body)]
      simp
    · rw [if_neg hk] at hs
      rw [List.mem_singleton] at hs
      subst hs
      show (decide (fixMods k mods = fixMods k (fixMods k mods)) &&
        (!(decide (k = DeclKind.moduleD)) || decide (dupBody body = body))) = true
      rw [decide_eq_true (fixMods_idem k mods).symm]
      simp [hk]
  | varStmt mods kw names il =>
    intro s hs
    rw [show transformA (Stmt.varStmt mods kw names il) =
      names.map (fun n => Stmt.varStmt (fixModsVar mods) kw [n] il) from rfl] at hs
    rcases List.mem_map.mp hs with ⟨n, _, he⟩
    subst he
    show (decide (fixModsVar mods = fixModsVar (fixModsVar mods)) &&
      decide (([n] : List String).length = 1)) = true
    rfl
  | exportAssign e =>
    intro s hs
    rw [show transformA (Stmt.exportAssign e) = [Stmt.exportAssign e] from rfl,
      List.mem_singleton] at hs
    subst hs
    rfl
  | emptyStmt =>
    intro s hs
    rw [show transformA Stmt.emptyStmt = [Stmt.emptyStmt] from rfl, List.mem_singleton] at hs
    subst hs
    rfl

theorem canon_intro {s : Stmt} (h1 : outStmtOk s = true) (h2 : inlineSpecs s = [])
    (h3 : clearInline s = s) (h4 : namelessFC s = false) : canonStmt s = true := by
  unfold canonStmt
  simp [h1, h2, h3, h4]

theorem passBStmt_decl_none (st : PassBSt) (k : DeclKind) (mods : Modifiers) (aug : Bool)
    (body : Stmts) (il : List String) :
    passBStmt st (Stmt.decl k none mods aug body il) =
      (let st1 := (inlineSpecsList body ++ il).foldl passBInlineOne st
       if k = DeclKind.functionD || k = DeclKind.classD then
         if st1.defaultExport = (⟨[]⟩ : String) then
           let n := genUnique st1.declared exportDefaultHint
           ({ st1 with defaultExport := n, declared := setAdd st1.declared n },
             Stmt.decl k (some n) mods aug (clearInlineList body) [])
         else (st1, Stmt.decl k (some st1.defaultExport) mods aug (clearInlineList body) [])
       else (st1, Stmt.decl k none mods aug (clearInlineList body) [])) := rfl

theorem passBStmt_out_canon {s : Stmt} (h : outStmtOk s = true) (st : PassBSt) :
    canonStmt (passBStmt st s).2 = true := by
  cases s with
  | decl k n mods aug body il =>
    have hok : outStmtOk (Stmt.decl k n mods aug (clearInlineList body) []) = true :=
      outStmtOk_clearInline (s := Stmt.decl k n mods aug body il) h
    have hinl : inlineSpecsList (clearInlineList body) = [] :=
      inlineSpecs_clearInline.2 body
    have hcll : clearInlineList (clearInlineList body) = clearInlineList body :=
      clearInline_idem.2 body
    have hokAll : ∀ nm : Option String,
        outStmtOk (Stmt.decl k nm mods aug (clearInlineList body) []) = true := fun _ => hok
    have hcomp : ∀ nm : Option String,
        canonStmt (Stmt.decl k nm mods aug (clearInlineList body) []) =
          (outStmtOk (Stmt.decl k nm mods aug (clearInlineList body) []) &&
            !(namelessFC (Stmt.decl k nm mods aug (clearInlineList body) []))) := by
      intro nm
      unfold canonStmt
      rw [show inlineSpecs (Stmt.decl k nm mods aug (clearInlineList body) []) =
        inlineSpecsList (clearInlineList body) ++ [] from rfl, hinl]
      rw [show clearInline (Stmt.decl k nm mods aug (clearInlineList body) []) =
        Stmt.decl k nm mods aug (clearInlineList (clearInlineList body)) [] from rfl, hcll]
      simp
    cases n with
    | some nm =>
      show canonStmt (Stmt.decl k (some nm) mods aug (clearInlineList body) []) = true
      rw [hcomp (some nm)]
      rw [show namelessFC (Stmt.decl k (some nm) mods aug (clearInlineList body) []) = false
        from rfl]
      rw [hokAll (some nm)]
      rfl
    | none =>
      rw [passBStmt_decl_none]
      dsimp only
      by_cases hk : (decide (k = DeclKind.functionD) || decide (k = DeclKind.classD)) = true
      · rw [if_pos hk]
        by_cases hde : ((inlineSpecsList body ++ il).foldl passBInlineOne st).defaultExport =
            (⟨[]⟩ : String)
        · rw [if_pos hde]
          show canonStmt (Stmt.decl k (some _) mods aug (clearInlineList body) []) = true
          rw [hcomp]
          rw [show namelessFC (Stmt.decl k (some _) mods aug (clearInlineList body) []) = false
            from rfl]
          rw [hokAll (some _)]
          rfl
        · rw [if_neg hde]
          show canonStmt (Stmt.decl k (some _) mods aug (clearInlineList body) []) = true
          rw [hcomp]
          rw [show namelessFC (Stmt.decl k (some _) mods aug (clearInlineList body) []) = false
            from rfl]
          rw [hokAll (some _)]
          rfl
      · rw [if_neg hk]
        show canonStmt (Stmt.decl k none mods aug (clearInlineList body) []) = true
        rw [hcomp none]
        have hnf : namelessFC (Stmt.decl k none mods aug (clearInlineList body) []) = false := by
          show (decide (k = DeclKind.functionD) || decide (k = DeclKind.classD)) = false
          simpa using hk
        rw [hnf]
        rw [hokAll none]
        rfl
  | varStmt mods kw ns il =>
    show canonStmt (Stmt.varStmt mods kw ns []) = true
    exact canon_intro h rfl rfl rfl
  | importDecl t c spec =>
    show canonStmt (Stmt.importDecl t c spec) = true
    exact canon_intro h rfl rfl rfl
  | exportDecl t elems spec =>
    show canonStmt (Stmt.exportDecl t elems spec) = true
    exact canon_intro h rfl rfl rfl
  | exportAssign e =>
    show canonStmt (Stmt.exportAssign e) = true
    exact canon_intro h rfl rfl rfl
  | emptyStmt =>
    show canonStmt Stmt.emptyStmt = true
    exact canon_intro h rfl rfl rfl

theorem passBList_members : ∀ (l : List Stmt) (st : PassBSt),
    (∀ x ∈ l, outStmtOk x = true) →
    ∀ s ∈ (passBList st l).2, canonStmt s = true := by
  intro l
  induction l with
  | nil =>
    intro st _ s hs
    cases hs
  | cons a t ih =>
    intro st h s hs
    unfold passBList at hs
    dsimp only at hs
    rcases List.mem_cons.mp hs with h0 | h0
    · subst h0
      exact passBStmt_out_canon (h a (List.mem_cons_self _ _)) st
    · exact ih _ (fun x hx => h x (List.mem_cons_of_mem a hx)) s h0

theorem mem_ite_append {α : Type} {c : Prop} [Decidable c] {l : List α} {x s : α}
    (h : s ∈ (if c then l else l ++ [x])) : s ∈ l ∨ (¬ c ∧ s = x) := by
  split at h
  · exact Or.inl h
  · next hc =>
    rcases List.mem_append.mp h with h0 | h0
    · exact Or.inl h0
    · exact Or.inr ⟨hc, List.mem_singleton.mp h0⟩

theorem mem_reorder {names : List (Option String)} {stmts : List Stmt} {s : Stmt}
    (h : s ∈ reorderWith names stmts) : s ∈ stmts := by
  unfold reorderWith at h
  rcases List.mem_map.mp h with ⟨p, hp, he⟩
  subst he
  have hz : p ∈ (anchorsOf names).zip stmts :=
    (List.perm_insertionSort anchorLe _).mem_iff.mp hp
  obtain ⟨a, b⟩ := p
  exact (List.of_mem_zip hz).2

theorem preProcess_canon (f : SrcFile) (hW3 : f.stmts.all typeOnlyClean = true) :
    ∀ s ∈ (preProcess f).stmts, canonStmt s = true := by
  have hstA : ∀ x ∈ (f.stmts.map transformA).flatten, outStmtOk x = true := by
    intro x hx
    rcases List.mem_flatten.mp hx with ⟨lx, hlx, hxl⟩
    rcases List.mem_map.mp hlx with ⟨s0, hs0, he⟩
    rw [← he] at hxl
    exact transformA_outOk (List.all_eq_true.mp hW3 s0 hs0) x hxl
  intro s hs
  unfold preProcess at hs
  dsimp only at hs
  rcases List.mem_append.mp hs with hs | hs
  · rcases List.mem_map.mp hs with ⟨pr, _, he⟩
    rw [← he]
    exact canon_intro rfl rfl rfl rfl
  · rcases mem_ite_append hs with hs | ⟨hne, hs⟩
    · rcases mem_ite_append hs with hs | ⟨_, hs⟩
      · have hmem : s ∈ (passBList
            { declared := (f.stmts.foldl collectStmt collectInit).declaredNames,
              defaultExport := (f.stmts.foldl collectStmt collectInit).defaultExport,
              inline := [] } ((f.stmts.map transformA).flatten)).2 := mem_reorder hs
        exact passBList_members _ _ hstA s hmem
      · rw [hs]
        exact canon_intro rfl rfl rfl rfl
    · rw [hs]
      have hmap : (f.stmts.foldl collectStmt collectInit).exportedNames.map
          (fun n => ({ propertyName := none, name := n } : ExportElem)) ≠ [] := by
        intro h0
        exact hne (List.map_eq_nil.mp h0)
      refine canon_intro ?_ rfl rfl rfl
      show (!false && !(decide ((some ((f.stmts.foldl collectStmt collectInit).exportedNames.map
        (fun n => ({ propertyName := none, name := n } : ExportElem)))) =
          some ([] : List ExportElem)) && decide ((none : Option String) = none))) = true
      have hd : decide ((some ((f.stmts.foldl collectStmt collectInit).exportedNames.map
          (fun n => ({ propertyName := none, name := n } : ExportElem)))) =
            some ([] : List ExportElem)) = false := by
        rw [decide_eq_false_iff_not]
        intro h0
        exact hmap (Option.some.inj h0)
      rw [hd]
      rfl

theorem canon_outOk {s : Stmt} (h : canonStmt s = true) : outStmtOk s = true := by
  unfold canonStmt at h
  rw [Bool.and_eq_true, Bool.and_eq_true, Bool.and_eq_true] at h
  exact h.1.1.1

theorem flatten_transformA {l : List Stmt} (h : ∀ s ∈ l, transformA s = [s]) :
    (l.map transformA).flatten = l := by
  induction l with
  | nil => rfl
  | cons a t ih =>
    rw [List.map_cons, List.flatten_cons, h a (List.mem_cons_self _ _)]
    rw [ih (fun x hx => h x (List.mem_cons_of_mem a hx))]
    rfl

theorem collect_canon_fold : ∀ (l : List Stmt), (∀ s ∈ l, outStmtOk s = true) →
    ∀ (st : CollectSt), (l.foldl collectStmt st).defaultExport = st.defaultExport ∧
      (l.foldl collectStmt st).exportedNames = st.exportedNames := by
  intro l
  induction l with
  | nil =>
    intro _ st
    exact ⟨rfl, rfl⟩
  | cons a t ih =>
    intro h st
    rw [List.foldl_cons]
    have h1 := collectStmt_canon (h a (List.mem_cons_self _ _)) st
    have h2 := ih (fun x hx => h x (List.mem_cons_of_mem a hx)) (collectStmt st a)
    exact ⟨h2.1.trans h1.1, h2.2.trans h1.2⟩

theorem foldr_max_mem : ∀ {l : List Nat}, l ≠ [] → l.foldr max 0 ∈ l := by
  intro l
  induction l with
  | nil => intro h; exact absurd rfl h
  | cons a t ih =>
    intro _
    cases t with
    | nil =>
      show max a (List.foldr max 0 []) ∈ [a]
      simp
    | cons b t2 =>
      show max a ((b :: t2).foldr max 0) ∈ a :: b :: t2
      rcases Nat.le_total a ((b :: t2).foldr max 0) with h0 | h0
      · rw [Nat.max_eq_right h0]
        exact List.mem_cons_of_mem a (ih (by simp))
      · rw [Nat.max_eq_left h0]
        exact List.mem_cons_self _ _

theorem le_foldr_max {l : List Nat} {x : Nat} (h : x ∈ l) : x ≤ l.foldr max 0 := by
  induction l with
  | nil => cases h
  | cons a t ih =>
    rcases List.mem_cons.mp h with h0 | h0
    · subst h0
      exact Nat.le_max_left _ _
    · exact Nat.le_trans (ih h0) (Nat.le_max_right _ _)

theorem foldr_max_le {l : List Nat} {m : Nat} (h : ∀ x ∈ l, x ≤ m) : l.foldr max 0 ≤ m := by
  induction l with
  | nil => exact Nat.zero_le m
  | cons a t ih =>
    show max a (t.foldr max 0) ≤ m
    exact Nat.max_le.mpr ⟨h a (List.mem_cons_self _ _),
      ih (fun x hx => h x (List.mem_cons_of_mem a hx))⟩

theorem isRunStart_iff {N : List (Option String)} {n : String} {k : Nat} :
    isRunStartB N n k = true ↔
      (N.get? k = some (some n) ∧ (k = 0 ∨ ¬ N.get? (k - 1) = some (some n))) := by
  unfold isRunStartB
  rw [Bool.and_eq_true, Bool.or_eq_true, beq_iff_eq, beq_iff_eq]
  constructor
  · rintro ⟨h1, h2 | h2⟩
    · exact ⟨h1, Or.inl (by simpa using h2)⟩
    · refine ⟨h1, Or.inr ?_⟩
      rw [Bool.not_eq_true', beq_eq_false_iff_ne] at h2
      exact h2
  · rintro ⟨h1, h2 | h2⟩
    · exact ⟨h1, Or.inl (by simpa using h2)⟩
    · refine ⟨h1, Or.inr ?_⟩
      rw [Bool.not_eq_true', beq_eq_false_iff_ne]
      exact h2

theorem runStarts_mem {N : List (Option String)} {n : String} {k : Nat} :
    k ∈ runStarts N n ↔ (k < N.length ∧ isRunStartB N n k = true) := by
  unfold runStarts
  rw [List.mem_filter, List.mem_range]

theorem runStart_exists {N : List (Option String)} {n : String} : ∀ {j : Nat},
    N.get? j = some (some n) → ∃ k ∈ runStarts N n, k ≤ j := by
  intro j
  induction j using Nat.strong_induction_on with
  | _ j ih =>
    intro hj
    have hjlen : j < N.length := by
      by_contra hge
      rw [List.get?_eq_none.mpr (Nat.le_of_not_lt hge)] at hj
      cases hj
    by_cases hrs : isRunStartB N n j = true
    · exact ⟨j, runStarts_mem.mpr ⟨hjlen, hrs⟩, Nat.le_refl j⟩
    · have hj0 : j ≠ 0 := by
        intro h0
        subst h0
        exact hrs (isRunStart_iff.mpr ⟨hj, Or.inl rfl⟩)
      have hprev : N.get? (j - 1) = some (some n) := by
        by_contra hne
        exact hrs (isRunStart_iff.mpr ⟨hj, Or.inr hne⟩)
      rcases ih (j - 1) (by omega) hprev with ⟨k, hk, hkle⟩
      exact ⟨k, hk, by omega⟩

theorem grouped_lastRunStart {N : List (Option String)} (hg : groupedNames N)
    {n : String} {i : Nat} (hi : N.get? i = some (some n)) : lastRunStart N n ≤ i := by
  unfold lastRunStart
  refine foldr_max_le ?_
  intro k hk
  by_contra hgt
  have hki : i ≤ k - 1 := by omega
  have hk1k : k - 1 ≤ k := by omega
  obtain ⟨hklen, hrs⟩ := runStarts_mem.mp hk
  obtain ⟨hkval, hcond⟩ := isRunStart_iff.mp hrs
  have hmid := hg n i (k - 1) k hki hk1k hi hkval
  rcases hcond with h0 | h0
  · omega
  · exact h0 hmid

theorem grouped_anchors {N : List (Option String)} (hg : groupedNames N) :
    anchorsOf N = List.range N.length := by
  refine List.ext_get? ?_
  intro i
  have hlen : (anchorsOf N).length = N.length := by
    unfold anchorsOf
    rw [List.length_map, List.enum_length]
  by_cases hi : i < N.length
  · have h1 : (anchorsOf N).get? i = ((N.enum.get? i).map (fun p =>
        match p.2 with
        | none => p.1
        | some n => max p.1 (lastRunStart N n))) := by
      unfold anchorsOf
      rw [List.get?_map]
    rw [h1, List.enum_get?]
    cases hv : N.get? i with
    | none =>
      rw [List.get?_eq_none] at hv
      omega
    | some v =>
      rw [List.get?_range hi]
      cases v with
      | none => rfl
      | some n =>
        show some (max i (lastRunStart N n)) = some i
        rw [Nat.max_eq_left (grouped_lastRunStart hg hv)]
  · rw [List.get?_eq_none.mpr (by omega), List.get?_eq_none.mpr (by rw [List.length_range]; omega)]

theorem reorder_id_of_grouped {N : List (Option String)} {stmts : List Stmt}
    (hg : groupedNames N) (hlen : stmts.length = N.length) :
    reorderWith N stmts = stmts := by
  unfold reorderWith
  rw [grouped_anchors hg]
  have hsorted : ((List.range N.length).zip stmts).Sorted anchorLe := by
    show ((List.range N.length).zip stmts).Pairwise anchorLe
    have h1 : (((List.range N.length).zip stmts).map Prod.fst).Pairwise (· ≤ ·) := by
      rw [List.map_fst_zip _ _ (by simp [hlen])]
      exact List.sorted_le_range N.length
    rw [List.pairwise_map] at h1
    exact h1
  rw [List.Sorted.insertionSort_eq hsorted]
  have h2 : ((List.range N.length).zip stmts).map (fun p => p.2) =
      ((List.range N.length).zip stmts).map Prod.snd := rfl
  rw [h2, List.map_snd_zip _ _ (by simp [hlen])]

theorem rangeName_clearInline (s : Stmt) : rangeName (clearInline s) = rangeName s := by
  cases s with
  | decl k n m aug body il =>
    cases n <;> rfl
  | varStmt m kw ns il =>
    cases ns with
    | nil => rfl
    | cons a t => cases t <;> rfl
  | importDecl t c spec => rfl
  | exportDecl t elems spec => rfl
  | exportAssign e => rfl
  | emptyStmt => rfl

theorem inlineFold_state (specs : List String) : ∀ (st : PassBSt),
    (specs.foldl passBInlineOne st).defaultExport = st.defaultExport ∧
    (∀ x ∈ st.declared, x ∈ (specs.foldl passBInlineOne st).declared) := by
  induction specs with
  | nil =>
    intro st
    exact ⟨rfl, fun x hx => hx⟩
  | cons sp t ih =>
    intro st
    rw [List.foldl_cons]
    have h1 : (passBInlineOne st sp).defaultExport = st.defaultExport ∧
        ∀ x ∈ st.declared, x ∈ (passBInlineOne st sp).declared := by
      unfold passBInlineOne
      by_cases hh : alHas st.inline sp = true
      · rw [if_pos hh]
        exact ⟨rfl, fun x hx => hx⟩
      · rw [if_neg hh]
        exact ⟨rfl, fun x hx => setAdd_mem.mpr (Or.inl hx)⟩
    obtain ⟨ih1, ih2⟩ := ih (passBInlineOne st sp)
    exact ⟨ih1.trans h1.1, fun x hx => ih2 x (h1.2 x hx)⟩

theorem passBStmt_nonFC {s : Stmt} (h : namelessFC s = false) (st : PassBSt) :
    (passBStmt st s).2 = clearInline s ∧
    (passBStmt st s).1.defaultExport = st.defaultExport ∧
    (∀ x ∈ st.declared, x ∈ (passBStmt st s).1.declared) := by
  cases s with
  | decl k n mods aug body il =>
    cases n with
    | none =>
      have hk : (decide (k = DeclKind.functionD) || decide (k = DeclKind.classD)) = false := by
        simpa [namelessFC] using h
      rw [passBStmt_decl_none]
      obtain ⟨hf1, hf2⟩ := inlineFold_state (inlineSpecsList body ++ il) st
      dsimp only
      rw [if_neg (by simp [hk])]
      exact ⟨rfl, hf1, hf2⟩
    | some nm =>
      obtain ⟨hf1, hf2⟩ :=
        inlineFold_state (inlineSpecs (Stmt.decl k (some nm) mods aug body il)) st
      unfold passBStmt
      exact ⟨rfl, hf1, hf2⟩
  | importDecl t c spec =>
    obtain ⟨hf1, hf2⟩ := inlineFold_state (inlineSpecs (Stmt.importDecl t c spec)) st
    unfold passBStmt
    exact ⟨rfl, hf1, hf2⟩
  | exportDecl t elems spec =>
    obtain ⟨hf1, hf2⟩ := inlineFold_state (inlineSpecs (Stmt.exportDecl t elems spec)) st
    unfold passBStmt
    exact ⟨rfl, hf1, hf2⟩
  | varStmt m kw ns il =>
    obtain ⟨hf1, hf2⟩ := inlineFold_state (inlineSpecs (Stmt.varStmt m kw ns il)) st
    unfold passBStmt
    exact ⟨rfl, hf1, hf2⟩
  | exportAssign e =>
    obtain ⟨hf1, hf2⟩ := inlineFold_state (inlineSpecs (Stmt.exportAssign e)) st
    unfold passBStmt
    exact ⟨rfl, hf1, hf2⟩
  | emptyStmt =>
    obtain ⟨hf1, hf2⟩ := inlineFold_state (inlineSpecs Stmt.emptyStmt) st
    unfold passBStmt
    exact ⟨rfl, hf1, hf2⟩

theorem passBStmt_FC {k : DeclKind} {mods : Modifiers} {aug : Bool} {body : Stmts}
    {il : List String} (st : PassBSt)
    (hk : (decide (k = DeclKind.functionD) || decide (k = DeclKind.classD)) = true)
    (hde : st.defaultExport = (⟨[]⟩ : String)) :
    ∃ dn, (passBStmt st (Stmt.decl k none mods aug body il)).2 =
        Stmt.decl k (some dn) mods aug (clearInlineList body) [] ∧
      dn ∉ st.declared ∧
      (∀ x ∈ st.declared, x ∈ (passBStmt st (Stmt.decl k none mods aug body il)).1.declared) := by
  obtain ⟨hf1, hf2⟩ := inlineFold_state (inlineSpecsList body ++ il) st
  rw [passBStmt_decl_none]
  dsimp only
  rw [if_pos (by simp [Bool.or_eq_true] at hk ⊢; exact hk), if_pos (by rw [hf1]; exact hde)]
  refine ⟨genUnique ((inlineSpecsList body ++ il).foldl passBInlineOne st).declared
    exportDefaultHint, rfl, ?_, ?_⟩
  · intro hmem
    exact genUnique_not_mem _ _ (hf2 _ hmem)
  · intro x hx
    exact setAdd_mem.mpr (Or.inl (hf2 x hx))

theorem passB_names_rel : ∀ (l : List Stmt) (st : PassBSt) (D : List String),
    (∀ x ∈ D, x ∈ st.declared) →
    ((l.filter namelessFC) = [] →
      (passBList st l).2.map rangeName = l.map rangeName) ∧
    ((l.filter namelessFC).length ≤ 1 → st.defaultExport = (⟨[]⟩ : String) →
      ((passBList st l).2.map rangeName = l.map rangeName ∨
        ∃ (p : Nat) (dn : String), dn ∉ D ∧ (l.map rangeName).get? p = some none ∧
          (passBList st l).2.map rangeName = (l.map rangeName).set p (some dn))) := by
  intro l
  induction l with
  | nil =>
    intro st D _
    exact ⟨fun _ => rfl, fun _ _ => Or.inl rfl⟩
  | cons a t ih =>
    intro st D hD
    have hcons : (passBList st (a :: t)).2 =
        (passBStmt st a).2 :: (passBList (passBStmt st a).1 t).2 := rfl
    by_cases hfc : namelessFC a = true
    · have hfilter : (a :: t).filter namelessFC = a :: t.filter namelessFC := by
        rw [List.filter_cons, if_pos hfc]
      constructor
      · intro h0
        rw [hfilter] at h0
        cases h0
      · intro hlen hde
        rw [hfilter, List.length_cons] at hlen
        have hft : t.filter namelessFC = [] :=
          List.length_eq_zero.mp (by omega)
        cases a with
        | decl k n mods aug body il =>
          cases n with
          | some nm => exact absurd hfc (by simp [namelessFC])
          | none =>
            have hk : (decide (k = DeclKind.functionD) || decide (k = DeclKind.classD)) = true := by
              simpa [namelessFC] using hfc
            rcases passBStmt_FC st hk hde with ⟨dn, hout, hdnSt, hmono⟩
            have hih := (ih (passBStmt st (Stmt.decl k none mods aug body il)).1 D
              (fun x hx => hmono x (hD x hx))).1 hft
            rw [hcons, List.map_cons, hout, hih]
            cases haug : aug with
            | true =>
              left
              rw [List.map_cons]
              rfl
            | false =>
              right
              refine ⟨0, dn, fun hmem => hdnSt (hD dn hmem), ?_, ?_⟩
              · rw [List.map_cons]
                rfl
              · rw [List.map_cons]
                rfl
        | importDecl t2 c spec => exact absurd hfc (by simp [namelessFC])
        | exportDecl t2 elems spec => exact absurd hfc (by simp [namelessFC])
        | varStmt m kw ns il => exact absurd hfc (by simp [namelessFC])
        | exportAssign e => exact absurd hfc (by simp [namelessFC])
        | emptyStmt => exact absurd hfc (by simp [namelessFC])
    · have hfc' : namelessFC a = false := by
        cases hb : namelessFC a
        · rfl
        · exact absurd hb hfc
      obtain ⟨hout, hde', hmono⟩ := passBStmt_nonFC hfc' st
      have hDsub : ∀ x ∈ D, x ∈ (passBStmt st a).1.declared := fun x hx => hmono x (hD x hx)
      have hfilter : (a :: t).filter namelessFC = t.filter namelessFC := by
        rw [List.filter_cons, if_neg (by simp [hfc'])]
      constructor
      · intro h0
        rw [hfilter] at h0
        have hih := (ih _ D hDsub).1 h0
        rw [hcons, List.map_cons, hout, rangeName_clearInline, hih, List.map_cons]
      · intro hlen hde
        rw [hfilter] at hlen
        have hde2 : (passBStmt st a).1.defaultExport = (⟨[]⟩ : String) := hde'.trans hde
        rcases (ih _ D hDsub).2 hlen hde2 with h0 | ⟨p, dn, hdnD, hgetp, hset⟩
        · left
          rw [hcons, List.map_cons, hout, rangeName_clearInline, h0, List.map_cons]
        · right
          refine ⟨p + 1, dn, hdnD, ?_, ?_⟩
          · rw [List.map_cons, List.get?_cons_succ]
            exact hgetp
          · rw [hcons, List.map_cons, hout, rangeName_clearInline, hset, List.map_cons]
            rfl

theorem collect_mono (s : Stmt) (st : CollectSt) :
    ∀ x ∈ st.declaredNames, x ∈ (collectStmt st s).declaredNames := by
  cases s with
  | decl k n mods aug body il =>
    cases n with
    | none => exact fun x hx => hx
    | some nm =>
      intro x hx
      show x ∈ ((let st1 := { st with declaredNames := setAdd st.declaredNames nm }
        if mods.hasExport && mods.hasDefault then { st1 with defaultExport := nm }
        else if mods.hasExport then { st1 with exportedNames := setAdd st1.exportedNames nm }
        else st1) : CollectSt).declaredNames
      dsimp only
      split
      · exact setAdd_mem.mpr (Or.inl hx)
      · split
        · exact setAdd_mem.mpr (Or.inl hx)
        · exact setAdd_mem.mpr (Or.inl hx)
  | varStmt mods kw names il =>
    show ∀ x ∈ st.declaredNames, x ∈ (names.foldl _ st).declaredNames
    induction names generalizing st with
    | nil => exact fun x hx => hx
    | cons a t ih =>
      intro x hx
      rw [List.foldl_cons]
      refine ih _ x ?_
      show x ∈ ((let st1 := { st with declaredNames := setAdd st.declaredNames a }
        if mods.hasDefault then { st1 with defaultExport := a }
        else if mods.hasExport then { st1 with exportedNames := setAdd st1.exportedNames a }
        else st1) : CollectSt).declaredNames
      dsimp only
      split
      · exact setAdd_mem.mpr (Or.inl hx)
      · split
        · exact setAdd_mem.mpr (Or.inl hx)
        · exact setAdd_mem.mpr (Or.inl hx)
  | importDecl t c spec => exact fun x hx => hx
  | exportDecl t elems spec => exact fun x hx => hx
  | exportAssign e => exact fun x hx => hx
  | emptyStmt => exact fun x hx => hx

theorem collect_fold_mono : ∀ (l : List Stmt) (st : CollectSt),
    ∀ x ∈ st.declaredNames, x ∈ (l.foldl collectStmt st).declaredNames := by
  intro l
  induction l with
  | nil => exact fun st x hx => hx
  | cons a t ih =>
    intro st x hx
    rw [List.foldl_cons]
    exact ih _ x (collect_mono a st x hx)

theorem collect_var_names (mods : Modifiers) : ∀ (names : List String) (st : CollectSt)
    (n : String), n ∈ names →
    n ∈ (names.foldl (fun st n =>
      let st1 := { st with declaredNames := setAdd st.declaredNames n }
      if mods.hasDefault then { st1 with defaultExport := n }
      else if mods.hasExport then { st1 with exportedNames := setAdd st1.exportedNames n }
      else st1) st).declaredNames := by
  intro names
  induction names with
  | nil =>
    intro st n hn
    cases hn
  | cons a t ih =>
    intro st n hn
    rw [List.foldl_cons]
    rcases List.mem_cons.mp hn with h0 | h0
    · subst h0
      have hbase : n ∈ ((let st1 := { st with declaredNames := setAdd st.declaredNames n }
          if mods.hasDefault then { st1 with defaultExport := n }
          else if mods.hasExport then { st1 with exportedNames := setAdd st1.exportedNames n }
          else st1) : CollectSt).declaredNames := by
        dsimp only
        split
        · exact setAdd_self_mem _ _
        · split
          · exact setAdd_self_mem _ _
          · exact setAdd_self_mem _ _
      have hgen : ∀ (l : List String) (st2 : CollectSt), n ∈ st2.declaredNames →
          n ∈ (l.foldl (fun st n =>
            let st1 := { st with declaredNames := setAdd st.declaredNames n }
            if mods.hasDefault then { st1 with defaultExport := n }
            else if mods.hasExport then { st1 with exportedNames := setAdd st1.exportedNames n }
            else st1) st2).declaredNames := by
        intro l
        induction l with
        | nil => exact fun st2 hx => hx
        | cons b t2 ih2 =>
          intro st2 hx
          rw [List.foldl_cons]
          refine ih2 _ ?_
          dsimp only
          split
          · exact setAdd_mem.mpr (Or.inl hx)
          · split
            · exact setAdd_mem.mpr (Or.inl hx)
            · exact setAdd_mem.mpr (Or.inl hx)
      exact hgen t _ hbase
    · exact ih _ n h0

theorem transformA_rangeName_mem {s0 s : Stmt} {n : String} (hs : s ∈ transformA s0)
    (hn : rangeName s = some n) (st : CollectSt) :
    n ∈ (collectStmt st s0).declaredNames := by
  cases s0 with
  | importDecl it clause spec =>
    exfalso
    cases it with
    | true =>
      rw [show transformA (Stmt.importDecl true clause spec) =
        [Stmt.importDecl false clause spec] from rfl, List.mem_singleton] at hs
      subst hs
      cases hn
    | false =>
      rw [show transformA (Stmt.importDecl false clause spec) =
        [Stmt.importDecl false (clearImportElems clause) spec] from rfl,
        List.mem_singleton] at hs
      subst hs
      cases hn
  | exportDecl it elems spec =>
    exfalso
    rw [show transformA (Stmt.exportDecl it elems spec) =
      (if elems = some [] && spec = none then [] else [Stmt.exportDecl false elems spec])
      from rfl] at hs
    split at hs
    · cases hs
    · rw [List.mem_singleton] at hs
      subst hs
      cases hn
  | decl k nm mods aug body il =>
    rw [show transformA (Stmt.decl k nm mods aug body il) =
      (if k = DeclKind.moduleD then [Stmt.decl k nm (fixMods k mods) aug (dupBody body) il]
       else [Stmt.decl k nm (fixMods k mods) aug body il]) from rfl] at hs
    have hnm : nm = some n := by
      split at hs <;> rw [List.mem_singleton] at hs <;> subst hs
      · cases nm with
        | none => cases hn
        | some m =>
          cases aug with
          | true => simp [rangeName] at hn
          | false =>
            simp only [rangeName, if_neg (by decide : ¬ (false = true))] at hn
            exact hn
      · cases nm with
        | none => cases hn
        | some m =>
          cases aug with
          | true => simp [rangeName] at hn
          | false =>
            simp only [rangeName, if_neg (by decide : ¬ (false = true))] at hn
            exact hn
    subst hnm
    show n ∈ ((let st1 := { st with declaredNames := setAdd st.declaredNames n }
      if mods.hasExport && mods.hasDefault then { st1 with defaultExport := n }
      else if mods.hasExport then { st1 with exportedNames := setAdd st1.exportedNames n }
      else st1) : CollectSt).declaredNames
    dsimp only
    split
    · exact setAdd_self_mem _ _
    · split
      · exact setAdd_self_mem _ _
      · exact setAdd_self_mem _ _
  | varStmt mods kw names il =>
    rw [show transformA (Stmt.varStmt mods kw names il) =
      names.map (fun n => Stmt.varStmt (fixModsVar mods) kw [n] il) from rfl] at hs
    rcases List.mem_map.mp hs with ⟨m, hm, he⟩
    rw [← he] at hn
    have hmn : m = n := by
      have : rangeName (Stmt.varStmt (fixModsVar mods) kw [m] il) = some m := rfl
      rw [this] at hn
      exact Option.some.inj hn
    subst hmn
    exact collect_var_names mods names st m hm
  | exportAssign e =>
    exfalso
    rw [show transformA (Stmt.exportAssign e) = [Stmt.exportAssign e] from rfl,
      List.mem_singleton] at hs
    subst hs
    cases hn
  | emptyStmt =>
    exfalso
    rw [show transformA Stmt.emptyStmt = [Stmt.emptyStmt] from rfl, List.mem_singleton] at hs
    subst hs
    cases hn

theorem stA_names (f : SrcFile) :
    ∀ s ∈ (f.stmts.map transformA).flatten, ∀ n, rangeName s = some n →
    n ∈ (f.stmts.foldl collectStmt collectInit).declaredNames := by
  intro s hs n hn
  rcases List.mem_flatten.mp hs with ⟨lx, hlx, hxl⟩
  rcases List.mem_map.mp hlx with ⟨s0, hs0, he⟩
  rw [← he] at hxl
  rcases List.append_of_mem hs0 with ⟨l1, l2, hsplit⟩
  rw [hsplit, List.foldl_append, List.foldl_cons]
  exact collect_fold_mono l2 _ n (transformA_rangeName_mem hxl hn _)

theorem get?_some_lt {α : Type} {l : List α} {i : Nat} {a : α} (h : l.get? i = some a) :
    i < l.length :=
  (List.get?_eq_some.mp h).choose

theorem maxOcc_ge {N : List (Option String)} {n : String} {q : Nat}
    (h : N.get? q = some (some n)) : q ≤ maxOcc N n := by
  refine le_foldr_max (List.mem_filter.mpr ⟨List.mem_range.mpr (get?_some_lt h), ?_⟩)
  rw [beq_iff_eq]
  exact h

theorem maxOcc_occ {N : List (Option String)} {n : String} {q : Nat}
    (h : N.get? q = some (some n)) : N.get? (maxOcc N n) = some (some n) := by
  have hq : q ∈ (List.range N.length).filter (fun q => N.get? q == some (some n)) := by
    refine List.mem_filter.mpr ⟨List.mem_range.mpr (get?_some_lt h), ?_⟩
    rw [beq_iff_eq]
    exact h
  have hmem := foldr_max_mem (List.ne_nil_of_mem hq)
  have := (List.mem_filter.mp hmem).2
  rw [beq_iff_eq] at this
  exact this

theorem lastRunStart_occ {N : List (Option String)} {n : String} {q : Nat}
    (h : N.get? q = some (some n)) : N.get? (lastRunStart N n) = some (some n) := by
  rcases runStart_exists h with ⟨k, hk, _⟩
  have hmem : lastRunStart N n ∈ runStarts N n := foldr_max_mem (List.ne_nil_of_mem hk)
  exact (isRunStart_iff.mp (runStarts_mem.mp hmem).2).1

theorem exists_runStart_between {N : List (Option String)} {n : String} : ∀ (m : Nat) {j : Nat},
    j < m → N.get? m = some (some n) → ¬ N.get? j = some (some n) →
    ∃ k ∈ runStarts N n, j < k ∧ k ≤ m := by
  intro m
  induction m using Nat.strong_induction_on with
  | _ m ih =>
    intro j hjm hm hj
    have hmlen : m < N.length := get?_some_lt hm
    by_cases hrs : isRunStartB N n m = true
    · exact ⟨m, runStarts_mem.mpr ⟨hmlen, hrs⟩, hjm, Nat.le_refl m⟩
    · have hprev : N.get? (m - 1) = some (some n) := by
        by_contra hne
        exact hrs (isRunStart_iff.mpr ⟨hm, Or.inr hne⟩)
      have hjm1 : j < m - 1 := by
        rcases Nat.lt_or_ge j (m - 1) with h0 | h0
        · exact h0
        · exfalso
          have : j = m - 1 := by omega
          rw [this] at hj
          exact hj hprev
      rcases ih (m - 1) (by omega) hjm1 hprev hj with ⟨k, hk, hk1, hk2⟩
      exact ⟨k, hk, hk1, by omega⟩

theorem interval_occ {N : List (Option String)} {n : String} {q j : Nat}
    (hq : N.get? q = some (some n)) (h1 : lastRunStart N n ≤ j) (h2 : j ≤ maxOcc N n) :
    N.get? j = some (some n) := by
  by_contra hne
  have hMocc : N.get? (maxOcc N n) = some (some n) := maxOcc_occ hq
  have hjM : j < maxOcc N n := by
    rcases Nat.lt_or_ge j (maxOcc N n) with h0 | h0
    · exact h0
    · exfalso
      have : j = maxOcc N n := by omega
      rw [this] at hne
      exact hne hMocc
  rcases exists_runStart_between (maxOcc N n) hjM hMocc hne with ⟨k, hk, hk1, _⟩
  have : k ≤ lastRunStart N n := le_foldr_max hk
  omega

theorem anchorsOf_length (N : List (Option String)) : (anchorsOf N).length = N.length := by
  unfold anchorsOf
  rw [List.length_map, List.enum_length]

theorem anchorsOf_get? (N : List (Option String)) (q : Nat) :
    (anchorsOf N).get? q = (N.get? q).map (fun v => match v with
      | none => q
      | some m => max q (lastRunStart N m)) := by
  unfold anchorsOf
  rw [List.get?_map, List.enum_get?]
  cases N.get? q with
  | none => rfl
  | some v => rfl

theorem pairwise_get?_le {α : Type} {r : α → α → Prop} {l : List α} (h : l.Pairwise r)
    {i j : Nat} {a b : α} (hij : i < j) (ha : l.get? i = some a) (hb : l.get? j = some b) :
    r a b := by
  have h2 := List.pairwise_iff_get.mp h
  have hi : i < l.length := get?_some_lt ha
  have hj : j < l.length := get?_some_lt hb
  have h3 := h2 ⟨i, hi⟩ ⟨j, hj⟩ hij
  rw [List.get?_eq_get hi] at ha
  rw [List.get?_eq_get hj] at hb
  rw [Option.some.inj ha, Option.some.inj hb] at h3
  exact h3

theorem zip_index {A : List Nat} {NB : List (Option String)} {pr : Nat × Option String}
    (h : pr ∈ A.zip NB) : ∃ q, A.get? q = some pr.1 ∧ NB.get? q = some pr.2 := by
  rcases List.mem_iff_get?.mp h with ⟨q, hq⟩
  rcases (List.get?_zip_eq_some _ _ _ _).mp hq with ⟨h1, h2⟩
  exact ⟨q, h1, h2⟩

theorem sorted_snd_grouped {N NB : List (Option String)} {S : List (Nat × Option String)}
    (hSp : S.Perm ((anchorsOf N).zip NB)) (hSs : S.Pairwise anchorLe)
    {n : String} (hC : ∀ q, NB.get? q = some (some n) ↔ N.get? q = some (some n)) :
    ∀ i j k : Nat, i ≤ j → j ≤ k →
    (S.map Prod.snd).get? i = some (some n) →
    (S.map Prod.snd).get? k = some (some n) →
    (S.map Prod.snd).get? j = some (some n) := by
  intro i j k hij hjk hi hk
  rw [List.get?_map] at hi hk ⊢
  cases hSi : S.get? i with
  | none => rw [hSi] at hi; cases hi
  | some pi =>
  cases hSk : S.get? k with
  | none => rw [hSk] at hk; cases hk
  | some pk =>
  rw [hSi] at hi
  rw [hSk] at hk
  have hpi2 : pi.2 = some n := Option.some.inj hi
  have hpk2 : pk.2 = some n := Option.some.inj hk
  have hjlen : j < S.length := Nat.lt_of_le_of_lt hjk (get?_some_lt hSk)
  cases hSj : S.get? j with
  | none =>
    exfalso
    rw [List.get?_eq_none] at hSj
    omega
  | some pj =>
  show some pj.2 = some (some n)
  -- index the three pairs in the zip
  have hmem : ∀ {q : Nat} {pr : Nat × Option String}, S.get? q = some pr →
      ∃ t, (anchorsOf N).get? t = some pr.1 ∧ NB.get? t = some pr.2 :=
    fun h => zip_index (hSp.mem_iff.mp (List.get?_mem h))
  rcases hmem hSi with ⟨qi, hqiA, hqiB⟩
  rcases hmem hSk with ⟨qk, hqkA, hqkB⟩
  rcases hmem hSj with ⟨qj, hqjA, hqjB⟩
  rw [hpi2] at hqiB
  rw [hpk2] at hqkB
  have hNi : N.get? qi = some (some n) := (hC qi).mp hqiB
  have hNk : N.get? qk = some (some n) := (hC qk).mp hqkB
  -- anchors of the end pairs
  rw [anchorsOf_get? N qi, hNi] at hqiA
  rw [anchorsOf_get? N qk, hNk] at hqkA
  have hpi1 : pi.1 = max qi (lastRunStart N n) := (Option.some.inj hqiA).symm
  have hpk1 : pk.1 = max qk (lastRunStart N n) := (Option.some.inj hqkA).symm
  -- sortedness bounds
  have hik1 : pi.1 ≤ pj.1 := by
    rcases Nat.lt_or_ge i j with h0 | h0
    · exact pairwise_get?_le hSs h0 hSi hSj
    · have : i = j := by omega
      rw [this, hSj] at hSi
      rw [Option.some.inj hSi]
  have hjk1 : pj.1 ≤ pk.1 := by
    rcases Nat.lt_or_ge j k with h0 | h0
    · exact pairwise_get?_le hSs h0 hSj hSk
    · have : j = k := by omega
      rw [this, hSk] at hSj
      rw [Option.some.inj hSj]
  -- interval bounds for pj.1
  have hL : lastRunStart N n ≤ pj.1 := Nat.le_trans (hpi1 ▸ Nat.le_max_right _ _) hik1
  have hM : pj.1 ≤ maxOcc N n := by
    refine Nat.le_trans hjk1 ?_
    rw [hpk1]
    exact Nat.max_le.mpr ⟨maxOcc_ge hNk,
      maxOcc_ge (lastRunStart_occ hNk)⟩
  -- classify the middle pair
  have hqjlen : qj < N.length := by
    have := get?_some_lt hqjA
    rw [anchorsOf_length] at this
    exact this
  cases hv : N.get? qj with
  | none =>
    exfalso
    rw [List.get?_eq_none] at hv
    omega
  | some v =>
  cases v with
  | none =>
    exfalso
    rw [anchorsOf_get? N qj, hv] at hqjA
    have hpj1 : pj.1 = qj := (Option.some.inj hqjA).symm
    have h3 : N.get? qj = some (some n) := interval_occ hNi (hpj1 ▸ hL) (hpj1 ▸ hM)
    rw [hv] at h3
    cases Option.some.inj h3
  | some m =>
    by_cases hmn : m = n
    · subst hmn
      have h2 : NB.get? qj = some (some m) := (hC qj).mpr hv
      rw [h2] at hqjB
      exact congrArg some (Option.some.inj hqjB).symm
    · exfalso
      rw [anchorsOf_get? N qj, hv] at hqjA
      have hpj1 : pj.1 = max qj (lastRunStart N m) := (Option.some.inj hqjA).symm
      rcases Nat.le_total (lastRunStart N m) qj with h0 | h0
      · have hq : pj.1 = qj := by rw [hpj1]; exact Nat.max_eq_left h0
        have h3 : N.get? qj = some (some n) := interval_occ hNi (hq ▸ hL) (hq ▸ hM)
        rw [hv] at h3
        exact hmn (Option.some.inj (Option.some.inj h3))
      · have hq : pj.1 = lastRunStart N m := by rw [hpj1]; exact Nat.max_eq_right h0
        have hLm : N.get? (lastRunStart N m) = some (some m) := lastRunStart_occ hv
        have h3 : N.get? (lastRunStart N m) = some (some n) := interval_occ hNi (hq ▸ hL) (hq ▸ hM)
        rw [hLm] at h3
        exact hmn (Option.some.inj (Option.some.inj h3))

theorem two_le_count_of_get? {α : Type} [BEq α] [LawfulBEq α] {l : List α} {a : α} {i k : Nat}
    (hik : i < k) (hi : l.get? i = some a) (hk : l.get? k = some a) : 2 ≤ l.count a := by
  have hsplit : l = l.take (i + 1) ++ l.drop (i + 1) := (List.take_append_drop _ l).symm
  have h1 : a ∈ l.take (i + 1) := by
    refine List.mem_iff_get?.mpr ⟨i, ?_⟩
    rw [List.get?_take (Nat.lt_succ_self i)]
    exact hi
  have h2 : a ∈ l.drop (i + 1) := by
    refine List.mem_iff_get?.mpr ⟨k - (i + 1), ?_⟩
    rw [List.get?_drop]
    rw [show i + 1 + (k - (i + 1)) = k from by omega]
    exact hk
  have hc1 : 0 < (l.take (i + 1)).count a := List.count_pos_iff_mem.mpr h1
  have hc2 : 0 < (l.drop (i + 1)).count a := List.count_pos_iff_mem.mpr h2
  calc 2 ≤ (l.take (i + 1)).count a + (l.drop (i + 1)).count a := by omega
    _ = l.count a := by rw [← List.count_append, ← hsplit]

theorem count_le_one_grouped {α : Type} [BEq α] [LawfulBEq α] {l : List α} {a : α}
    (h : l.count a ≤ 1) : ∀ i j k : Nat, i ≤ j → j ≤ k →
    l.get? i = some a → l.get? k = some a → l.get? j = some a := by
  intro i j k hij hjk hi hk
  have hik : i = k := by
    by_contra hne
    have : i < k := by omega
    have := two_le_count_of_get? this hi hk
    omega
  have hji : j = i := by omega
  rw [hji]
  exact hi

theorem count_set_fresh {N : List (Option String)} {p : Nat} {dn : String}
    (hp : p < N.length) (hfresh : ∀ q, ¬ N.get? q = some (some dn)) :
    (N.set p (some dn)).count (some dn) = 1 := by
  have hnot : (some dn : Option String) ∉ N := by
    intro hmem
    rcases List.mem_iff_get?.mp hmem with ⟨q, hq⟩
    exact hfresh q hq
  have hrw : N.set p (some dn) = N.take p ++ some dn :: N.drop (p + 1) := by
    rw [List.set_eq_take_append_cons_drop, if_pos hp]
  rw [hrw, List.count_append, List.count_cons_self]
  have hc1 : (N.take p).count (some dn) = 0 := List.count_eq_zero.mpr
    (fun hmem => hnot (List.mem_of_mem_take hmem))
  have hc2 : (N.drop (p + 1)).count (some dn) = 0 := List.count_eq_zero.mpr
    (fun hmem => hnot (List.mem_of_mem_drop hmem))
  rw [hc1, hc2]

theorem reorder_grouped {N NB : List (Option String)} (hlen : NB.length = N.length)
    (hcase : NB = N ∨ ∃ p dn, N.get? p = some none ∧ (∀ q, ¬ N.get? q = some (some dn)) ∧
      NB = N.set p (some dn)) :
    groupedNames ((List.insertionSort anchorLe ((anchorsOf N).zip NB)).map Prod.snd) := by
  intro n i j k hij hjk hi hk
  rcases hcase with rfl | ⟨p, dn, hp, hfresh, hNB⟩
  · exact sorted_snd_grouped (List.perm_insertionSort _ _) (List.sorted_insertionSort _ _)
      (fun q => Iff.rfl) i j k hij hjk hi hk
  · subst hNB
    by_cases hdn : n = dn
    · subst hdn
      have hplen : p < N.length := get?_some_lt hp
      have hperm : ((List.insertionSort anchorLe
            ((anchorsOf N).zip (N.set p (some n)))).map Prod.snd).Perm
          (((anchorsOf N).zip (N.set p (some n))).map Prod.snd) :=
        (List.perm_insertionSort anchorLe _).map Prod.snd
      have hmz : (((anchorsOf N).zip (N.set p (some n)))).map Prod.snd = N.set p (some n) := by
        refine List.map_snd_zip _ _ ?_
        rw [anchorsOf_length, List.length_set]
      have hcount : ((List.insertionSort anchorLe
          ((anchorsOf N).zip (N.set p (some n)))).map Prod.snd).count (some n) ≤ 1 := by
        have h1 : ((List.insertionSort anchorLe
            ((anchorsOf N).zip (N.set p (some n)))).map Prod.snd).count (some n) =
            (((anchorsOf N).zip (N.set p (some n))).map Prod.snd).count (some n) :=
          List.Perm.countP_congr hperm (fun x _ => rfl)
        rw [h1, hmz, count_set_fresh hplen hfresh]
      exact count_le_one_grouped hcount i j k hij hjk hi hk
    · refine sorted_snd_grouped (List.perm_insertionSort _ _) (List.sorted_insertionSort _ _)
        ?_ i j k hij hjk hi hk
      intro q
      by_cases hq : q = p
      · subst hq
        rw [List.get?_set_eq_of_lt _ (get?_some_lt hp)]
        constructor
        · intro h
          exact absurd (Option.some.inj (Option.some.inj h)).symm hdn
        · intro h
          rw [hp] at h
          cases Option.some.inj h
      · rw [List.get?_set_ne _ _ (fun e => hq e.symm)]

theorem grouped_extend {P M S : List (Option String)}
    (hP : ∀ x ∈ P, x = none) (hS : ∀ x ∈ S, x = none) (hM : groupedNames M) :
    groupedNames (P ++ M ++ S) := by
  intro n i j k hij hjk hi hk
  have hchar : ∀ t, (P ++ M ++ S).get? t = some (some n) →
      P.length ≤ t ∧ t < P.length + M.length ∧ M.get? (t - P.length) = some (some n) := by
    intro t ht
    rcases Nat.lt_or_ge t (P.length + M.length) with h1 | h1
    · rw [List.get?_append (by rw [List.length_append]; exact h1)] at ht
      rcases Nat.lt_or_ge t P.length with h2 | h2
      · exfalso
        rw [List.get?_append h2] at ht
        have := hP _ (List.get?_mem ht)
        cases this
      · rw [List.get?_append_right h2] at ht
        exact ⟨h2, h1, ht⟩
    · exfalso
      rw [List.get?_append_right (by rw [List.length_append]; exact h1)] at ht
      have := hS _ (List.get?_mem ht)
      cases this
  rcases hchar i hi with ⟨hi1, hi2, hi3⟩
  rcases hchar k hk with ⟨hk1, hk2, hk3⟩
  have hj1 : P.length ≤ j := Nat.le_trans hi1 hij
  have hj2 : j < P.length + M.length := Nat.lt_of_le_of_lt hjk hk2
  have hjM : M.get? (j - P.length) = some (some n) :=
    hM n (i - P.length) (j - P.length) (k - P.length) (by omega) (by omega) hi3 hk3
  rw [List.get?_append (by rw [List.length_append]; exact hj2), List.get?_append_right hj1]
  exact hjM

theorem orderedInsert_map_snd {α β : Type} (f : α → β) (a : Nat × α) :
    ∀ l : List (Nat × α),
    (List.orderedInsert anchorLe a l).map (fun p => (p.1, f p.2)) =
      List.orderedInsert anchorLe (a.1, f a.2) (l.map (fun p => (p.1, f p.2))) := by
  intro l
  induction l with
  | nil => rfl
  | cons b t ih =>
    show (if anchorLe a b then a :: b :: t else b :: List.orderedInsert anchorLe a t).map
      (fun p => (p.1, f p.2)) =
      (if anchorLe (a.1, f a.2) (b.1, f b.2) then
        (a.1, f a.2) :: (b.1, f b.2) :: t.map (fun p => (p.1, f p.2))
      else (b.1, f b.2) :: List.orderedInsert anchorLe (a.1, f a.2)
        (t.map (fun p => (p.1, f p.2))))
    by_cases h : a.1 ≤ b.1
    · rw [if_pos (show anchorLe a b from h),
        if_pos (show anchorLe (a.1, f a.2) (b.1, f b.2) from h)]
      rfl
    · rw [if_neg (show ¬ anchorLe a b from h),
        if_neg (show ¬ anchorLe (a.1, f a.2) (b.1, f b.2) from h), List.map_cons, ih]

theorem insertionSort_map_snd {α β : Type} (f : α → β) :
    ∀ l : List (Nat × α),
    (List.insertionSort anchorLe l).map (fun p => (p.1, f p.2)) =
      List.insertionSort anchorLe (l.map (fun p => (p.1, f p.2))) := by
  intro l
  induction l with
  | nil => rfl
  | cons a t ih =>
    show (List.orderedInsert anchorLe a (List.insertionSort anchorLe t)).map
        (fun p => (p.1, f p.2)) =
      List.orderedInsert anchorLe (a.1, f a.2)
        (List.insertionSort anchorLe (t.map (fun p => (p.1, f p.2))))
    rw [orderedInsert_map_snd, ih]

theorem reorderWith_map_rangeName (N : List (Option String)) (stmts : List Stmt) :
    (reorderWith N stmts).map rangeName =
      (List.insertionSort anchorLe ((anchorsOf N).zip (stmts.map rangeName))).map Prod.snd := by
  unfold reorderWith
  rw [List.map_map]
  have h1 : (rangeName ∘ fun p : Nat × Stmt => p.2) =
      (fun p : Nat × Option String => p.2) ∘ (fun p : Nat × Stmt => (p.1, rangeName p.2)) := rfl
  rw [h1, ← List.map_map, insertionSort_map_snd]
  have h2 : ((anchorsOf N).zip stmts).map (fun p : Nat × Stmt => (p.1, rangeName p.2)) =
      (anchorsOf N).zip (stmts.map rangeName) := by
    rw [List.zip_map_right]
    rfl
  rw [h2]

theorem clearImportElems_id {clause : ImportClauseKind} (h : clauseClean clause = true) :
    clearImportElems clause = clause := by
  cases clause with
  | named elems =>
    show ImportClauseKind.named (elems.map (fun e => { e with typeMarked := false })) =
      ImportClauseKind.named elems
    have helems : elems.map (fun e => { e with typeMarked := false }) = elems := by
      have hall := List.all_eq_true.mp h
      induction elems with
      | nil => rfl
      | cons a t ih =>
        rw [List.map_cons]
        have ha : a.typeMarked = false := by
          have := hall a (List.mem_cons_self _ _)
          simpa using this
        have ha2 : ({ a with typeMarked := false } : NamedImportElem) = a := by
          cases a with
          | mk tm nm =>
            cases tm with
            | false => rfl
            | true => cases ha
        rw [ha2, ih (List.all_eq_true.mpr (fun x hx => hall x (List.mem_cons_of_mem a hx)))
          (fun x hx => hall x (List.mem_cons_of_mem a hx))]
    rw [helems]
  | star n => rfl
  | deflt n => rfl
  | bare => rfl

theorem transformA_id {s : Stmt} (h : outStmtOk s = true) : transformA s = [s] := by
  cases s with
  | importDecl it clause spec =>
    have h2 : (!it && clauseClean clause) = true := h
    rw [Bool.and_eq_true] at h2
    have hit : it = false := by simpa using h2.1
    subst hit
    show (if False then [Stmt.importDecl false clause spec]
      else [Stmt.importDecl false (clearImportElems clause) spec]) = _
    rw [if_neg (fun h => h), clearImportElems_id h2.2]
  | exportDecl it elems spec =>
    have h2 : (!it && !(decide (elems = some []) && decide (spec = none))) = true := h
    rw [Bool.and_eq_true] at h2
    have hit : it = false := by simpa using h2.1
    subst hit
    show (if elems = some [] && spec = none then []
      else [Stmt.exportDecl false elems spec]) = _
    rw [if_neg ?_]
    intro hc
    rw [hc] at h2
    exact absurd h2.2 (by simp)
  | decl k n mods aug body il =>
    have h2 : (decide (mods = fixMods k mods) &&
        (!(decide (k = DeclKind.moduleD)) || decide (dupBody body = body))) = true := h
    rw [Bool.and_eq_true] at h2
    have hmods : fixMods k mods = mods := (of_decide_eq_true h2.1).symm
    show (if k = DeclKind.moduleD then [Stmt.decl k n (fixMods k mods) aug (dupBody body) il]
      else [Stmt.decl k n (fixMods k mods) aug body il]) = _
    by_cases hk : k = DeclKind.moduleD
    · rw [if_pos hk]
      have hdup : dupBody body = body := by
        rcases Bool.or_eq_true _ _ |>.mp h2.2 with h0 | h0
        · exfalso
          rw [Bool.not_eq_true', decide_eq_false_iff_not] at h0
          exact h0 hk
        · exact of_decide_eq_true h0
      rw [hmods, hdup]
    · rw [if_neg hk, hmods]
  | varStmt mods kw names il =>
    have h2 : (decide (mods = fixModsVar mods) && decide (names.length = 1)) = true := h
    rw [Bool.and_eq_true] at h2
    have hmods : fixModsVar mods = mods := (of_decide_eq_true h2.1).symm
    have hlen : names.length = 1 := of_decide_eq_true h2.2
    rcases List.length_eq_one.mp hlen with ⟨a, ha⟩
    subst ha
    show [Stmt.varStmt (fixModsVar mods) kw [a] il] = _
    rw [hmods]
  | exportAssign e => rfl
  | emptyStmt => rfl

theorem transformA_namelessFC_length (s : Stmt) :
    ((transformA s).filter namelessFC).length = (if namelessFC s then 1 else 0) := by
  cases s with
  | importDecl it clause spec =>
    show ((if it = true then [Stmt.importDecl false clause spec]
      else [Stmt.importDecl false (clearImportElems clause) spec]).filter namelessFC).length = 0
    split <;> rfl
  | exportDecl it elems spec =>
    show ((if elems = some [] && spec = none then []
      else [Stmt.exportDecl false elems spec]).filter namelessFC).length = 0
    split <;> rfl
  | decl k n mods aug body il =>
    show ((if k = DeclKind.moduleD then [Stmt.decl k n (fixMods k mods) aug (dupBody body) il]
      else [Stmt.decl k n (fixMods k mods) aug body il]).filter namelessFC).length =
      (if namelessFC (Stmt.decl k n mods aug body il) then 1 else 0)
    have hsame : ∀ (b : Stmts), namelessFC (Stmt.decl k n (fixMods k mods) aug b il) =
        namelessFC (Stmt.decl k n mods aug body il) := by
      intro b
      cases n with
      | none => rfl
      | some m => rfl
    split
    · rw [List.filter_singleton, hsame]
      cases hnf : namelessFC (Stmt.decl k n mods aug body il) <;> rfl
    · rw [List.filter_singleton, hsame]
      cases hnf : namelessFC (Stmt.decl k n mods aug body il) <;> rfl
  | varStmt mods kw names il =>
    show (((names.map (fun n => Stmt.varStmt (fixModsVar mods) kw [n] il)).filter
      namelessFC)).length = 0
    rw [List.filter_eq_nil_iff.mpr ?_]
    · rfl
    · intro x hx
      rcases List.mem_map.mp hx with ⟨m, _, he⟩
      rw [← he]
      simp [namelessFC]
  | exportAssign e => rfl
  | emptyStmt => rfl

theorem flatten_namelessFC_length (l : List Stmt) :
    (((l.map transformA).flatten).filter namelessFC).length =
      (l.filter namelessFC).length := by
  induction l with
  | nil => rfl
  | cons a t ih =>
    rw [List.map_cons, List.flatten_cons, List.filter_append, List.length_append, ih,
      transformA_namelessFC_length]
    cases ha : namelessFC a with
    | true =>
      rw [if_pos rfl, List.filter_cons_of_pos ha, List.length_cons]
      omega
    | false =>
      rw [if_neg (by simp), List.filter_cons_of_neg (by simp [ha])]
      omega

theorem passBList_length : ∀ (l : List Stmt) (st : PassBSt),
    (passBList st l).2.length = l.length := by
  intro l
  induction l with
  | nil => intro st; rfl
  | cons a t ih =>
    intro st
    unfold passBList
    dsimp only
    rw [List.length_cons, ih]
    rfl

theorem grouped_assembly (col : CollectSt) (stA : List Stmt)
    (hW1 : ((stA.filter namelessFC)).length ≤ 1)
    (hW2 : stA.filter namelessFC ≠ [] → col.defaultExport = (⟨[]⟩ : String))
    (hnames : ∀ s ∈ stA, ∀ n, rangeName s = some n → n ∈ col.declaredNames) :
    let pb0 : PassBSt := { declared := col.declaredNames, defaultExport := col.defaultExport, inline := [] }
    let pbr := passBList pb0 stA
    let reordered := reorderWith (stA.map rangeName) pbr.2
    let withDefault := if pbr.1.defaultExport = (⟨[]⟩ : String) then reordered
      else reordered ++ [Stmt.exportAssign pbr.1.defaultExport]
    let withExports := if col.exportedNames = [] then withDefault
      else withDefault ++ [Stmt.exportDecl false
        (some (col.exportedNames.map (fun n => { propertyName := none, name := n }))) none]
    let imports := pbr.1.inline.reverse.map
      (fun pr => Stmt.importDecl false (.star pr.2) pr.1)
    groupedNames ((imports ++ withExports).map rangeName) := by
  intro pb0 pbr reordered withDefault withExports imports
  have hPnone : ∀ x ∈ imports.map rangeName, x = none := by
    intro x hx
    rcases List.mem_map.mp hx with ⟨s, hs, he⟩
    rcases List.mem_map.mp hs with ⟨pr, _, he2⟩
    rw [← he, ← he2]
    rfl
  have hwd : ∃ t1, withDefault = reordered ++ t1 ∧ ∀ x ∈ t1.map rangeName, x = none := by
    show ∃ t1, (if pbr.1.defaultExport = (⟨[]⟩ : String) then reordered
      else reordered ++ [Stmt.exportAssign pbr.1.defaultExport]) = reordered ++ t1 ∧
      ∀ x ∈ t1.map rangeName, x = none
    split
    · exact ⟨[], (List.append_nil _).symm, fun x hx => absurd hx (by simp)⟩
    · refine ⟨[Stmt.exportAssign pbr.1.defaultExport], rfl, ?_⟩
      intro x hx
      rcases List.mem_map.mp hx with ⟨s, hs, he⟩
      rw [List.mem_singleton] at hs
      subst hs
      rw [← he]
      rfl
  obtain ⟨t1, ht1, ht1n⟩ := hwd
  have hwe : ∃ tail, withExports = reordered ++ tail ∧ ∀ x ∈ tail.map rangeName, x = none := by
    show ∃ tail, (if col.exportedNames = [] then withDefault
      else withDefault ++ [Stmt.exportDecl false
        (some (col.exportedNames.map (fun n => { propertyName := none, name := n }))) none]) =
      reordered ++ tail ∧ ∀ x ∈ tail.map rangeName, x = none
    split
    · exact ⟨t1, ht1, ht1n⟩
    · refine ⟨t1 ++ [Stmt.exportDecl false
        (some (col.exportedNames.map (fun n => { propertyName := none, name := n }))) none],
        by rw [ht1, List.append_assoc], ?_⟩
      intro x hx
      rw [List.map_append] at hx
      rcases List.mem_append.mp hx with h0 | h0
      · exact ht1n x h0
      · rcases List.mem_map.mp h0 with ⟨s, hs, he⟩
        rw [List.mem_singleton] at hs
        subst hs
        rw [← he]
        rfl
  obtain ⟨tail, htail, htailn⟩ := hwe
  have hmid : groupedNames (reordered.map rangeName) := by
    show groupedNames ((reorderWith (stA.map rangeName) pbr.2).map rangeName)
    rw [reorderWith_map_rangeName]
    refine reorder_grouped ?_ ?_
    · show (pbr.2.map rangeName).length = (stA.map rangeName).length
      rw [List.length_map, List.length_map]
      exact passBList_length stA pb0
    · have hrel := passB_names_rel stA pb0 col.declaredNames (fun x hx => hx)
      by_cases hnil : stA.filter namelessFC = []
      · exact Or.inl (hrel.1 hnil)
      · have hde : pb0.defaultExport = (⟨[]⟩ : String) := hW2 hnil
        rcases hrel.2 hW1 hde with h0 | ⟨p, dn, hdn, hp, hNB⟩
        · exact Or.inl h0
        · refine Or.inr ⟨p, dn, hp, ?_, hNB⟩
          intro q hq
          rw [List.get?_map] at hq
          cases hs : stA.get? q with
          | none => rw [hs] at hq; cases hq
          | some s =>
            rw [hs] at hq
            exact hdn (hnames s (List.get?_mem hs) dn (Option.some.inj hq))
  rw [htail, List.map_append, List.map_append, ← List.append_assoc]
  exact grouped_extend hPnone htailn hmid

theorem preProcess_grouped (f : SrcFile)
    (hW1 : (f.stmts.filter namelessFC).length ≤ 1)
    (hW2 : f.stmts.any namelessFC = true →
      (f.stmts.foldl collectStmt collectInit).defaultExport = (⟨[]⟩ : String)) :
    groupedNames ((preProcess f).stmts.map rangeName) := by
  have hW1' : (((f.stmts.map transformA).flatten).filter namelessFC).length ≤ 1 := by
    rw [flatten_namelessFC_length]
    exact hW1
  have hW2' : ((f.stmts.map transformA).flatten).filter namelessFC ≠ [] →
      (f.stmts.foldl collectStmt collectInit).defaultExport = (⟨[]⟩ : String) := by
    intro hne
    refine hW2 ?_
    have hlen0 : 0 < (((f.stmts.map transformA).flatten).filter namelessFC).length :=
      List.length_pos.mpr hne
    rw [flatten_namelessFC_length] at hlen0
    rcases List.exists_mem_of_ne_nil _ (List.length_pos.mp hlen0) with ⟨x, hx⟩
    exact List.any_eq_true.mpr ⟨x, List.mem_of_mem_filter hx, List.of_mem_filter hx⟩
  exact grouped_assembly (f.stmts.foldl collectStmt collectInit)
    ((f.stmts.map transformA).flatten) hW1' hW2' (stA_names f)

theorem preProcess_canonical_file (g : SrcFile)
    (hcanon : ∀ s ∈ g.stmts, canonStmt s = true)
    (hg : groupedNames (g.stmts.map rangeName)) :
    (preProcess g).stmts = g.stmts := by
  have hout : ∀ s ∈ g.stmts, outStmtOk s = true := fun s hs => canon_outOk (hcanon s hs)
  have htA : (g.stmts.map transformA).flatten = g.stmts :=
    flatten_transformA (fun s hs => transformA_id (hout s hs))
  have hcol := collect_canon_fold g.stmts hout collectInit
  have hde : (g.stmts.foldl collectStmt collectInit).defaultExport = (⟨[]⟩ : String) := by
    rw [hcol.1]
    rfl
  have hen : (g.stmts.foldl collectStmt collectInit).exportedNames = [] := by
    rw [hcol.2]
    rfl
  unfold preProcess
  dsimp only
  rw [htA, passBList_canon g.stmts hcanon]
  dsimp only
  rw [if_pos hen, if_pos hde]
  show ([] : List (String × String)).reverse.map _ ++
    reorderWith (g.stmts.map rangeName) g.stmts = g.stmts
  rw [show (([] : List (String × String)).reverse.map
    (fun pr => Stmt.importDecl false (.star pr.2) pr.1)) = ([] : List Stmt) from rfl,
    List.nil_append]
  exact reorder_id_of_grouped hg (List.length_map _ _).symm

/-- C1: pre-processing is idempotent. For a well-formed declaration source
file — one with at most one anonymous (nameless) default-export function/class
declaration, no collected `export default` name when such an anonymous
declaration is present (a file cannot legally have two default exports), and
no inline `type` markers inside type-only imports — running
`DeclarationProcessor.preProcess` on a re-parse of the `preProcess` output
produces the same statement list, i.e. `preProcess(preProcess(D)) = preProcess(D)`. -/
theorem C1_preprocess_idempotent (f : SrcFile)
    (hW1 : (f.stmts.filter namelessFC).length ≤ 1)
    (hW2 : f.stmts.any namelessFC = true →
      (f.stmts.foldl collectStmt collectInit).defaultExport = (⟨[]⟩ : String))
    (hW3 : f.stmts.all typeOnlyClean = true) :
    (preProcess (reparse (preProcess f))).stmts = (preProcess f).stmts :=
  preProcess_canonical_file (reparse (preProcess f))
    (preProcess_canon f hW3)
    (preProcess_grouped f hW1 hW2)

theorem C1_preprocess_idempotent_witness :
    ((([(Stmt.decl DeclKind.interfaceD (some (⟨['A']⟩ : String))
        { hasExport := false, hasDefault := false, hasDeclare := false } false Stmts.nil [])]
      : List Stmt).filter namelessFC).length ≤ 1) ∧
    (preProcess (reparse (preProcess ⟨[], [],
      [Stmt.decl DeclKind.interfaceD (some (⟨['A']⟩ : String))
        { hasExport := false, hasDefault := false, hasDeclare := false } false Stmts.nil []]⟩))).stmts =
    (preProcess ⟨[], [],
      [Stmt.decl DeclKind.interfaceD (some (⟨['A']⟩ : String))
        { hasExport := false, hasDefault := false, hasDeclare := false } false Stmts.nil []]⟩).stmts :=
  ⟨by decide, C1_preprocess_idempotent ⟨[], [],
      [Stmt.decl DeclKind.interfaceD (some (⟨['A']⟩ : String))
        { hasExport := false, hasDefault := false, hasDeclare := false } false Stmts.nil []]⟩
    (by decide) (by decide) (by decide)⟩

theorem C9_value_exports_dominate_witness :
    ((⟨['V']⟩ : String) ∈ (combineExports [{ path := ⟨['/', 'a']⟩, stmts := [Stmt.exportDecl false (some [{ propertyName := none, name := ⟨['V']⟩ }]) none], identifiers := { types := [], values := [⟨['V']⟩] } }]).2) ∧
    (⟨['V']⟩ : String) ∉ (combineExports [{ path := ⟨['/', 'a']⟩, stmts := [Stmt.exportDecl false (some [{ propertyName := none, name := ⟨['V']⟩ }]) none], identifiers := { types := [], values := [⟨['V']⟩] } }]).1 :=
  ⟨by decide, C9_value_exports_dominate [{ path := ⟨['/', 'a']⟩, stmts := [Stmt.exportDecl false (some [{ propertyName := none, name := ⟨['V']⟩ }]) none], identifiers := { types := [], values := [⟨['V']⟩] } }] ⟨['V']⟩ (by decide)⟩
